import Mathlib

/-!
# Component-tree parser (MSER) of the video stabilizer

A shallow embedding of `stabilizer/OpenCVMatAccessor.hpp` and
`stabilizer/ComponentTreeParser.hpp`, followed by the properties proved about it.

Conventions of the embedding.

* `uchar` values are natural numbers below 256; a pixel read reduces modulo 256.
* `unsigned int` arithmetic is reduced modulo `2 ^ 32`.
* A `std::vector` that the code only uses through `push_back`, `back`, `pop_back` and
  `rbegin()[i]` is a list whose head is the back of the vector: the component stack,
  the buckets of the priority queue and the history of a component.
* `float` values are carried in exact rational arithmetic; the quotient that defines the
  stability keeps the two outcomes of a division by zero (`+∞` and NaN).
* Loops are recursions on a fuel counter.  Running out of fuel and touching a container
  out of range are reported as errors, so that termination and memory safety are theorems.
-/

namespace Stabilizer

/-! ## Data model -/

/-- The node index `cv::Point2i`. -/
structure Point2i where
  x : Int
  y : Int
deriving DecidableEq, Repr

/-- A single-channel 8-bit `cv::Mat`: `px r c` is the byte stored at row `r`, column `c`. -/
structure Mat where
  rows : Nat
  cols : Nat
  px : Int → Int → Nat

/-- The read `data_.at<uchar>(node)`: row `node.y`, column `node.x`, as a `uchar`. -/
def Mat.atUchar (m : Mat) (node : Point2i) : Nat :=
  m.px node.y node.x % 256

/-- The bounds test written out in `get_next_neighbor`. -/
def Mat.inBounds (m : Mat) (node : Point2i) : Prop :=
  0 ≤ node.x ∧ node.x < (m.cols : Int) ∧ 0 ≤ node.y ∧ node.y < (m.rows : Int)

instance (m : Mat) (node : Point2i) : Decidable (m.inBounds node) := by
  unfold Mat.inBounds; infer_instance

/-- How a run can leave the defined behaviour of the program. -/
inductive Err where
  | fuel
  | outOfRange
deriving DecidableEq, Repr

/-! ## OpenCVMatAccessor -/

/-- The class `OpenCVMatAccessor`: the image and the visit mask. -/
structure OpenCVMatAccessor where
  data_ : Mat
  mask_ : Point2i → Nat

namespace OpenCVMatAccessor

/-- The constant `OpenCVMatAccessor::inf`. -/
def inf : Nat := 255

/-- Modelled from the spec: `GraphAccessor::minf`, which the parser names and the accessor
does not declare; the least `uchar`. -/
def minf : Nat := 0

/-- Modelled from the spec: `GraphAccessor::less`, which the parser names and the accessor
does not declare; the strict order of the values. -/
def less (val1 val2 : Nat) : Bool := decide (val1 < val2)

/-- The constructor: the mask is `cv::Mat::zeros(data.rows, data.cols, CV_8U)`. -/
def new (data : Mat) : OpenCVMatAccessor :=
  { data_ := data, mask_ := fun _ => 0 }

/-- The method `get_source`: writes 1 into the mask at (0,0) and returns (0,0).  On an image
without a pixel the write is out of range. -/
def get_source (g : OpenCVMatAccessor) : Except Err (Point2i × OpenCVMatAccessor) :=
  let new_node : Point2i := { x := 0, y := 0 }
  if g.data_.inBounds new_node then
    .ok ({ x := 0, y := 0 }, { g with mask_ := Function.update g.mask_ new_node 1 })
  else
    .error Err.outOfRange

/-- The method `value`. -/
def value (g : OpenCVMatAccessor) (node : Point2i) : Nat :=
  g.data_.atUchar node

/-- Modelled from the spec: `graph.node(index)`, which the parser calls and the accessor does
not declare; for the raster binding a node is its coordinate. -/
def node (_g : OpenCVMatAccessor) (index : Point2i) : Point2i := index

/-- The `switch (mask_value)` of `get_next_neighbor`; case 0 falls through into case 1. -/
def next_node (node : Point2i) (mask_value : Nat) : Point2i :=
  match mask_value with
  | 0 => { x := node.x + 1, y := node.y }
  | 1 => { x := node.x + 1, y := node.y }
  | 2 => { x := node.x, y := node.y + 1 }
  | 3 => { x := node.x - 1, y := node.y }
  | _ => { x := node.x, y := node.y - 1 }

/-- The loop `while (mask_value < 5)` of `get_next_neighbor`.  Every turn increments the mask
of `node`, so `5 - mask_value` turns are all the loop can make; the counter starts there. -/
def get_next_neighbor_loop :
    Nat → OpenCVMatAccessor → Point2i → Option Point2i × OpenCVMatAccessor
  | 0, g, _ => (none, g)
  | k + 1, g, node =>
    let mask_value := g.mask_ node
    if mask_value < 5 then
      let nxt := next_node node mask_value
      let g1 : OpenCVMatAccessor := { g with mask_ := Function.update g.mask_ node (mask_value + 1) }
      if g1.data_.inBounds nxt then
        if g1.mask_ nxt = 0 then
          (some nxt, { g1 with mask_ := Function.update g1.mask_ nxt (g1.mask_ nxt + 1) })
        else get_next_neighbor_loop k g1 node
      else get_next_neighbor_loop k g1 node
    else (none, g)

/-- The method `get_next_neighbor`. -/
def get_next_neighbor (g : OpenCVMatAccessor) (node : Point2i) :
    Option Point2i × OpenCVMatAccessor :=
  get_next_neighbor_loop (5 - g.mask_ node) g node

end OpenCVMatAccessor

/-! ## OpenCVMatPriorityQueue -/

/-- The class `OpenCVMatPriorityQueue`: `points_ v` is bucket `v` (head = back of the vector),
`minimum_` the cursor. -/
structure OpenCVMatPriorityQueue where
  points_ : Nat → List Point2i
  minimum_ : Nat

namespace OpenCVMatPriorityQueue

/-- The default-constructed queue: 256 empty buckets, cursor at 255. -/
def empty : OpenCVMatPriorityQueue :=
  { points_ := fun _ => [], minimum_ := 255 }

/-- The method `push`; the parameter is a `uchar`. -/
def push (q : OpenCVMatPriorityQueue) (point : Point2i) (value : Nat) : OpenCVMatPriorityQueue :=
  let v := value % 256
  { points_ := Function.update q.points_ v (point :: q.points_ v),
    minimum_ := min q.minimum_ v }

/-- The loop `while (minimum_ < 255 && points_[minimum_].empty()) ++minimum_;` of `pop`.
Every turn increments the cursor, so `255 - minimum_` turns are all the loop can make. -/
def advance (points : Nat → List Point2i) : Nat → Nat → Nat
  | 0, minimum => minimum
  | k + 1, minimum =>
    if minimum < 255 ∧ points minimum = [] then advance points k (minimum + 1) else minimum

/-- The method `pop`. -/
def pop (q : OpenCVMatPriorityQueue) : Option Point2i × OpenCVMatPriorityQueue :=
  match q.points_ q.minimum_ with
  | [] => (none, q)
  | next_point :: rest =>
    let points := Function.update q.points_ q.minimum_ rest
    (some next_point, { points_ := points, minimum_ := advance points (255 - q.minimum_) q.minimum_ })

end OpenCVMatPriorityQueue

/-! ## OpenCVMatMserAnalyzer -/

/-- The values of the `float` field `stability`: an exact quotient, or what a division by
zero leaves (`inf` for a positive numerator, `nan` for 0/0). -/
inductive FloatVal where
  | finite (q : ℚ)
  | inf
  | nan
deriving DecidableEq

namespace FloatVal

/-- The comparison `a > b` of two floats; false as soon as a NaN is involved. -/
def gt : FloatVal → FloatVal → Bool
  | finite a, finite b => decide (b < a)
  | inf, finite _ => true
  | _, _ => false

/-- The comparison `a >= b` of two floats; false as soon as a NaN is involved. -/
def ge : FloatVal → FloatVal → Bool
  | finite a, finite b => decide (b ≤ a)
  | inf, finite _ => true
  | inf, inf => true
  | _, _ => false

/-- The quotient `static_cast<float>(a) / b` of two unsigned integers. -/
def div (a b : Nat) : FloatVal :=
  if b = 0 then (if a = 0 then nan else inf) else finite ((a : ℚ) / (b : ℚ))

end FloatVal

/-- Sum of two `unsigned int`. -/
def u32add (a b : Nat) : Nat := (a + b) % 2 ^ 32

/-- Difference of two `unsigned int`. -/
def u32sub (a b : Nat) : Nat := (a % 2 ^ 32 + 2 ^ 32 - b % 2 ^ 32) % 2 ^ 32

/-- Product of two `unsigned int`. -/
def u32mul (a b : Nat) : Nat := (a * b) % 2 ^ 32

/-- The struct `ComponentStats`; `mean` is (mean(0), mean(1)) and `cov` is
((cov(0,0), cov(0,1)), (cov(1,0), cov(1,1))). -/
structure ComponentStats where
  age : Nat := 0
  N : Nat := 0
  mean : ℚ × ℚ := (0, 0)
  cov : (ℚ × ℚ) × (ℚ × ℚ) := ((0, 0), (0, 0))
  stability : FloatVal := FloatVal.finite 0
deriving DecidableEq

/-- The struct `Component`; the head of `history` is `history.back()`. -/
structure Component where
  level : Nat
  stats : ComponentStats := {}
  history : List ComponentStats := []
deriving DecidableEq

/-- The class `OpenCVMatMserAnalyzer`; `result_` is in the order of the vector. -/
structure OpenCVMatMserAnalyzer where
  result_ : List ComponentStats := []
  finished_ : Bool := false
deriving DecidableEq

namespace OpenCVMatMserAnalyzer

/-- The member `min_N_`. -/
def min_N_ : Nat := 200

/-- The member `max_N_`. -/
def max_N_ : Nat := 14400

/-- The member `delta_`. -/
def delta_ : Nat := 5

/-- The member `min_stability_`. -/
def min_stability_ : FloatVal := FloatVal.finite 20

/-- The method `get_level`. -/
def get_level (comp : Component) : Nat := comp.level

/-- The method `get_result`. -/
def get_result (a : OpenCVMatMserAnalyzer) : List ComponentStats := a.result_

/-- The method `merge_componentstats_into_`: the new value of `comp2`. -/
def merge_componentstats_into_ (comp1 comp2 : ComponentStats) : ComponentStats :=
  let p : ℚ := (comp1.N : ℚ) / ((u32add comp1.N comp2.N : Nat) : ℚ)
  let q : ℚ := (comp2.N : ℚ) / ((u32add comp1.N comp2.N : Nat) : ℚ)
  let m1 : Fin 2 → ℚ := fun i => if i = 0 then comp1.mean.1 else comp1.mean.2
  let m2 : Fin 2 → ℚ := fun i => if i = 0 then comp2.mean.1 else comp2.mean.2
  let entry (c1 c2 : ℚ) (i j : Fin 2) : ℚ :=
    p * c1 + q * c2 + p * q * (m2 i - m1 i) * (m2 j - m1 j)
  { comp2 with
    cov := ((entry comp1.cov.1.1 comp2.cov.1.1 0 0, entry comp1.cov.1.2 comp2.cov.1.2 0 1),
            (entry comp1.cov.2.1 comp2.cov.2.1 1 0, entry comp1.cov.2.2 comp2.cov.2.2 1 1)),
    N := u32add comp1.N comp2.N,
    mean := (p * comp1.mean.1 + q * comp2.mean.1, p * comp1.mean.2 + q * comp2.mean.2) }

/-- The method `calculate_stability`.  `history.rbegin()[delta_ - 1]` is entry `delta_ - 1` of
the list, and there is none exactly when `history.size() < delta_`. -/
def calculate_stability (comp : Component) : Component :=
  match comp.history.get? (delta_ - 1) with
  | none => { comp with stats := { comp.stats with stability := FloatVal.finite 0 } }
  | some old =>
    let old_N := old.N
    { comp with stats := { comp.stats with
        stability := FloatVal.div (u32mul delta_ old_N) (u32sub comp.stats.N old_N) } }

/-- The method `check_mser_`. -/
def check_mser_ (a : OpenCVMatMserAnalyzer) (comp : Component) : OpenCVMatMserAnalyzer :=
  match comp.history with
  | succ :: examinee :: pred :: _ =>
    if examinee.stability.gt pred.stability = true ∧ examinee.stability.gt succ.stability = true
        ∧ min_N_ ≤ examinee.N ∧ examinee.N ≤ max_N_
        ∧ examinee.stability.ge min_stability_ = true then
      { a with result_ := a.result_ ++ [examinee] }
    else a
  | _ => a

/-- The block `if (level > component.level) { ... }` shared by `add_node` and (with the
statistics of the winner) `merge_component_into`: `level - from_level` copies of `stats` go
onto the history, the level is set, the MSER test runs. -/
def record_history (a : OpenCVMatMserAnalyzer) (comp : Component) (from_level : Nat)
    (stats : ComponentStats) (level : Nat) : OpenCVMatMserAnalyzer × Component :=
  if level > from_level then
    let comp1 : Component :=
      { comp with history := List.replicate (level - from_level) stats ++ comp.history,
                  level := level }
    (check_mser_ a comp1, comp1)
  else (a, comp)

/-- The method `add_node`. -/
def add_node (a : OpenCVMatMserAnalyzer) (node : Point2i) (level : Nat) (component : Component) :
    OpenCVMatMserAnalyzer × Component :=
  let node_comp : ComponentStats := { mean := ((node.x : ℚ), (node.y : ℚ)), N := 1 }
  let r := record_history a component component.level component.stats level
  (r.1, calculate_stability { r.2 with stats := merge_componentstats_into_ node_comp r.2.stats })

/-- The method `merge_component_into`: the new value of `comp2`.  `comp1` is left moved-from;
its only caller pops it right after. -/
def merge_component_into (a : OpenCVMatMserAnalyzer) (comp1 comp2 : Component) (level : Nat) :
    OpenCVMatMserAnalyzer × Component :=
  let winner : Component := if comp1.stats.N > comp2.stats.N then comp1 else comp2
  let comp2a : Component :=
    if comp1.stats.N > comp2.stats.N then { comp2 with history := comp1.history } else comp2
  let r := record_history a comp2a winner.level winner.stats level
  (r.1, calculate_stability { r.2 with stats := merge_componentstats_into_ comp1.stats r.2.stats })

/-- Modelled from the spec: `add_component(level)`, which the parser calls and the analyzer
does not declare; the component `Component(level)` with no node. -/
def add_component (a : OpenCVMatMserAnalyzer) (level : Nat) : OpenCVMatMserAnalyzer × Component :=
  (a, { level := level })

/-- Modelled from the spec: `add_component(node, level)`, which the parser calls and the
analyzer does not declare; an open component whose first node is `node`, a single node being
a component of `N = 1`, mean = its coordinates, covariance 0. -/
def add_component_node (a : OpenCVMatMserAnalyzer) (node : Point2i) (level : Nat) :
    OpenCVMatMserAnalyzer × Component :=
  (a, { level := level, stats := { mean := ((node.x : ℚ), (node.y : ℚ)), N := 1 } })

/-- Modelled from the spec: `raise_level(component, level)`, which the parser calls and the
analyzer does not declare; raises the level of a component without attaching a node, with the
history recording and MSER test of `add_node`. -/
def raise_level (a : OpenCVMatMserAnalyzer) (component : Component) (level : Nat) :
    OpenCVMatMserAnalyzer × Component :=
  record_history a component component.level component.stats level

end OpenCVMatMserAnalyzer

/-! ## ComponentTreeParser -/

/-- The class `ComponentTreeParser`, instantiated with the raster accessor, the MSER analyzer
and the bucket queue. -/
structure ComponentTreeParser where
  inverted_ : Bool := false

/-- The calls a run of `parse_` makes, in the order of the run.  A stack listed with an event
is `components_` after the call (`before` is the one the call found). -/
inductive Event where
  | init (stack : List Component)
  | push (node : Point2i) (value : Nat)
  | pop (node : Point2i)
  | raise_level (level : Nat) (before stack : List Component)
  | push_component (node : Point2i) (level : Nat) (stack : List Component)
  | push_node (node : Point2i) (level : Nat) (stack : List Component)
deriving DecidableEq

/-- The local state of `parse_`: its three arguments, `components_` of the component stack
and the flag.  `trace` lists the calls made so far, newest first; it is written, never read. -/
structure ParseState where
  graph : OpenCVMatAccessor
  analyzer : OpenCVMatMserAnalyzer
  boundary_nodes : OpenCVMatPriorityQueue
  components_ : List Component
  flowingdown_phase : Bool
  trace : List Event

namespace ComponentTreeParser

/-- The method `less`. -/
def less (p : ComponentTreeParser) (val1 val2 : Nat) : Bool :=
  if !p.inverted_ then OpenCVMatAccessor.less val1 val2 else OpenCVMatAccessor.less val2 val1

/-- The method `inf`. -/
def inf (p : ComponentTreeParser) : Nat :=
  if !p.inverted_ then OpenCVMatAccessor.inf else OpenCVMatAccessor.minf

/-- The constructor of `ComponentStack`: the sentinel component at level `inf()`. -/
def ComponentStack (p : ComponentTreeParser) (a : OpenCVMatMserAnalyzer) :
    OpenCVMatMserAnalyzer × List Component :=
  let r := a.add_component p.inf
  (r.1, [r.2])

/-- The method `ComponentStack::push_component`. -/
def push_component (a : OpenCVMatMserAnalyzer) (components : List Component)
    (node : Point2i) (level : Nat) : OpenCVMatMserAnalyzer × List Component :=
  let r := a.add_component_node node level
  (r.1, r.2 :: components)

/-- The method `ComponentStack::push_node`; `components_.back()` needs a component. -/
def push_node (a : OpenCVMatMserAnalyzer) (components : List Component)
    (node : Point2i) (level : Nat) : Except Err (OpenCVMatMserAnalyzer × List Component) :=
  match components with
  | [] => .error Err.outOfRange
  | top :: rest =>
    let r := a.add_node node level top
    .ok (r.1, r.2 :: rest)

/-- The loop of `ComponentStack::raise_level`; `components_.back()` needs one component and
`components_.rbegin()[1]` two. -/
def raise_level_loop (p : ComponentTreeParser) :
    Nat → OpenCVMatMserAnalyzer → List Component → Nat →
      Except Err (OpenCVMatMserAnalyzer × List Component)
  | 0, _, _, _ => .error Err.fuel
  | k + 1, a, components, level =>
    match components with
    | [] => .error Err.outOfRange
    | top :: below =>
      if p.less (OpenCVMatMserAnalyzer.get_level top) level = true then
        match below with
        | [] => .error Err.outOfRange
        | next :: rest =>
          let next_level := OpenCVMatMserAnalyzer.get_level next
          if p.less level next_level = true then
            let r := a.raise_level top level
            raise_level_loop p k r.1 (r.2 :: next :: rest) level
          else
            let r := a.merge_component_into top next level
            raise_level_loop p k r.1 (r.2 :: rest) level
      else .ok (a, components)

/-- The method `ComponentStack::raise_level`.  A turn of the loop either pops a component or
raises the top to `level`, so it is given one turn per component and one more. -/
def raise_level (p : ComponentTreeParser) (a : OpenCVMatMserAnalyzer)
    (components : List Component) (level : Nat) :
    Except Err (OpenCVMatMserAnalyzer × List Component) :=
  raise_level_loop p (components.length + 1) a components level

/-- The loop `while (auto neighbor_or_none = graph.get_next_neighbor(current_node))` of
`parse_`: the state and the node that is current when the loop ends. -/
def explore (p : ComponentTreeParser) : Nat → ParseState → Point2i → Except Err (ParseState × Point2i)
  | 0, _, _ => .error Err.fuel
  | k + 1, st, current_node =>
    match st.graph.get_next_neighbor current_node with
    | (none, g) => .ok ({ st with graph := g }, current_node)
    | (some neighbor_node, g) =>
      if p.less (g.value neighbor_node) (g.value current_node) = true then
        explore p k
          { st with
            graph := g,
            flowingdown_phase := true,
            boundary_nodes := st.boundary_nodes.push current_node (g.value current_node),
            trace := Event.push current_node (g.value current_node) :: st.trace }
          neighbor_node
      else
        explore p k
          { st with
            graph := g,
            boundary_nodes := st.boundary_nodes.push neighbor_node (g.value neighbor_node),
            trace := Event.push neighbor_node (g.value neighbor_node) :: st.trace }
          current_node

/-- The body of the loop `while (auto current_node_or_none = boundary_nodes.pop())` of
`parse_`, from `raise_level` on, for the popped node `current_node`. -/
def visit (p : ComponentTreeParser) (fuel : Nat) (st : ParseState) (current_node : Point2i) :
    Except Err ParseState :=
  let level := st.graph.value current_node
  match raise_level p st.analyzer st.components_ level with
  | .error e => .error e
  | .ok r =>
    match explore p fuel
        { st with analyzer := r.1, components_ := r.2,
                  trace := Event.raise_level level st.components_ r.2 :: st.trace }
        current_node with
    | .error e => .error e
    | .ok (st2, node) =>
      if st2.flowingdown_phase = true then
        let r2 := push_component st2.analyzer st2.components_ (st2.graph.node node)
          (st2.graph.value node)
        .ok { st2 with analyzer := r2.1, components_ := r2.2, flowingdown_phase := false,
                       trace := Event.push_component node (st2.graph.value node) r2.2 :: st2.trace }
      else
        match push_node st2.analyzer st2.components_ (st2.graph.node node)
            (st2.graph.value node) with
        | .error e => .error e
        | .ok r2 =>
          .ok { st2 with analyzer := r2.1, components_ := r2.2,
                         trace := Event.push_node node (st2.graph.value node) r2.2 :: st2.trace }

/-- The loop `while (auto current_node_or_none = boundary_nodes.pop())` of `parse_`. -/
def main_loop (p : ComponentTreeParser) (fuel : Nat) : Nat → ParseState → Except Err ParseState
  | 0, _ => .error Err.fuel
  | k + 1, st =>
    match st.boundary_nodes.pop with
    | (none, q) => .ok { st with boundary_nodes := q }
    | (some current_node, q) =>
      match visit p fuel
          { st with boundary_nodes := q, trace := Event.pop current_node :: st.trace }
          current_node with
      | .error e => .error e
      | .ok st1 => main_loop p fuel k st1

/-- The method `parse_`, up to the state it is in when it reads `analyzer.get_result()`.
`fuel` bounds the turns of the pop loop and of each neighbour loop. -/
def parse_ (p : ComponentTreeParser) (fuel : Nat) (graph : OpenCVMatAccessor)
    (analyzer : OpenCVMatMserAnalyzer) (boundary_nodes : OpenCVMatPriorityQueue) :
    Except Err ParseState :=
  let component_stack := ComponentStack p analyzer
  match graph.get_source with
  | .error e => .error e
  | .ok (source_node, g) =>
    main_loop p fuel fuel
      { graph := g,
        analyzer := component_stack.1,
        boundary_nodes := boundary_nodes.push source_node (g.value source_node),
        components_ := component_stack.2,
        flowingdown_phase := true,
        trace := [Event.push source_node (g.value source_node), Event.init component_stack.2] }

/-- The fuel `run` gives `parse_`: one turn per pixel and one more. -/
def fuelFor (data : Mat) : Nat := data.rows * data.cols + 1

/-- The call `operator() (const Data& data)`, up to the final state of `parse_`; the queue
`PriorityQueue{inverted_}` is the default-constructed bucket queue. -/
def run (p : ComponentTreeParser) (data : Mat) : Except Err ParseState :=
  parse_ p (fuelFor data) (OpenCVMatAccessor.new data) {} OpenCVMatPriorityQueue.empty

/-- The call `operator() (const Data& data)`: the result of the analyzer. -/
def call (p : ComponentTreeParser) (data : Mat) : Except Err (List ComponentStats) :=
  match run p data with
  | .error e => .error e
  | .ok st => .ok st.analyzer.get_result

end ComponentTreeParser

/-! ## Reading a trace -/

/-- The nodes returned by the successful `pop` calls of a trace. -/
def popped : List Event → List Point2i
  | [] => []
  | Event.pop n :: t => n :: popped t
  | _ :: t => popped t

/-- The nodes handed to `push` in a trace. -/
def pushed : List Event → List Point2i
  | [] => []
  | Event.push n _ :: t => n :: pushed t
  | _ :: t => pushed t

/-- The nodes of the `push_component` calls of a trace. -/
def newComponentNodes : List Event → List Point2i
  | [] => []
  | Event.push_component n _ _ :: t => n :: newComponentNodes t
  | _ :: t => newComponentNodes t

/-- The nodes of the `push_node` calls of a trace. -/
def addedNodes : List Event → List Point2i
  | [] => []
  | Event.push_node n _ _ :: t => n :: addedNodes t
  | _ :: t => addedNodes t

/-- The component stacks a trace lists: after the construction and after every `raise_level`,
`push_component` and `push_node`. -/
def stackLog : List Event → List (List Component)
  | [] => []
  | Event.init s :: t => s :: stackLog t
  | Event.raise_level _ _ s :: t => s :: stackLog t
  | Event.push_component _ _ s :: t => s :: stackLog t
  | Event.push_node _ _ s :: t => s :: stackLog t
  | _ :: t => stackLog t

/-! ## Sequences of queue operations, and the frontier the queue is specified by -/

/-- One operation on a frontier. -/
inductive FrontierOp where
  | push (point : Point2i) (value : Nat)
  | pop
deriving DecidableEq

namespace OpenCVMatPriorityQueue

/-- The queue after one operation. -/
def perform (q : OpenCVMatPriorityQueue) : FrontierOp → OpenCVMatPriorityQueue
  | FrontierOp.push point value => q.push point value
  | FrontierOp.pop => q.pop.2

/-- The queue after a sequence of operations on the default-constructed queue. -/
def after (ops : List FrontierOp) : OpenCVMatPriorityQueue :=
  ops.foldl perform empty

end OpenCVMatPriorityQueue

/-- The specification of the frontier, in the words of the spec: a store of nodes with their
values, newest first, whose `pop` takes the most recently pushed node of minimum value. -/
structure Frontier where
  entries : List (Point2i × Nat)
deriving DecidableEq

namespace Frontier

/-- The least value of the stored nodes (255, the largest `uchar`, when nothing is stored). -/
def minValue : List (Point2i × Nat) → Nat
  | [] => 255
  | e :: m => min e.2 (minValue m)

/-- The most recently pushed of the stored nodes of value `v`. -/
def newestWith (v : Nat) : List (Point2i × Nat) → Option Point2i
  | [] => none
  | e :: m => if e.2 = v then some e.1 else newestWith v m

/-- The store without the most recently pushed of its nodes of value `v`. -/
def removeNewestWith (v : Nat) : List (Point2i × Nat) → List (Point2i × Nat)
  | [] => []
  | e :: m => if e.2 = v then m else e :: removeNewestWith v m

/-- The stored nodes of value `v`, newest first. -/
def bucket (f : Frontier) (v : Nat) : List Point2i :=
  (f.entries.filter (fun e => decide (e.2 = v))).map Prod.fst

/-- The frontier operation `push(node, value)`; the value is a `uchar`. -/
def push (f : Frontier) (point : Point2i) (value : Nat) : Frontier :=
  { entries := (point, value % 256) :: f.entries }

/-- The frontier operation `pop() → node | none`: a node of minimum value, the most recently
pushed one of them, is returned and removed. -/
def pop (f : Frontier) : Option Point2i × Frontier :=
  match newestWith (minValue f.entries) f.entries with
  | none => (none, f)
  | some n => (some n, { entries := removeNewestWith (minValue f.entries) f.entries })

/-- The frontier after one operation. -/
def perform (f : Frontier) : FrontierOp → Frontier
  | FrontierOp.push point value => f.push point value
  | FrontierOp.pop => f.pop.2

/-- The frontier after a sequence of operations on the empty frontier. -/
def after (ops : List FrontierOp) : Frontier :=
  ops.foldl perform { entries := [] }

end Frontier

/-- Every stored value is a `uchar`. -/
def Frontier.Bounded (f : Frontier) : Prop := ∀ e ∈ f.entries, e.2 ≤ 255

/-- The queue stores what the frontier `f` stores: bucket by bucket, with the cursor on the
least stored value. -/
def OpenCVMatPriorityQueue.Refines (q : OpenCVMatPriorityQueue) (f : Frontier) : Prop :=
  (∀ v, q.points_ v = f.bucket v) ∧ q.minimum_ = Frontier.minValue f.entries ∧ f.Bounded

/-! ## Sequences of neighbour requests -/

namespace OpenCVMatAccessor

/-- The answers of `get_next_neighbor` to a sequence of requests, and the accessor after. -/
def askAll (g : OpenCVMatAccessor) : List Point2i → List (Option Point2i) × OpenCVMatAccessor
  | [] => ([], g)
  | node :: nodes =>
    let r := g.get_next_neighbor node
    let rs := askAll r.2 nodes
    (r.1 :: rs.1, rs.2)

/-- The nodes returned to a sequence of requests. -/
def returnedTo (g : OpenCVMatAccessor) (nodes : List Point2i) : List Point2i :=
  (g.askAll nodes).1.reduceOption

/-- The mask says of every direction a node has gone past that the neighbour there, when it
is a pixel, is reached. -/
def Checked (g : OpenCVMatAccessor) : Prop :=
  ∀ (n : Point2i) (d : Nat), 1 ≤ d → d < g.mask_ n → g.data_.inBounds (next_node n d) →
    g.mask_ (next_node n d) ≠ 0

/-- What one call of `get_next_neighbor g node` with outcome `r` does to the mask. -/
structure NeighborStep (g : OpenCVMatAccessor) (node : Point2i)
    (r : Option Point2i × OpenCVMatAccessor) : Prop where
  data_eq : r.2.data_ = g.data_
  mono : ∀ n, g.mask_ n ≤ r.2.mask_ n
  frame : ∀ n, n ≠ node → r.1 ≠ some n → r.2.mask_ n = g.mask_ n
  ret : ∀ v, r.1 = some v →
    v ≠ node ∧ g.mask_ v = 0 ∧ g.data_.inBounds v ∧ r.2.mask_ v = 1 ∧
      g.mask_ node < r.2.mask_ node ∧ r.2.mask_ node ≤ 5
  checked : Checked g → Checked r.2
  bound : (∀ n, g.mask_ n ≤ 5) → ∀ n, r.2.mask_ n ≤ 5

end OpenCVMatAccessor

/-! ## Shapes of the component stack -/

/-- The bottom of the stack (the last of the list) is a component at level `inf`: the
sentinel. -/
def Grounded (inf : Nat) (components : List Component) : Prop :=
  components.getLast?.map Component.level = some inf

instance (inf : Nat) (components : List Component) : Decidable (Grounded inf components) := by
  unfold Grounded; infer_instance

/-! ## The bookkeeping of a run -/

/-- The nodes of the node events of a trace: of its `push_component` and `push_node` calls. -/
def visited : List Event → List Point2i
  | [] => []
  | Event.push_component n _ _ :: t => n :: visited t
  | Event.push_node n _ _ :: t => n :: visited t
  | _ :: t => visited t

/-- The pixels of an image, as a finite set. -/
def Mat.pixels (m : Mat) : Finset Point2i :=
  (Finset.range m.cols ×ˢ Finset.range m.rows).image
    (fun c : Nat × Nat => ({ x := (c.1 : Int), y := (c.2 : Int) } : Point2i))

/-- The bookkeeping a run of `parse_` on `data` keeps, with `hand` the node that is current
(none at the head of the pop loop) and `f` the frontier the queue stands for: the reached
nodes are the current node, the queued nodes and the nodes that had their node event, each
once; a node that had its node event has an exhausted cursor. -/
structure Base (data : Mat) (hand : List Point2i) (st : ParseState) (f : Frontier) : Prop where
  data_eq : st.graph.data_ = data
  refines : st.boundary_nodes.Refines f
  values : ∀ e ∈ f.entries, e.2 = data.atUchar e.1
  mask_le : ∀ n, st.graph.mask_ n ≤ 5
  checked : st.graph.Checked
  nodup : (hand ++ (f.entries.map Prod.fst ++ visited st.trace)).Nodup
  reached : ∀ n, st.graph.mask_ n ≠ 0 ↔ n ∈ hand ++ (f.entries.map Prod.fst ++ visited st.trace)
  inb : ∀ n, st.graph.mask_ n ≠ 0 → data.inBounds n
  done : ∀ n ∈ visited st.trace, st.graph.mask_ n = 5
  source : st.graph.mask_ { x := 0, y := 0 } ≠ 0
  pops : (popped st.trace).length = (visited st.trace).length + hand.length
  grounded : Grounded 255 st.components_

/-! ## The MSER test, and the scenario of the single blob -/

/-- The record `r` is the examinee `check_mser_` takes from `history` and emits: it stands
second in the history, after the snapshot `pred` before it and before the snapshot `succ`
after it (the newest), its stability is strictly above that of both, its size is within
`min_N_` and `max_N_` and its stability is at least `min_stability_`. -/
def OpenCVMatMserAnalyzer.ExamineeOf (history : List ComponentStats) (r : ComponentStats) :
    Prop :=
  ∃ succ pred tail, history = succ :: r :: pred :: tail ∧
    r.stability.gt pred.stability = true ∧ r.stability.gt succ.stability = true ∧
    OpenCVMatMserAnalyzer.min_N_ ≤ r.N ∧ r.N ≤ OpenCVMatMserAnalyzer.max_N_ ∧
    r.stability.ge OpenCVMatMserAnalyzer.min_stability_ = true

/-- The levels of the stack and the values of the image are 0 or 255. -/
def TwoLevel (components : List Component) : Prop :=
  ∀ c ∈ components, c.level = 0 ∨ c.level = 255

/-- The image of scenario S2: 120×120, 255 everywhere except for the solid disk of radius 40
around the centre, which is 0.  The centre is (`twiceCentre`/2, `twiceCentre`/2): the pixel
(60,60) for 120, the point (59.5,59.5) for 119. -/
def scenarioS2 (twiceCentre : Int) : Mat :=
  { rows := 120, cols := 120,
    px := fun r c =>
      if (2 * c - twiceCentre) ^ 2 + (2 * r - twiceCentre) ^ 2 ≤ (2 * 40) ^ 2 then 0 else 255 }

/-! ## The order between the levels of the stack and the values of the frontier -/

/-- The levels of the components of a stack, top first. -/
def levelsOf (components : List Component) : List Nat :=
  components.map Component.level

/-- The levels of the stack after `raise_level(level)` in non-inverted mode, from the levels
before; on a single component below `level` the call itself fails. -/
def raiseLevels (level : Nat) : List Nat → List Nat
  | [] => []
  | [top] => [top]
  | top :: next :: rest =>
    if top < level then
      if level < next then level :: next :: rest else level :: rest
    else top :: next :: rest

/-- The levels rise strictly from the top of the stack to the bottom, up to 255: from a level
to a level further down the level rises, or the lower one is at 255. -/
def RisingTo255 (levels : List Nat) : Prop :=
  levels.Pairwise (fun a b => a < b ∨ b = 255)

/-- The levels rise strictly from the top of the stack to the bottom, which is at `inf`. -/
def StrictlyRising (inf : Nat) (levels : List Nat) : Prop :=
  levels.Pairwise (fun a b => a < b) ∧ levels.getLast? = some inf

/-- Every level but the bottom one is below 255. -/
def Below255 (levels : List Nat) : Prop :=
  ∀ l ∈ levels.dropLast, l < 255

/-- The order at the head of the pop loop, between the levels of the stack, the flag and the
entries of the frontier: the levels rise to 255; once the first turn is over no queued value
is below the top level; every level under the top that is not 255 is the value of a queued
node; before the first turn the stack is the sentinel. -/
structure Ordered (levels : List Nat) (fd : Bool) (entries : List (Point2i × Nat)) : Prop where
  sorted : RisingTo255 levels
  above : fd = false → ∀ l ∈ levels.head?, ∀ e ∈ entries, l ≤ e.2
  queued : ∀ l ∈ levels.tail, l < 255 → ∃ e ∈ entries, e.2 = l
  first : fd = true → levels = [255]

/-- The order inside the neighbour loop, with `v` the value of the current node: no queued
value and no top level is below `v`; without a descent in this turn the top level is `v`;
after a descent (or in the first turn) the top level is above `v` or at 255, and is the value
of a queued node unless at 255. -/
structure Exploring (levels : List Nat) (fd : Bool) (entries : List (Point2i × Nat)) (v : Nat) :
    Prop where
  sorted : RisingTo255 levels
  floor : ∀ e ∈ entries, v ≤ e.2
  below_top : ∀ l ∈ levels.head?, v ≤ l
  at_top : fd = false → ∀ l ∈ levels.head?, l = v
  descended : fd = true → ∀ l ∈ levels.head?,
    (v < l ∨ l = 255) ∧ (l < 255 → ∃ e ∈ entries, e.2 = l)
  queued : ∀ l ∈ levels.tail, l < 255 → ∃ e ∈ entries, e.2 = l

/-! ## Further scenarios and readings of a run -/

/-- The image of scenario S1: 10×10, all pixels 128. -/
def scenarioS1 : Mat :=
  { rows := 10, cols := 10, px := fun _ _ => 128 }

/-- The image of one pixel of value 0. -/
def onePixel : Mat :=
  { rows := 1, cols := 1, px := fun _ _ => 0 }

/-- The image of one row with the two pixels 5 and 3. -/
def twoPixels : Mat :=
  { rows := 1, cols := 2, px := fun _ c => if c = 0 then 5 else 3 }

/-- The four neighbours of a node, in the order `get_next_neighbor` tries them. -/
def neighbours4 (node : Point2i) : List Point2i :=
  [{ x := node.x + 1, y := node.y }, { x := node.x, y := node.y + 1 },
   { x := node.x - 1, y := node.y }, { x := node.x, y := node.y - 1 }]

/-- The value `calculate_stability` gives a record of `N` pixels on top of the history
`history`: 0 when the history has fewer than `delta_` snapshots, else the quotient of
`delta_ * old_N` by `N - old_N` in `unsigned int` arithmetic, `old_N` being the pixel count of
the snapshot `delta_` positions back. -/
def stabilityOn (N : Nat) (history : List ComponentStats) : FloatVal :=
  match history.get? (OpenCVMatMserAnalyzer.delta_ - 1) with
  | none => FloatVal.finite 0
  | some old => FloatVal.div (u32mul OpenCVMatMserAnalyzer.delta_ old.N) (u32sub N old.N)

/-- Every snapshot of a history either carries the stability computed on top of the snapshots
before it, or is a further copy of the snapshot right before it (`history` is newest first). -/
def Stamped : List ComponentStats → Prop
  | [] => True
  | x :: rest =>
    (x.stability = stabilityOn x.N rest ∨ ∃ y t, rest = y :: t ∧ x = y) ∧ Stamped rest

/-- Every snapshot of a history either carries the stability computed on the snapshots before
it, all of them smaller, or is a copy of the snapshot right before it. -/
def Rising : List ComponentStats → Prop
  | [] => True
  | x :: rest =>
    ((x.stability = stabilityOn x.N rest ∧ ∀ h ∈ rest, h.N < x.N) ∨ ∃ t, rest = x :: t)
      ∧ Rising rest

/-- The sizes of the components of a stack, top first. -/
def sizesOf (components : List Component) : List Nat :=
  components.map (fun c => c.stats.N)

/-- An image of no pixel: 0 rows and 0 columns. -/
def emptyImage : Mat := { rows := 0, cols := 0, px := fun _ _ => 0 }

/-- An image of zero height: 0 rows of 3 columns. -/
def noRows : Mat := { rows := 0, cols := 3, px := fun _ _ => 0 }

/-- The image of one pixel of value 255. -/
def whitePixel : Mat := { rows := 1, cols := 1, px := fun _ _ => 255 }

/-- The image of one row with the values 3, 5, 3: two minima that meet at level 5. -/
def valley : Mat := { rows := 1, cols := 3, px := fun _ c => if c = 1 then 5 else 3 }

/-! ## Images of one row -/

/-- The image of one row of 202 pixels: 199 pixels of value 0, then the values 5, 6 and 7.
The region of the first 200 pixels is stable: it gains one pixel over the five levels before
level 5. -/
def ramp : Mat :=
  { rows := 1, cols := 202,
    px := fun _ c => if c < 199 then 0 else if c = 199 then 5 else if c = 200 then 6 else 7 }

/-- The node of column `k` in the first row. -/
def rowNode (k : Nat) : Point2i := { x := (k : Int), y := 0 }

/-- The calls one turn of the pop loop of `parse_` makes on the component stack when the
popped node is `rowNode k` and the neighbour loop does not descend: `raise_level` with the
value of the node, then `push_component` in the first turn and `push_node` in the others. -/
def rowTurn (p : ComponentTreeParser) (data : Mat)
    (s : Except Err (OpenCVMatMserAnalyzer × List Component)) (k : Nat) :
    Except Err (OpenCVMatMserAnalyzer × List Component) :=
  match s with
  | .error e => .error e
  | .ok s =>
    match ComponentTreeParser.raise_level p s.1 s.2 (data.atUchar (rowNode k)) with
    | .error e => .error e
    | .ok r =>
      if k = 0 then
        .ok (r.1, (ComponentTreeParser.push_component r.1 r.2 (rowNode k)
          (data.atUchar (rowNode k))).2)
      else ComponentTreeParser.push_node r.1 r.2 (rowNode k) (data.atUchar (rowNode k))

/-- The analyzer and the component stack after the turns for the first `k` nodes of the
first row, from the stack of the constructor. -/
def rowCalls (p : ComponentTreeParser) (data : Mat) (k : Nat) :
    Except Err (OpenCVMatMserAnalyzer × List Component) :=
  (List.range k).foldl (rowTurn p data) (.ok (ComponentTreeParser.ComponentStack p {}))

end Stabilizer

namespace Stabilizer

/-! ## The bucket queue -/

namespace Frontier

theorem minValue_le_255 (m : List (Point2i × Nat)) : minValue m ≤ 255 := by
  induction m with
  | nil => simp [minValue]
  | cons e m ih => simp only [minValue]; exact le_trans (min_le_right _ _) ih

theorem minValue_le_of_mem {m : List (Point2i × Nat)} {e : Point2i × Nat} (h : e ∈ m) :
    minValue m ≤ e.2 := by
  induction m with
  | nil => cases h
  | cons a m ih =>
    simp only [minValue]
    rcases List.mem_cons.1 h with rfl | h
    · exact min_le_left _ _
    · exact le_trans (min_le_right _ _) (ih h)

theorem minValue_attained {m : List (Point2i × Nat)} (hne : m ≠ [])
    (hb : ∀ e ∈ m, e.2 ≤ 255) : ∃ e ∈ m, e.2 = minValue m := by
  induction m with
  | nil => exact absurd rfl hne
  | cons a m ih =>
    simp only [minValue]
    by_cases hle : a.2 ≤ minValue m
    · exact ⟨a, List.mem_cons_self _ _, (min_eq_left hle).symm⟩
    · have hlt : minValue m < a.2 := Nat.lt_of_not_le hle
      have hm : m ≠ [] := by
        rintro rfl
        have := hb a (List.mem_cons_self _ _)
        simp [minValue] at hlt
        omega
      obtain ⟨e, he, hv⟩ := ih hm (fun e he => hb e (List.mem_cons_of_mem _ he))
      exact ⟨e, List.mem_cons_of_mem _ he, by rw [hv, min_eq_right (le_of_lt hlt)]⟩

theorem bucket_cons (e : Point2i × Nat) (m : List (Point2i × Nat)) (v : Nat) :
    bucket { entries := e :: m } v
      = if e.2 = v then e.1 :: bucket { entries := m } v else bucket { entries := m } v := by
  unfold bucket
  by_cases h : e.2 = v <;> simp [List.filter_cons, h]

theorem bucket_nil (v : Nat) : bucket { entries := [] } v = [] := rfl

theorem mem_bucket {m : List (Point2i × Nat)} {n : Point2i} {v : Nat} :
    n ∈ bucket { entries := m } v ↔ (n, v) ∈ m := by
  unfold bucket
  simp only [List.mem_map, List.mem_filter, decide_eq_true_eq]
  constructor
  · rintro ⟨⟨a, b⟩, ⟨hmem, rfl⟩, rfl⟩
    exact hmem
  · intro h
    exact ⟨(n, v), ⟨h, rfl⟩, rfl⟩

theorem newestWith_eq_head (v : Nat) (m : List (Point2i × Nat)) :
    newestWith v m = (bucket { entries := m } v).head? := by
  induction m with
  | nil => rfl
  | cons e m ih =>
    rw [bucket_cons]
    by_cases h : e.2 = v
    · simp [newestWith, h]
    · simp [newestWith, h, ih]

theorem bucket_removeNewestWith (v w : Nat) (m : List (Point2i × Nat)) :
    bucket { entries := removeNewestWith v m } w
      = if w = v then (bucket { entries := m } v).tail else bucket { entries := m } w := by
  induction m with
  | nil => simp [removeNewestWith, bucket]
  | cons e m ih =>
    by_cases h : e.2 = v
    · by_cases hw : w = v
      · subst hw
        simp [removeNewestWith, h, bucket_cons]
      · have hvw : ¬ v = w := fun h2 => hw h2.symm
        subst h
        simp [removeNewestWith, bucket_cons, hw, hvw]
    · by_cases hw : w = v
      · subst hw
        simp [removeNewestWith, h, bucket_cons, ih]
      · simp only [removeNewestWith, h, if_false, bucket_cons, ih, hw]

theorem mem_of_mem_removeNewestWith {v : Nat} {m : List (Point2i × Nat)} {e : Point2i × Nat}
    (h : e ∈ removeNewestWith v m) : e ∈ m := by
  induction m with
  | nil => simp [removeNewestWith] at h
  | cons a m ih =>
    by_cases ha : a.2 = v
    · simp only [removeNewestWith, ha, if_true] at h
      exact List.mem_cons_of_mem _ h
    · simp only [removeNewestWith, ha, if_false] at h
      rcases List.mem_cons.1 h with rfl | h
      · exact List.mem_cons_self _ _
      · exact List.mem_cons_of_mem _ (ih h)

theorem bounded_perform {f : Frontier} (h : f.Bounded) (op : FrontierOp) :
    (f.perform op).Bounded := by
  cases op with
  | push point value =>
    intro e he
    simp only [perform, push] at he
    rcases List.mem_cons.1 he with rfl | he
    · have := Nat.mod_lt value (show 0 < 256 by decide)
      simp only; omega
    · exact h e he
  | pop =>
    intro e he
    simp only [perform, pop] at he
    split at he
    · exact h e he
    · exact h e (mem_of_mem_removeNewestWith he)

end Frontier

namespace OpenCVMatPriorityQueue

/-- The cursor loop stops at the first non-empty bucket from `minimum` on, or at 255. -/
theorem advance_spec (points : Nat → List Point2i) :
    ∀ (k minimum : Nat), minimum + k = 255 → (∀ i, i < minimum → points i = []) →
      minimum ≤ advance points k minimum ∧ advance points k minimum ≤ 255 ∧
      (∀ i, i < advance points k minimum → points i = []) ∧
      (advance points k minimum < 255 → points (advance points k minimum) ≠ []) := by
  intro k
  induction k with
  | zero =>
    intro minimum hk hlow
    simp only [advance]
    exact ⟨le_rfl, by omega, hlow, fun h => by omega⟩
  | succ k ih =>
    intro minimum hk hlow
    simp only [advance]
    by_cases hc : minimum < 255 ∧ points minimum = []
    · rw [if_pos hc]
      have hlow2 : ∀ i, i < minimum + 1 → points i = [] := by
        intro i hi
        rcases Nat.lt_succ_iff_lt_or_eq.1 hi with h | h
        · exact hlow i h
        · rw [h]; exact hc.2
      obtain ⟨h1, h2, h3, h4⟩ := ih (minimum + 1) (by omega) hlow2
      exact ⟨by omega, h2, h3, h4⟩
    · rw [if_neg hc]
      refine ⟨le_rfl, by omega, hlow, fun h hp => hc ⟨h, hp⟩⟩

/-- The counter of the cursor loop never cuts the loop short: from `255 - minimum_` turns on,
a turn more changes nothing. -/
theorem advance_succ (points : Nat → List Point2i) (k : Nat) :
    ∀ minimum : Nat, 255 - minimum ≤ k →
      advance points (k + 1) minimum = advance points k minimum := by
  induction k with
  | zero =>
    intro minimum hk
    have : ¬ minimum < 255 := by omega
    simp [advance, this]
  | succ k ih =>
    intro minimum hk
    have h1 : advance points (k + 1 + 1) minimum
        = if minimum < 255 ∧ points minimum = [] then advance points (k + 1) (minimum + 1)
          else minimum := rfl
    have h2 : advance points (k + 1) minimum
        = if minimum < 255 ∧ points minimum = [] then advance points k (minimum + 1)
          else minimum := rfl
    rw [h1, h2, ih (minimum + 1) (by omega)]

theorem refines_empty : Refines empty { entries := [] } :=
  ⟨fun _ => rfl, rfl, fun _ h => by cases h⟩

theorem refines_push {q : OpenCVMatPriorityQueue} {f : Frontier} (h : Refines q f)
    (point : Point2i) (value : Nat) : Refines (q.push point value) (f.push point value) := by
  obtain ⟨hb, hm, hbd⟩ := h
  refine ⟨?_, ?_, Frontier.bounded_perform hbd (FrontierOp.push point value)⟩
  · intro v
    simp only [push, Frontier.push, Frontier.bucket_cons]
    by_cases hv : value % 256 = v
    · subst hv
      simp [hb]
    · rw [if_neg hv, Function.update_noteq (Ne.symm hv), hb]
  · simp only [push, Frontier.push, Frontier.minValue, hm]
    exact min_comm _ _

/-- The cursor characterises the least stored value. -/
theorem minValue_unique {f : Frontier} (hbd : f.Bounded) {r : Nat} (hr : r ≤ 255)
    (hlow : ∀ i, i < r → f.bucket i = []) (hat : r < 255 → f.bucket r ≠ []) :
    r = Frontier.minValue f.entries := by
  by_cases hne : f.entries = []
  · rw [hne]
    simp only [Frontier.minValue]
    by_contra hcon
    have hlt : r < 255 := by omega
    apply hat hlt
    unfold Frontier.bucket
    rw [hne]; rfl
  · obtain ⟨e, he, hv⟩ := Frontier.minValue_attained hne hbd
    have hmem : e.1 ∈ f.bucket e.2 := Frontier.mem_bucket.2 he
    have h1 : r ≤ e.2 := by
      by_contra hcon
      have := hlow e.2 (Nat.lt_of_not_le hcon)
      rw [this] at hmem
      cases hmem
    rw [← hv]
    by_cases hlt : r < 255
    · have hne2 := hat hlt
      obtain ⟨n, hn⟩ := List.exists_mem_of_ne_nil _ hne2
      have := Frontier.minValue_le_of_mem (Frontier.mem_bucket.1 hn)
      simp only at this
      omega
    · have := hbd e he
      omega

theorem pop_eq {q : OpenCVMatPriorityQueue} {f : Frontier} (h : Refines q f) :
    q.pop.1 = f.pop.1 ∧ Refines q.pop.2 f.pop.2 := by
  obtain ⟨hb, hm, hbd⟩ := h
  have hhead := Frontier.newestWith_eq_head (Frontier.minValue f.entries) f.entries
  cases hq : q.points_ q.minimum_ with
  | nil =>
    have hbk : f.bucket (Frontier.minValue f.entries) = [] := by rw [← hb, ← hm]; exact hq
    have hnone : Frontier.newestWith (Frontier.minValue f.entries) f.entries = none := by
      rw [hhead]
      show (f.bucket _).head? = none
      rw [hbk]; rfl
    simp only [pop, hq, Frontier.pop, hnone]
    exact ⟨trivial, hb, hm, hbd⟩
  | cons n rest =>
    have hbk : f.bucket (Frontier.minValue f.entries) = n :: rest := by rw [← hb, ← hm]; exact hq
    have hsome : Frontier.newestWith (Frontier.minValue f.entries) f.entries = some n := by
      rw [hhead]
      show (f.bucket _).head? = some n
      rw [hbk]; rfl
    have hbd2 : Frontier.Bounded
        { entries := Frontier.removeNewestWith (Frontier.minValue f.entries) f.entries } :=
      fun e he => hbd e (Frontier.mem_of_mem_removeNewestWith he)
    have hbuckets : ∀ v, Function.update q.points_ q.minimum_ rest v
        = Frontier.bucket
            { entries := Frontier.removeNewestWith (Frontier.minValue f.entries) f.entries } v := by
      intro v
      rw [Frontier.bucket_removeNewestWith]
      by_cases hv : v = Frontier.minValue f.entries
      · rw [if_pos hv, hv, ← hm, Function.update_same]
        show rest = (f.bucket _).tail
        rw [hm, hbk]; rfl
      · rw [if_neg hv, Function.update_noteq (by rw [hm]; exact hv)]
        exact hb v
    simp only [pop, hq, Frontier.pop, hsome]
    refine ⟨trivial, hbuckets, ?_, hbd2⟩
    have hmin255 : q.minimum_ ≤ 255 := by rw [hm]; exact Frontier.minValue_le_255 _
    have hlow : ∀ i, i < q.minimum_ → Function.update q.points_ q.minimum_ rest i = [] := by
      intro i hi
      rw [Function.update_noteq (Nat.ne_of_lt hi), hb]
      by_contra hcon
      obtain ⟨x, hx⟩ := List.exists_mem_of_ne_nil _ hcon
      have := Frontier.minValue_le_of_mem (Frontier.mem_bucket.1 hx)
      simp only at this
      omega
    obtain ⟨h1, h2, h3, h4⟩ :=
      advance_spec (Function.update q.points_ q.minimum_ rest) (255 - q.minimum_) q.minimum_
        (by omega) hlow
    apply minValue_unique hbd2 h2
    · intro i hi
      rw [← hbuckets]; exact h3 i hi
    · intro hlt
      rw [← hbuckets]; exact h4 hlt

theorem refines_perform {q : OpenCVMatPriorityQueue} {f : Frontier} (h : Refines q f)
    (op : FrontierOp) : Refines (q.perform op) (f.perform op) := by
  cases op with
  | push point value => exact refines_push h point value
  | pop => exact (pop_eq h).2

theorem refines_foldl (ops : List FrontierOp) :
    ∀ (q : OpenCVMatPriorityQueue) (f : Frontier), Refines q f →
      Refines (ops.foldl perform q) (ops.foldl Frontier.perform f) := by
  induction ops with
  | nil => intro q f h; exact h
  | cons op ops ih => intro q f h; exact ih _ _ (refines_perform h op)

theorem refines_after (ops : List FrontierOp) : Refines (after ops) (Frontier.after ops) :=
  refines_foldl ops _ _ refines_empty

end OpenCVMatPriorityQueue

end Stabilizer

namespace Stabilizer

/-! ## The accessor -/

namespace OpenCVMatAccessor

theorem next_node_ne (node : Point2i) (m : Nat) : next_node node m ≠ node := by
  intro h
  have hx := congrArg Point2i.x h
  have hy := congrArg Point2i.y h
  unfold next_node at hx hy
  split at hx <;> simp at hx hy

/-- The neighbour loop, whatever its counter: the frame of one call. -/
theorem get_next_neighbor_loop_step (k : Nat) :
    ∀ (g : OpenCVMatAccessor) (node : Point2i),
      NeighborStep g node (get_next_neighbor_loop k g node) := by
  induction k with
  | zero =>
    intro g node
    simp only [get_next_neighbor_loop]
    exact ⟨rfl, fun _ => le_rfl, fun _ _ _ => rfl, fun v h => (by cases h), id, id⟩
  | succ k ih =>
    intro g node
    simp only [get_next_neighbor_loop]
    by_cases hlt : g.mask_ node < 5
    · rw [if_pos hlt]
      have hne := next_node_ne node (g.mask_ node)
      have hm1 : Function.update g.mask_ node (g.mask_ node + 1) (next_node node (g.mask_ node))
          = g.mask_ (next_node node (g.mask_ node)) := Function.update_noteq hne _ _
      -- the accessor after the increment of the mask of `node`
      have hchk1 : (g.data_.inBounds (next_node node (g.mask_ node)) →
            g.mask_ (next_node node (g.mask_ node)) ≠ 0) → Checked g →
          Checked { g with mask_ := Function.update g.mask_ node (g.mask_ node + 1) } := by
        intro hskip hc n d hd hdlt hin
        simp only at hdlt hin ⊢
        have hnz : g.mask_ (next_node n d) ≠ 0 := by
          by_cases hn : n = node
          · subst hn
            rw [Function.update_same] at hdlt
            rcases Nat.lt_succ_iff_lt_or_eq.1 hdlt with h | h
            · exact hc n d hd h hin
            · subst h; exact hskip hin
          · rw [Function.update_noteq hn] at hdlt
            exact hc n d hd hdlt hin
        by_cases hn2 : next_node n d = node
        · rw [hn2, Function.update_same]; omega
        · rw [Function.update_noteq hn2]; exact hnz
      have hcont : (g.data_.inBounds (next_node node (g.mask_ node)) →
            g.mask_ (next_node node (g.mask_ node)) ≠ 0) →
          NeighborStep g node (get_next_neighbor_loop k
            { g with mask_ := Function.update g.mask_ node (g.mask_ node + 1) } node) := by
        intro hskip
        have h := ih { g with mask_ := Function.update g.mask_ node (g.mask_ node + 1) } node
        have hmono1 : ∀ n, g.mask_ n ≤ Function.update g.mask_ node (g.mask_ node + 1) n := by
          intro n
          by_cases hn : n = node
          · subst hn; rw [Function.update_same]; omega
          · rw [Function.update_noteq hn]
        refine ⟨h.data_eq, fun n => le_trans (hmono1 n) (h.mono n), ?_, ?_, ?_, ?_⟩
        · intro n hn hr
          rw [h.frame n hn hr]
          exact Function.update_noteq hn _ _
        · intro v hv
          obtain ⟨h1, h2, h3, h4, h5, h6⟩ := h.ret v hv
          simp only at h2 h3 h5
          rw [Function.update_noteq h1] at h2
          rw [Function.update_same] at h5
          exact ⟨h1, h2, h3, h4, by omega, h6⟩
        · intro hc
          exact h.checked (hchk1 hskip hc)
        · intro hb
          apply h.bound
          intro n
          simp only
          by_cases hn : n = node
          · subst hn; rw [Function.update_same]; omega
          · rw [Function.update_noteq hn]; exact hb n
      by_cases hin : g.data_.inBounds (next_node node (g.mask_ node))
      · rw [if_pos hin]
        by_cases hz : g.mask_ (next_node node (g.mask_ node)) = 0
        · simp only [hm1]
          rw [if_pos hz]
          simp only [hz, zero_add]
          refine ⟨rfl, ?_, ?_, ?_, ?_, ?_⟩
          · intro n
            simp only
            by_cases hn2 : n = next_node node (g.mask_ node)
            · rw [hn2, Function.update_same, hz]; omega
            · rw [Function.update_noteq hn2]
              by_cases hn : n = node
              · subst hn; rw [Function.update_same]; omega
              · rw [Function.update_noteq hn]
          · intro n hn hr
            simp only at hr ⊢
            have hn2 : n ≠ next_node node (g.mask_ node) := fun h => hr (by rw [h])
            rw [Function.update_noteq hn2, Function.update_noteq hn]
          · intro v hv
            simp only [Option.some.injEq] at hv
            subst hv
            simp only
            refine ⟨hne, hz, hin, Function.update_same _ _ _, ?_, ?_⟩
            · rw [Function.update_noteq (Ne.symm hne), Function.update_same]; omega
            · rw [Function.update_noteq (Ne.symm hne), Function.update_same]; omega
          · intro hc n d hd hdlt hin2
            simp only at hdlt hin2 ⊢
            have hnz : ∀ x, g.mask_ x ≠ 0 →
                Function.update (Function.update g.mask_ node (g.mask_ node + 1))
                  (next_node node (g.mask_ node)) 1 x ≠ 0 := by
              intro x hx
              by_cases hx2 : x = next_node node (g.mask_ node)
              · rw [hx2, Function.update_same]; omega
              · rw [Function.update_noteq hx2]
                by_cases hx1 : x = node
                · rw [hx1, Function.update_same]; omega
                · rw [Function.update_noteq hx1]; exact hx
            by_cases hn2 : n = next_node node (g.mask_ node)
            · rw [hn2, Function.update_same] at hdlt; omega
            · rw [Function.update_noteq hn2] at hdlt
              by_cases hn : n = node
              · subst hn
                rw [Function.update_same] at hdlt
                rcases Nat.lt_succ_iff_lt_or_eq.1 hdlt with h | h
                · exact hnz _ (hc n d hd h hin2)
                · subst h; rw [Function.update_same]; omega
              · rw [Function.update_noteq hn] at hdlt
                exact hnz _ (hc n d hd hdlt hin2)
          · intro hb n
            simp only
            by_cases hn2 : n = next_node node (g.mask_ node)
            · rw [hn2, Function.update_same]; omega
            · rw [Function.update_noteq hn2]
              by_cases hn : n = node
              · subst hn; rw [Function.update_same]; omega
              · rw [Function.update_noteq hn]; exact hb n
        · simp only [hm1]
          rw [if_neg hz]
          exact hcont (fun _ => hz)
      · rw [if_neg hin]
        exact hcont (fun h => absurd h hin)
    · rw [if_neg hlt]
      exact ⟨rfl, fun _ => le_rfl, fun _ _ _ => rfl, fun v h => (by cases h), id, id⟩

/-- The counter of the neighbour loop never cuts the loop short: from `5 - mask_value` turns
on, a turn more changes nothing. -/
theorem get_next_neighbor_loop_succ (k : Nat) :
    ∀ (g : OpenCVMatAccessor) (node : Point2i), 5 - g.mask_ node ≤ k →
      get_next_neighbor_loop (k + 1) g node = get_next_neighbor_loop k g node := by
  induction k with
  | zero =>
    intro g node hk
    have : ¬ g.mask_ node < 5 := by omega
    simp [get_next_neighbor_loop, this]
  | succ k ih =>
    intro g node hk
    rw [get_next_neighbor_loop, get_next_neighbor_loop.eq_def (k + 1)]
    simp only
    have hrec := ih { g with mask_ := Function.update g.mask_ node (g.mask_ node + 1) } node
      (by simp only [Function.update_same]; omega)
    rw [hrec]

theorem get_next_neighbor_step (g : OpenCVMatAccessor) (node : Point2i) :
    NeighborStep g node (g.get_next_neighbor node) :=
  get_next_neighbor_loop_step _ g node

theorem get_next_neighbor_loop_none (k : Nat) :
    ∀ (g : OpenCVMatAccessor) (node : Point2i), 5 ≤ g.mask_ node + k →
      (get_next_neighbor_loop k g node).1 = none →
      5 ≤ (get_next_neighbor_loop k g node).2.mask_ node := by
  induction k with
  | zero =>
    intro g node hk _
    simpa [get_next_neighbor_loop] using hk
  | succ k ih =>
    intro g node hk
    simp only [get_next_neighbor_loop]
    by_cases hlt : g.mask_ node < 5
    · rw [if_pos hlt]
      have hrec := ih { g with mask_ := Function.update g.mask_ node (g.mask_ node + 1) } node
        (by simp only [Function.update_same]; omega)
      by_cases hin : g.data_.inBounds (next_node node (g.mask_ node))
      · rw [if_pos hin]
        by_cases hz : Function.update g.mask_ node (g.mask_ node + 1)
            (next_node node (g.mask_ node)) = 0
        · rw [if_pos hz]; intro h; cases h
        · rw [if_neg hz]; exact hrec
      · rw [if_neg hin]; exact hrec
    · rw [if_neg hlt]
      intro _
      exact Nat.le_of_not_lt hlt

/-- When `get_next_neighbor` answers none, the cursor of the node is exhausted. -/
theorem get_next_neighbor_none {g : OpenCVMatAccessor} {node : Point2i}
    (h : (g.get_next_neighbor node).1 = none) : 5 ≤ (g.get_next_neighbor node).2.mask_ node :=
  get_next_neighbor_loop_none _ g node (by omega) h

theorem returnedTo_nil (g : OpenCVMatAccessor) : g.returnedTo [] = [] := rfl

theorem returnedTo_cons (g : OpenCVMatAccessor) (node : Point2i) (nodes : List Point2i) :
    g.returnedTo (node :: nodes)
      = match (g.get_next_neighbor node).1 with
        | none => (g.get_next_neighbor node).2.returnedTo nodes
        | some v => v :: (g.get_next_neighbor node).2.returnedTo nodes := by
  unfold returnedTo
  simp only [askAll]
  cases (g.get_next_neighbor node).1 with
  | none => simp [List.reduceOption_cons_of_none]
  | some v => simp [List.reduceOption_cons_of_some]

theorem askAll_data (nodes : List Point2i) :
    ∀ g : OpenCVMatAccessor, (g.askAll nodes).2.data_ = g.data_ := by
  induction nodes with
  | nil => intro g; rfl
  | cons node nodes ih =>
    intro g
    simp only [askAll]
    rw [ih, (get_next_neighbor_step g node).data_eq]

/-- Every node returned to a sequence of requests was unreached before it and is a pixel, and
none is returned twice. -/
theorem returnedTo_spec (nodes : List Point2i) :
    ∀ g : OpenCVMatAccessor, (g.returnedTo nodes).Nodup ∧
      ∀ v ∈ g.returnedTo nodes, g.mask_ v = 0 ∧ g.data_.inBounds v := by
  induction nodes with
  | nil => intro g; exact ⟨List.nodup_nil, fun v hv => by cases hv⟩
  | cons node nodes ih =>
    intro g
    have hstep := get_next_neighbor_step g node
    obtain ⟨hnd, hall⟩ := ih (g.get_next_neighbor node).2
    have hback : ∀ v ∈ (g.get_next_neighbor node).2.returnedTo nodes,
        g.mask_ v = 0 ∧ g.data_.inBounds v := by
      intro v hv
      obtain ⟨h1, h2⟩ := hall v hv
      have := hstep.mono v
      rw [hstep.data_eq] at h2
      exact ⟨by omega, h2⟩
    rw [returnedTo_cons]
    cases hr : (g.get_next_neighbor node).1 with
    | none => exact ⟨hnd, hback⟩
    | some w =>
      obtain ⟨_, h2, h3, h4, _, _⟩ := hstep.ret w hr
      refine ⟨List.nodup_cons.2 ⟨?_, hnd⟩, ?_⟩
      · intro hmem
        have := (hall w hmem).1
        omega
      · intro v hv
        rcases List.mem_cons.1 hv with rfl | hv
        · exact ⟨h2, h3⟩
        · exact hback v hv

end OpenCVMatAccessor

end Stabilizer

namespace Stabilizer

/-! ## Levels of the components the analyzer hands back -/

namespace OpenCVMatMserAnalyzer

theorem calculate_stability_level (comp : Component) :
    (calculate_stability comp).level = comp.level := by
  unfold calculate_stability
  split <;> rfl

theorem calculate_stability_history (comp : Component) :
    (calculate_stability comp).history = comp.history := by
  unfold calculate_stability
  split <;> rfl

theorem record_history_level (a : OpenCVMatMserAnalyzer) (comp : Component) (from_level : Nat)
    (stats : ComponentStats) (level : Nat) :
    (record_history a comp from_level stats level).2.level
      = if level > from_level then level else comp.level := by
  unfold record_history
  split <;> rfl

theorem add_node_level (a : OpenCVMatMserAnalyzer) (node : Point2i) (level : Nat)
    (component : Component) :
    (a.add_node node level component).2.level
      = if level > component.level then level else component.level := by
  simp only [add_node, calculate_stability_level, record_history_level]

theorem raise_level_level (a : OpenCVMatMserAnalyzer) (component : Component) (level : Nat) :
    (a.raise_level component level).2.level
      = if level > component.level then level else component.level := by
  simp only [raise_level, record_history_level]

theorem merge_component_into_level (a : OpenCVMatMserAnalyzer) (comp1 comp2 : Component)
    (level : Nat) (h1 : comp1.level < level) (h2 : comp2.level ≤ level) :
    (a.merge_component_into comp1 comp2 level).2.level = level := by
  simp only [merge_component_into, calculate_stability_level, record_history_level]
  by_cases hw : comp1.stats.N > comp2.stats.N
  · simp only [hw, if_true]
    rw [if_pos h1]
  · simp only [hw, if_false]
    by_cases hlt : level > comp2.level
    · rw [if_pos hlt]
    · rw [if_neg hlt]; omega

end OpenCVMatMserAnalyzer

/-! ## ComponentStack::raise_level -/

namespace ComponentTreeParser

theorem less_eq (p : ComponentTreeParser) (hp : p.inverted_ = false) (a b : Nat) :
    p.less a b = decide (a < b) := by
  simp [less, hp, OpenCVMatAccessor.less]

theorem inf_eq (p : ComponentTreeParser) (hp : p.inverted_ = false) : p.inf = 255 := by
  simp [inf, hp, OpenCVMatAccessor.inf]

/-- In non-inverted mode `raise_level(level)` makes at most one turn: nothing when the top is
at `level` or above, else a raise of the top when `level` is below the second level, else one
merge of the top into the second. -/
theorem raise_level_eq (p : ComponentTreeParser) (hp : p.inverted_ = false)
    (a : OpenCVMatMserAnalyzer) (components : List Component) (level : Nat) :
    raise_level p a components level =
      match components with
      | [] => .error Err.outOfRange
      | top :: below =>
        if top.level < level then
          match below with
          | [] => .error Err.outOfRange
          | next :: rest =>
            if level < next.level then
              .ok ((a.raise_level top level).1, (a.raise_level top level).2 :: next :: rest)
            else
              .ok ((a.merge_component_into top next level).1,
                (a.merge_component_into top next level).2 :: rest)
        else .ok (a, components) := by
  unfold raise_level
  cases components with
  | nil => simp [raise_level_loop]
  | cons top below =>
    simp only [raise_level_loop, List.length_cons, less_eq p hp, decide_eq_true_eq,
      OpenCVMatMserAnalyzer.get_level]
    by_cases h1 : top.level < level
    · simp only [h1, if_true]
      cases below with
      | nil => rfl
      | cons next rest =>
        simp only [List.length_cons]
        by_cases h2 : level < next.level
        · simp only [h2, if_true]
          have hl : (a.raise_level top level).2.level = level := by
            rw [OpenCVMatMserAnalyzer.raise_level_level, if_pos h1]
          simp only [raise_level_loop, less_eq p hp, decide_eq_true_eq,
            OpenCVMatMserAnalyzer.get_level, hl, lt_irrefl, if_false]
        · simp only [h2, if_false]
          have hl : (a.merge_component_into top next level).2.level = level :=
            OpenCVMatMserAnalyzer.merge_component_into_level a top next level h1
              (Nat.le_of_not_lt h2)
          simp only [raise_level_loop, less_eq p hp, decide_eq_true_eq,
            OpenCVMatMserAnalyzer.get_level, hl, lt_irrefl, if_false]
    · simp only [h1, if_false]

end ComponentTreeParser

theorem grounded_singleton {inf : Nat} {c : Component} : Grounded inf [c] ↔ c.level = inf := by
  simp [Grounded]

theorem grounded_cons_cons {inf : Nat} {c d : Component} {cs : List Component} :
    Grounded inf (c :: d :: cs) ↔ Grounded inf (d :: cs) := by
  simp [Grounded, List.getLast?_cons_cons]

theorem not_grounded_nil {inf : Nat} : ¬ Grounded inf [] := by
  simp [Grounded]

theorem grounded_cons {inf : Nat} {c : Component} {cs : List Component}
    (h : Grounded inf cs) : Grounded inf (c :: cs) := by
  cases cs with
  | nil => exact absurd h not_grounded_nil
  | cons d cs => exact grounded_cons_cons.2 h

namespace ComponentTreeParser

/-- What `raise_level(level)` does to a stack that rests on the sentinel. -/
theorem raise_level_spec (p : ComponentTreeParser) (hp : p.inverted_ = false)
    (a : OpenCVMatMserAnalyzer) (components : List Component) (level : Nat)
    (hlevel : level ≤ 255) (hbot : Grounded 255 components) :
    ∃ a1 top rest, raise_level p a components level = .ok (a1, top :: rest) ∧
      Grounded 255 (top :: rest) ∧ level ≤ top.level ∧
      (top.level = level ∨ (level < top.level ∧ top :: rest = components ∧ a1 = a)) := by
  rw [raise_level_eq p hp]
  cases components with
  | nil => exact absurd hbot not_grounded_nil
  | cons top below =>
    by_cases h1 : top.level < level
    · simp only [h1, if_true]
      cases below with
      | nil =>
        have := grounded_singleton.1 hbot
        omega
      | cons next rest =>
        by_cases h2 : level < next.level
        · simp only [h2, if_true]
          have hl : (a.raise_level top level).2.level = level := by
            rw [OpenCVMatMserAnalyzer.raise_level_level, if_pos h1]
          refine ⟨_, _, _, rfl, ?_, by omega, Or.inl hl⟩
          exact grounded_cons_cons.2 (grounded_cons_cons.1 hbot)
        · simp only [h2, if_false]
          have hl : (a.merge_component_into top next level).2.level = level :=
            OpenCVMatMserAnalyzer.merge_component_into_level a top next level h1
              (Nat.le_of_not_lt h2)
          refine ⟨_, _, _, rfl, ?_, by omega, Or.inl hl⟩
          have hb2 := grounded_cons_cons.1 hbot
          cases rest with
          | nil =>
            have := grounded_singleton.1 hb2
            exact grounded_singleton.2 (by omega)
          | cons d rest => exact grounded_cons_cons.2 (grounded_cons_cons.1 hb2)
    · simp only [h1, if_false]
      refine ⟨a, top, below, rfl, hbot, by omega, ?_⟩
      rcases Nat.lt_or_eq_of_le (Nat.le_of_not_lt h1) with h | h
      · exact Or.inr ⟨h, rfl, rfl⟩
      · exact Or.inl h.symm

end ComponentTreeParser

end Stabilizer

namespace Stabilizer

/-! ## Counting pixels -/

theorem Mat.mem_pixels (m : Mat) (n : Point2i) : n ∈ m.pixels ↔ m.inBounds n := by
  simp only [Mat.pixels, Finset.mem_image, Finset.mem_product, Finset.mem_range, Prod.exists,
    Mat.inBounds]
  constructor
  · rintro ⟨a, b, ⟨ha, hb⟩, rfl⟩
    simp only
    omega
  · rintro ⟨h1, h2, h3, h4⟩
    refine ⟨n.x.toNat, n.y.toNat, ⟨by omega, by omega⟩, ?_⟩
    obtain ⟨x, y⟩ := n
    simp only at h1 h3
    simp only [Point2i.mk.injEq]
    exact ⟨Int.toNat_of_nonneg h1, Int.toNat_of_nonneg h3⟩

theorem Mat.card_pixels (m : Mat) : m.pixels.card = m.rows * m.cols := by
  unfold Mat.pixels
  rw [Finset.card_image_of_injective]
  · rw [Finset.card_product, Finset.card_range, Finset.card_range, Nat.mul_comm]
  · rintro ⟨a, b⟩ ⟨c, d⟩ h
    simp only [Point2i.mk.injEq, Nat.cast_inj] at h
    exact Prod.ext h.1 h.2

/-- A list of pixels without repetition is no longer than the image is large. -/
theorem length_le_pixels (m : Mat) (l : List Point2i) (hnd : l.Nodup)
    (hin : ∀ n ∈ l, m.inBounds n) : l.length ≤ m.rows * m.cols := by
  rw [← Mat.card_pixels, ← List.toFinset_card_of_nodup hnd]
  apply Finset.card_le_card
  intro n hn
  exact (Mat.mem_pixels m n).2 (hin n (List.mem_toFinset.1 hn))

/-- A list without repetition that holds exactly the pixels is as long as the image is
large. -/
theorem length_eq_pixels (m : Mat) (l : List Point2i) (hnd : l.Nodup)
    (hin : ∀ n, n ∈ l ↔ m.inBounds n) : l.length = m.rows * m.cols := by
  rw [← Mat.card_pixels, ← List.toFinset_card_of_nodup hnd]
  congr 1
  ext n
  rw [List.mem_toFinset, Mat.mem_pixels, hin]

/-! ## Taking the newest node of a value out of a frontier -/

namespace Frontier

theorem perm_removeNewestWith {v : Nat} {m : List (Point2i × Nat)} {n : Point2i}
    (h : newestWith v m = some n) : m.Perm ((n, v) :: removeNewestWith v m) := by
  induction m with
  | nil => simp [newestWith] at h
  | cons e m ih =>
    by_cases he : e.2 = v
    · simp only [newestWith, he, if_true, Option.some.injEq] at h
      simp only [removeNewestWith, he, if_true]
      have : e = (n, v) := Prod.ext h he
      rw [this]
    · simp only [newestWith, he, if_false] at h
      simp only [removeNewestWith, he, if_false]
      exact (List.Perm.cons e (ih h)).trans (List.Perm.swap _ _ _)

theorem mem_removeNewestWith_of_ne {v : Nat} {m : List (Point2i × Nat)} {e : Point2i × Nat}
    (he : e ∈ m) (hne : e.2 ≠ v) : e ∈ removeNewestWith v m := by
  induction m with
  | nil => cases he
  | cons a m ih =>
    by_cases ha : a.2 = v
    · simp only [removeNewestWith, ha, if_true]
      rcases List.mem_cons.1 he with rfl | h
      · exact absurd ha hne
      · exact h
    · simp only [removeNewestWith, ha, if_false]
      rcases List.mem_cons.1 he with rfl | h
      · exact List.mem_cons_self _ _
      · exact List.mem_cons_of_mem _ (ih h)

end Frontier

namespace OpenCVMatPriorityQueue

/-- A successful `pop`, read on the frontier the queue stands for. -/
theorem pop_some {q q1 : OpenCVMatPriorityQueue} {f : Frontier} {n : Point2i}
    (h : Refines q f) (hp : q.pop = (some n, q1)) :
    Frontier.newestWith (Frontier.minValue f.entries) f.entries = some n ∧
      Refines q1 { entries := Frontier.removeNewestWith (Frontier.minValue f.entries) f.entries } := by
  obtain ⟨h1, h2⟩ := pop_eq h
  rw [hp] at h1 h2
  simp only at h1 h2
  unfold Frontier.pop at h1 h2
  cases hn : Frontier.newestWith (Frontier.minValue f.entries) f.entries with
  | none => rw [hn] at h1; cases h1
  | some w =>
    rw [hn] at h1 h2
    simp only [Option.some.injEq] at h1
    subst h1
    exact ⟨rfl, h2⟩

/-- A `pop` that answers none, read on the frontier the queue stands for. -/
theorem pop_none {q : OpenCVMatPriorityQueue} {f : Frontier}
    (h : Refines q f) (hp : q.pop.1 = none) : f.entries = [] := by
  obtain ⟨h1, _⟩ := pop_eq h
  rw [hp] at h1
  unfold Frontier.pop at h1
  cases hn : Frontier.newestWith (Frontier.minValue f.entries) f.entries with
  | some w => rw [hn] at h1; cases h1
  | none =>
    by_contra hne
    obtain ⟨e, he, hv⟩ := Frontier.minValue_attained hne h.2.2
    rw [Frontier.newestWith_eq_head] at hn
    have hmem : e.1 ∈ Frontier.bucket { entries := f.entries } e.2 := Frontier.mem_bucket.2 he
    rw [hv] at hmem
    cases hb : Frontier.bucket { entries := f.entries } (Frontier.minValue f.entries) with
    | nil => rw [hb] at hmem; cases hmem
    | cons a l => rw [hb] at hn; cases hn

end OpenCVMatPriorityQueue

end Stabilizer

namespace Stabilizer

/-! ## Induction along a run of the parser -/

namespace OpenCVMatPriorityQueue

theorem pop_none_snd {q : OpenCVMatPriorityQueue} (h : q.pop.1 = none) : q.pop.2 = q := by
  unfold pop at h ⊢
  split at h
  · rfl
  · cases h

end OpenCVMatPriorityQueue

namespace ComponentTreeParser

/-- The neighbour loop, turn by turn: a property of the state and the current node that every
turn keeps holds when the loop ends, where `get_next_neighbor` has answered none. -/
theorem explore_ind (p : ComponentTreeParser) (J : ParseState → Point2i → Prop)
    (hdown : ∀ g a q cs fd tr c v g1, J ⟨g, a, q, cs, fd, tr⟩ c →
      g.get_next_neighbor c = (some v, g1) → p.less (g1.value v) (g1.value c) = true →
      J ⟨g1, a, q.push c (g1.value c), cs, true, Event.push c (g1.value c) :: tr⟩ v)
    (hstay : ∀ g a q cs fd tr c v g1, J ⟨g, a, q, cs, fd, tr⟩ c →
      g.get_next_neighbor c = (some v, g1) → ¬ p.less (g1.value v) (g1.value c) = true →
      J ⟨g1, a, q.push v (g1.value v), cs, fd, Event.push v (g1.value v) :: tr⟩ c) :
    ∀ (k : Nat) (st : ParseState) (c : Point2i) (st1 : ParseState) (c1 : Point2i),
      J st c → explore p k st c = .ok (st1, c1) →
      ∃ g a q cs fd tr g1, J ⟨g, a, q, cs, fd, tr⟩ c1 ∧ g.get_next_neighbor c1 = (none, g1) ∧
        st1 = ⟨g1, a, q, cs, fd, tr⟩ := by
  intro k
  induction k with
  | zero => intro st c st1 c1 _ h; simp [explore] at h
  | succ k ih =>
    intro st c st1 c1 hJ h
    obtain ⟨g, a, q, cs, fd, tr⟩ := st
    simp only [explore] at h
    cases hn : g.get_next_neighbor c with
    | mk o g1 =>
      rw [hn] at h
      cases o with
      | none =>
        simp only [Except.ok.injEq, Prod.mk.injEq] at h
        obtain ⟨h1, h2⟩ := h
        subst h2
        exact ⟨g, a, q, cs, fd, tr, g1, hJ, hn, h1.symm⟩
      | some v =>
        simp only at h
        by_cases hl : p.less (g1.value v) (g1.value c) = true
        · rw [if_pos hl] at h
          exact ih _ _ _ _ (hdown g a q cs fd tr c v g1 hJ hn hl) h
        · rw [if_neg hl] at h
          exact ih _ _ _ _ (hstay g a q cs fd tr c v g1 hJ hn hl) h

/-- The neighbour loop ends within its fuel: a property `J` of the state, the current node
and a bound `m` on the turns left, with the bound dropping at every turn. -/
theorem explore_ok (p : ComponentTreeParser) (J : ParseState → Point2i → Nat → Prop)
    (hdown : ∀ g a q cs fd tr c v g1 m, J ⟨g, a, q, cs, fd, tr⟩ c m →
      g.get_next_neighbor c = (some v, g1) → p.less (g1.value v) (g1.value c) = true →
      ∃ m1, m1 < m ∧
        J ⟨g1, a, q.push c (g1.value c), cs, true, Event.push c (g1.value c) :: tr⟩ v m1)
    (hstay : ∀ g a q cs fd tr c v g1 m, J ⟨g, a, q, cs, fd, tr⟩ c m →
      g.get_next_neighbor c = (some v, g1) → ¬ p.less (g1.value v) (g1.value c) = true →
      ∃ m1, m1 < m ∧
        J ⟨g1, a, q.push v (g1.value v), cs, fd, Event.push v (g1.value v) :: tr⟩ c m1) :
    ∀ (k : Nat) (st : ParseState) (c : Point2i) (m : Nat), J st c m → m < k →
      ∃ r, explore p k st c = .ok r := by
  intro k
  induction k with
  | zero => intro st c m _ h; omega
  | succ k ih =>
    intro st c m hJ hm
    obtain ⟨g, a, q, cs, fd, tr⟩ := st
    simp only [explore]
    cases hn : g.get_next_neighbor c with
    | mk o g1 =>
      cases o with
      | none => exact ⟨_, rfl⟩
      | some v =>
        simp only
        by_cases hl : p.less (g1.value v) (g1.value c) = true
        · rw [if_pos hl]
          obtain ⟨m1, h1, h2⟩ := hdown g a q cs fd tr c v g1 m hJ hn hl
          exact ih _ _ m1 h2 (by omega)
        · rw [if_neg hl]
          obtain ⟨m1, h1, h2⟩ := hstay g a q cs fd tr c v g1 m hJ hn hl
          exact ih _ _ m1 h2 (by omega)

/-- What a completed turn of the pop loop is made of. -/
theorem visit_ok {p : ComponentTreeParser} {fuel : Nat} {g : OpenCVMatAccessor}
    {a : OpenCVMatMserAnalyzer} {q : OpenCVMatPriorityQueue} {cs : List Component} {fd : Bool}
    {tr : List Event} {n : Point2i} {st1 : ParseState}
    (h : visit p fuel ⟨g, a, q, cs, fd, tr⟩ n = .ok st1) :
    ∃ r st2 c, raise_level p a cs (g.value n) = .ok r ∧
      explore p fuel ⟨g, r.1, q, r.2, fd, Event.raise_level (g.value n) cs r.2 :: tr⟩ n
        = .ok (st2, c) ∧
      ((st2.flowingdown_phase = true ∧
          st1 = ⟨st2.graph, st2.analyzer, st2.boundary_nodes,
            (push_component st2.analyzer st2.components_ c (st2.graph.value c)).2, false,
            Event.push_component c (st2.graph.value c)
              (push_component st2.analyzer st2.components_ c (st2.graph.value c)).2
              :: st2.trace⟩) ∨
        (st2.flowingdown_phase = false ∧
          ∃ r2, push_node st2.analyzer st2.components_ c (st2.graph.value c) = .ok r2 ∧
            st1 = ⟨st2.graph, r2.1, st2.boundary_nodes, r2.2, st2.flowingdown_phase,
              Event.push_node c (st2.graph.value c) r2.2 :: st2.trace⟩)) := by
  simp only [visit] at h
  cases hr : raise_level p a cs (g.value n) with
  | error e => rw [hr] at h; cases h
  | ok r =>
    rw [hr] at h
    simp only at h
    cases he : explore p fuel ⟨g, r.1, q, r.2, fd, Event.raise_level (g.value n) cs r.2 :: tr⟩ n with
    | error e => rw [he] at h; cases h
    | ok res =>
      obtain ⟨st2, c⟩ := res
      rw [he] at h
      simp only at h
      refine ⟨r, st2, c, rfl, he, ?_⟩
      by_cases hfd : st2.flowingdown_phase = true
      · rw [if_pos hfd] at h
        simp only [Except.ok.injEq] at h
        left
        refine ⟨hfd, ?_⟩
        rw [← h]
        simp [push_component, OpenCVMatAccessor.node, OpenCVMatMserAnalyzer.add_component_node]
      · rw [if_neg hfd] at h
        right
        refine ⟨by simpa using hfd, ?_⟩
        cases hpn : push_node st2.analyzer st2.components_ (st2.graph.node c) (st2.graph.value c) with
        | error e => rw [hpn] at h; cases h
        | ok r2 =>
          rw [hpn] at h
          simp only [Except.ok.injEq] at h
          exact ⟨r2, hpn, h.symm⟩

/-- A turn of the pop loop after `raise_level`: a property `J` of the state and the current
node that the neighbour loop keeps yields, through the node event, the property `I`. -/
theorem visit_ind (p : ComponentTreeParser) (fuel : Nat) (I : ParseState → Prop)
    (J : ParseState → Point2i → Prop)
    (hdown : ∀ g a q cs fd tr c v g1, J ⟨g, a, q, cs, fd, tr⟩ c →
      g.get_next_neighbor c = (some v, g1) → p.less (g1.value v) (g1.value c) = true →
      J ⟨g1, a, q.push c (g1.value c), cs, true, Event.push c (g1.value c) :: tr⟩ v)
    (hstay : ∀ g a q cs fd tr c v g1, J ⟨g, a, q, cs, fd, tr⟩ c →
      g.get_next_neighbor c = (some v, g1) → ¬ p.less (g1.value v) (g1.value c) = true →
      J ⟨g1, a, q.push v (g1.value v), cs, fd, Event.push v (g1.value v) :: tr⟩ c)
    (hcomp : ∀ g a q cs tr c g1, J ⟨g, a, q, cs, true, tr⟩ c →
      g.get_next_neighbor c = (none, g1) →
      I ⟨g1, a, q, (push_component a cs c (g1.value c)).2, false,
        Event.push_component c (g1.value c) (push_component a cs c (g1.value c)).2 :: tr⟩)
    (hnode : ∀ g a q cs tr c g1 r2, J ⟨g, a, q, cs, false, tr⟩ c →
      g.get_next_neighbor c = (none, g1) → push_node a cs c (g1.value c) = .ok r2 →
      I ⟨g1, r2.1, q, r2.2, false, Event.push_node c (g1.value c) r2.2 :: tr⟩)
    {g : OpenCVMatAccessor} {a : OpenCVMatMserAnalyzer} {q : OpenCVMatPriorityQueue}
    {cs : List Component} {fd : Bool} {tr : List Event} {n : Point2i}
    {r : OpenCVMatMserAnalyzer × List Component} {st1 : ParseState}
    (hr : raise_level p a cs (g.value n) = .ok r)
    (hJ : J ⟨g, r.1, q, r.2, fd, Event.raise_level (g.value n) cs r.2 :: tr⟩ n)
    (hv : visit p fuel ⟨g, a, q, cs, fd, tr⟩ n = .ok st1) : I st1 := by
  obtain ⟨r1, st3, c, hr1, he, hfin⟩ := visit_ok hv
  rw [hr] at hr1
  simp only [Except.ok.injEq] at hr1
  subst hr1
  obtain ⟨g', a', q', cs', fd', tr', g1, hJ', hnone, hst3⟩ :=
    explore_ind p J hdown hstay fuel _ _ _ _ hJ he
  subst hst3
  rcases hfin with ⟨hfd, hst2⟩ | ⟨hfd, r2, hpn, hst2⟩
  · simp only at hfd hst2
    subst hfd
    rw [hst2]
    exact hcomp g' a' q' cs' tr' c g1 hJ' hnone
  · simp only at hfd hst2 hpn
    subst hfd
    rw [hst2]
    exact hnode g' a' q' cs' tr' c g1 r2 hJ' hnone hpn

/-- The pop loop, turn by turn: a property `I` of the state at the head of the loop and a
property `J` of the state and the current node inside the neighbour loop, handed on by every
call the loop makes, hold when the loop ends, where `pop` has answered none. -/
theorem main_loop_ind (p : ComponentTreeParser) (fuel : Nat) (I : ParseState → Prop)
    (J : ParseState → Point2i → Prop)
    (hpop : ∀ g a q cs fd tr n q1 r, I ⟨g, a, q, cs, fd, tr⟩ → q.pop = (some n, q1) →
      raise_level p a cs (g.value n) = .ok r →
      J ⟨g, r.1, q1, r.2, fd, Event.raise_level (g.value n) cs r.2 :: Event.pop n :: tr⟩ n)
    (hdown : ∀ g a q cs fd tr c v g1, J ⟨g, a, q, cs, fd, tr⟩ c →
      g.get_next_neighbor c = (some v, g1) → p.less (g1.value v) (g1.value c) = true →
      J ⟨g1, a, q.push c (g1.value c), cs, true, Event.push c (g1.value c) :: tr⟩ v)
    (hstay : ∀ g a q cs fd tr c v g1, J ⟨g, a, q, cs, fd, tr⟩ c →
      g.get_next_neighbor c = (some v, g1) → ¬ p.less (g1.value v) (g1.value c) = true →
      J ⟨g1, a, q.push v (g1.value v), cs, fd, Event.push v (g1.value v) :: tr⟩ c)
    (hcomp : ∀ g a q cs tr c g1, J ⟨g, a, q, cs, true, tr⟩ c →
      g.get_next_neighbor c = (none, g1) →
      I ⟨g1, a, q, (push_component a cs c (g1.value c)).2, false,
        Event.push_component c (g1.value c) (push_component a cs c (g1.value c)).2 :: tr⟩)
    (hnode : ∀ g a q cs tr c g1 r2, J ⟨g, a, q, cs, false, tr⟩ c →
      g.get_next_neighbor c = (none, g1) → push_node a cs c (g1.value c) = .ok r2 →
      I ⟨g1, r2.1, q, r2.2, false, Event.push_node c (g1.value c) r2.2 :: tr⟩) :
    ∀ (k : Nat) (st st1 : ParseState), I st → main_loop p fuel k st = .ok st1 →
      I st1 ∧ st1.boundary_nodes.pop.1 = none := by
  intro k
  induction k with
  | zero => intro st st1 _ h; simp [main_loop] at h
  | succ k ih =>
    intro st st1 hI h
    obtain ⟨g, a, q, cs, fd, tr⟩ := st
    simp only [main_loop] at h
    cases hq : q.pop with
    | mk o q1 =>
      rw [hq] at h
      cases o with
      | none =>
        simp only [Except.ok.injEq] at h
        have h1 : q.pop.1 = none := by rw [hq]
        have h2 : q1 = q := by
          have := OpenCVMatPriorityQueue.pop_none_snd h1
          rw [hq] at this; exact this
        subst h2
        rw [← h]
        exact ⟨hI, h1⟩
      | some n =>
        simp only at h
        cases hv : visit p fuel ⟨g, a, q1, cs, fd, Event.pop n :: tr⟩ n with
        | error e => rw [hv] at h; cases h
        | ok st2 =>
          rw [hv] at h
          simp only at h
          refine ih _ _ ?_ h
          obtain ⟨r, _, _, hr, _, _⟩ := visit_ok hv
          exact visit_ind p fuel I J hdown hstay hcomp hnode hr
            (hpop g a q cs fd tr n q1 r hI hq hr) hv

end ComponentTreeParser

end Stabilizer

namespace Stabilizer

/-! ## The bookkeeping is kept by every call of a run -/

theorem atUchar_mod (data : Mat) (n : Point2i) : data.atUchar n % 256 = data.atUchar n := by
  unfold Mat.atUchar
  exact Nat.mod_mod _ _

theorem atUchar_le (data : Mat) (n : Point2i) : data.atUchar n ≤ 255 := by
  unfold Mat.atUchar
  have := Nat.mod_lt (data.px n.y n.x) (show 0 < 256 by decide)
  omega

namespace Base

/-- The bookkeeping reads the state through the accessor, the queue, the node events and pops
of the trace, and the bottom of the stack. -/
theorem congr {data : Mat} {hand : List Point2i} {st st1 : ParseState} {f : Frontier}
    (h : Base data hand st f) (hg : st1.graph = st.graph)
    (hq : st1.boundary_nodes = st.boundary_nodes) (hv : visited st1.trace = visited st.trace)
    (hp : popped st1.trace = popped st.trace) (hc : Grounded 255 st1.components_) :
    Base data hand st1 f := by
  refine ⟨?_, ?_, h.values, ?_, ?_, ?_, ?_, ?_, ?_, ?_, ?_, hc⟩
  · rw [hg]; exact h.data_eq
  · rw [hq]; exact h.refines
  · rw [hg]; exact h.mask_le
  · rw [hg]; exact h.checked
  · rw [hv]; exact h.nodup
  · rw [hg, hv]; exact h.reached
  · rw [hg]; exact h.inb
  · rw [hg, hv]; exact h.done
  · rw [hg]; exact h.source
  · rw [hv, hp]; exact h.pops

/-- The state `parse_` enters its pop loop in. -/
theorem init (data : Mat) (hrows : 0 < data.rows) (hcols : 0 < data.cols)
    (a : OpenCVMatMserAnalyzer) (s : Component) (hs : s.level = 255) (fd : Bool) :
    Base data []
      ⟨{ data_ := data, mask_ := Function.update (fun _ => 0) { x := 0, y := 0 } 1 }, a,
        OpenCVMatPriorityQueue.empty.push { x := 0, y := 0 } (data.atUchar { x := 0, y := 0 }),
        [s], fd,
        [Event.push { x := 0, y := 0 } (data.atUchar { x := 0, y := 0 }), Event.init [s]]⟩
      ((Frontier.mk []).push { x := 0, y := 0 } (data.atUchar { x := 0, y := 0 })) := by
  have hmask : ∀ n : Point2i,
      Function.update (fun _ => 0) ({ x := 0, y := 0 } : Point2i) 1 n ≠ 0
        ↔ n = { x := 0, y := 0 } := by
    intro n
    by_cases hn : n = { x := 0, y := 0 }
    · rw [hn, Function.update_same]; simp
    · rw [Function.update_noteq hn]; simp [hn]
  have hle : ∀ n : Point2i,
      Function.update (fun _ => 0) ({ x := 0, y := 0 } : Point2i) 1 n ≤ 1 := by
    intro n
    by_cases hn : n = { x := 0, y := 0 }
    · rw [hn, Function.update_same]
    · rw [Function.update_noteq hn]; omega
  refine ⟨rfl, OpenCVMatPriorityQueue.refines_push OpenCVMatPriorityQueue.refines_empty _ _,
    ?_, ?_, ?_, ?_, ?_, ?_, ?_, ?_, ?_, grounded_singleton.2 hs⟩
  · intro e he
    simp only [Frontier.push, List.mem_singleton] at he
    rw [he]
    exact atUchar_mod _ _
  · intro n
    exact le_trans (hle n) (by omega)
  · intro n d hd hdlt _
    have := hle n
    simp only at hdlt
    omega
  · simp [Frontier.push, visited]
  · intro n
    simp only [hmask, Frontier.push, visited, List.map_cons, List.map_nil, List.nil_append,
      List.append_nil, List.mem_singleton]
  · intro n hn
    rw [(hmask n).1 hn]
    simp only [Mat.inBounds]
    omega
  · intro n hn
    simp [visited] at hn
  · simp
  · simp [popped, visited]

/-- A successful `pop`: the popped node becomes the current node; its value is the least
value stored. -/
theorem pop {data : Mat} {g : OpenCVMatAccessor} {a : OpenCVMatMserAnalyzer}
    {q q1 : OpenCVMatPriorityQueue} {cs : List Component} {fd : Bool} {tr : List Event}
    {f : Frontier} {n : Point2i} (h : Base data [] ⟨g, a, q, cs, fd, tr⟩ f)
    (hp : q.pop = (some n, q1)) :
    Base data [n] ⟨g, a, q1, cs, fd, Event.pop n :: tr⟩
        { entries := Frontier.removeNewestWith (Frontier.minValue f.entries) f.entries } ∧
      (n, Frontier.minValue f.entries) ∈ f.entries := by
  obtain ⟨hnew, href⟩ := OpenCVMatPriorityQueue.pop_some h.refines hp
  have hperm := Frontier.perm_removeNewestWith hnew
  have hmem : (n, Frontier.minValue f.entries) ∈ f.entries :=
    hperm.symm.subset (List.mem_cons_self _ _)
  have hperm2 : (f.entries.map Prod.fst ++ visited tr).Perm
      ([n] ++ ((Frontier.removeNewestWith (Frontier.minValue f.entries) f.entries).map Prod.fst
        ++ visited tr)) := by
    have := (hperm.map Prod.fst).append_right (visited tr)
    simpa using this
  refine ⟨⟨h.data_eq, href, ?_, h.mask_le, h.checked, ?_, ?_, h.inb, h.done, h.source, ?_,
    h.grounded⟩, hmem⟩
  · intro e he
    exact h.values e (Frontier.mem_of_mem_removeNewestWith he)
  · have := h.nodup
    simp only [List.nil_append] at this
    exact (hperm2.nodup_iff).1 this
  · intro n1
    have := h.reached n1
    simp only [List.nil_append] at this
    rw [this]
    exact hperm2.mem_iff
  · have := h.pops
    simp only [popped, visited, List.length_cons, List.length_nil] at this ⊢
    omega

/-- A node returned by `get_next_neighbor`: it joins the reached nodes, and of it and the
current node one is current afterwards and the other is pushed. -/
theorem neighbor {data : Mat} {g g1 : OpenCVMatAccessor} {a : OpenCVMatMserAnalyzer}
    {q : OpenCVMatPriorityQueue} {cs : List Component} {fd : Bool} {tr : List Event}
    {f : Frontier} {c v x e : Point2i} (h : Base data [c] ⟨g, a, q, cs, fd, tr⟩ f) (fd1 : Bool)
    (hn : g.get_next_neighbor c = (some v, g1))
    (hxe : (x = v ∧ e = c) ∨ (x = c ∧ e = v)) :
    Base data [x] ⟨g1, a, q.push e (g1.value e), cs, fd1, Event.push e (g1.value e) :: tr⟩
      (f.push e (g1.value e)) := by
  have hstep := OpenCVMatAccessor.get_next_neighbor_step g c
  rw [hn] at hstep
  obtain ⟨hvc, hv0, hvin, hv1, hclt, hcle⟩ := hstep.ret v rfl
  have hdata : g1.data_ = data := by
    have := hstep.data_eq
    simp only at this
    rw [this]; exact h.data_eq
  have hc0 : g.mask_ c ≠ 0 := (h.reached c).2 (by simp)
  have hnz : ∀ n, g1.mask_ n ≠ 0 ↔ (n = v ∨ g.mask_ n ≠ 0) := by
    intro n
    by_cases hnv : n = v
    · subst hnv
      simp only [true_or, iff_true]
      simp only at hv1
      omega
    · by_cases hnc : n = c
      · subst hnc
        have := hstep.mono n
        simp only at this
        simp only [hnv, false_or]
        constructor
        · intro _; exact hc0
        · intro _; omega
      · have := hstep.frame n hnc (by simp only [ne_eq, Option.some.injEq]; exact fun h => hnv h.symm)
        simp only at this
        rw [this]
        simp [hnv]
  have hperm : ([x] ++ (((e, g1.value e % 256) :: f.entries).map Prod.fst ++ visited tr)).Perm
      (v :: ([c] ++ (f.entries.map Prod.fst ++ visited tr))) := by
    rcases hxe with ⟨rfl, rfl⟩ | ⟨rfl, rfl⟩
    · exact List.Perm.refl _
    · exact List.Perm.swap _ _ _
  have hvnot : v ∉ [c] ++ (f.entries.map Prod.fst ++ visited tr) := by
    intro hmem
    exact ((h.reached v).2 hmem) hv0
  refine ⟨hdata, OpenCVMatPriorityQueue.refines_push h.refines _ _, ?_, ?_, ?_, ?_, ?_, ?_, ?_,
    ?_, ?_, h.grounded⟩
  · intro e1 he1
    simp only [Frontier.push] at he1
    rcases List.mem_cons.1 he1 with rfl | he1
    · simp only [OpenCVMatAccessor.value, hdata]
      exact atUchar_mod _ _
    · exact h.values e1 he1
  · exact hstep.bound h.mask_le
  · exact hstep.checked h.checked
  · simp only [Frontier.push, visited]
    exact (hperm.nodup_iff).2 (List.nodup_cons.2 ⟨hvnot, h.nodup⟩)
  · intro n
    simp only [Frontier.push, visited]
    rw [hnz n, hperm.mem_iff, List.mem_cons, h.reached n]
  · intro n hn1
    rcases (hnz n).1 hn1 with rfl | hn1
    · rw [← h.data_eq]; exact hvin
    · exact h.inb n hn1
  · intro n hn1
    simp only [visited] at hn1
    have hd := h.done n hn1
    have hnc : n ≠ c := by
      rintro rfl
      have := h.nodup
      simp only [List.singleton_append, List.nodup_cons, List.mem_append] at this
      exact this.1 (Or.inr hn1)
    have hnv : n ≠ v := by
      rintro rfl
      simp only at hd
      omega
    have := hstep.frame n hnc (by simp only [ne_eq, Option.some.injEq]; exact fun h => hnv h.symm)
    simp only at this ⊢
    rw [this]; exact hd
  · exact (hnz _).2 (Or.inr h.source)
  · have := h.pops
    simpa [popped, visited] using this

/-- The answer none of `get_next_neighbor`: the cursor of the current node is exhausted. -/
theorem exhausted {data : Mat} {g g1 : OpenCVMatAccessor} {a : OpenCVMatMserAnalyzer}
    {q : OpenCVMatPriorityQueue} {cs : List Component} {fd : Bool} {tr : List Event}
    {f : Frontier} {c : Point2i} (h : Base data [c] ⟨g, a, q, cs, fd, tr⟩ f)
    (hn : g.get_next_neighbor c = (none, g1)) :
    Base data [c] ⟨g1, a, q, cs, fd, tr⟩ f ∧ g1.mask_ c = 5 := by
  have hstep := OpenCVMatAccessor.get_next_neighbor_step g c
  have h5 := @OpenCVMatAccessor.get_next_neighbor_none g c (by rw [hn])
  rw [hn] at hstep h5
  simp only at h5
  have hdata : g1.data_ = data := by
    have := hstep.data_eq
    simp only at this
    rw [this]; exact h.data_eq
  have hle := hstep.bound h.mask_le
  simp only at hle
  have hc0 : g.mask_ c ≠ 0 := (h.reached c).2 (by simp)
  have hnz : ∀ n, g1.mask_ n ≠ 0 ↔ g.mask_ n ≠ 0 := by
    intro n
    by_cases hnc : n = c
    · subst hnc
      constructor
      · intro _; exact hc0
      · intro _; omega
    · have := hstep.frame n hnc (by simp)
      simp only at this
      rw [this]
  refine ⟨⟨hdata, h.refines, h.values, hle, hstep.checked h.checked, h.nodup, ?_, ?_, ?_, ?_,
    h.pops, h.grounded⟩, ?_⟩
  · intro n; rw [hnz n]; exact h.reached n
  · intro n hn1; exact h.inb n ((hnz n).1 hn1)
  · intro n hn1
    have hd := h.done n hn1
    have hnc : n ≠ c := by
      rintro rfl
      have := h.nodup
      simp only [List.singleton_append, List.nodup_cons, List.mem_append] at this
      exact this.1 (Or.inr hn1)
    have := hstep.frame n hnc (by simp)
    simp only at this ⊢
    rw [this]; exact hd
  · exact (hnz _).2 h.source
  · have := hle c
    omega

/-- The node event of the current node, once its cursor is exhausted. -/
theorem finish {data : Mat} {hand : List Point2i} {st st1 : ParseState} {f : Frontier}
    {c : Point2i} (h : Base data [c] st f) (h5 : st.graph.mask_ c = 5)
    (hg : st1.graph = st.graph) (hq : st1.boundary_nodes = st.boundary_nodes)
    (hv : visited st1.trace = c :: visited st.trace)
    (hp : popped st1.trace = popped st.trace) (hc : Grounded 255 st1.components_)
    (hhand : hand = []) :
    Base data hand st1 f := by
  subst hhand
  have hperm : ([] ++ (f.entries.map Prod.fst ++ c :: visited st.trace)).Perm
      ([c] ++ (f.entries.map Prod.fst ++ visited st.trace)) := by
    simp only [List.nil_append, List.singleton_append]
    exact List.perm_middle
  refine ⟨?_, ?_, h.values, ?_, ?_, ?_, ?_, ?_, ?_, ?_, ?_, hc⟩
  · rw [hg]; exact h.data_eq
  · rw [hq]; exact h.refines
  · rw [hg]; exact h.mask_le
  · rw [hg]; exact h.checked
  · rw [hv]; exact (hperm.nodup_iff).2 h.nodup
  · intro n
    rw [hg, hv, hperm.mem_iff]; exact h.reached n
  · rw [hg]; exact h.inb
  · intro n hn
    rw [hv] at hn
    rw [hg]
    rcases List.mem_cons.1 hn with rfl | hn
    · exact h5
    · exact h.done n hn
  · rw [hg]; exact h.source
  · rw [hv, hp]
    have := h.pops
    simp only [List.length_cons, List.length_nil] at this ⊢
    omega

end Base

end Stabilizer

namespace Stabilizer

/-! ## A run on an image with a pixel ends, and keeps its bookkeeping -/

namespace ComponentTreeParser

theorem push_component_snd (a : OpenCVMatMserAnalyzer) (cs : List Component) (c : Point2i)
    (level : Nat) :
    (push_component a cs c level).2
      = { level := level, stats := { mean := ((c.x : ℚ), (c.y : ℚ)), N := 1 } } :: cs := rfl

theorem push_component_fst (a : OpenCVMatMserAnalyzer) (cs : List Component) (c : Point2i)
    (level : Nat) : (push_component a cs c level).1 = a := rfl

theorem push_node_cons (a : OpenCVMatMserAnalyzer) (top : Component) (rest : List Component)
    (c : Point2i) (level : Nat) :
    push_node a (top :: rest) c level
      = .ok ((a.add_node c level top).1, (a.add_node c level top).2 :: rest) := rfl

/-- On a stack that rests on the sentinel, `push_node` finds its component and leaves the
sentinel at the bottom. -/
theorem push_node_spec (a : OpenCVMatMserAnalyzer) (cs : List Component) (c : Point2i)
    (level : Nat) (hlevel : level ≤ 255) (hbot : Grounded 255 cs) :
    ∃ r2, push_node a cs c level = .ok r2 ∧ Grounded 255 r2.2 := by
  cases cs with
  | nil => exact absurd hbot not_grounded_nil
  | cons top rest =>
    refine ⟨_, push_node_cons a top rest c level, ?_⟩
    cases rest with
    | nil =>
      have ht := grounded_singleton.1 hbot
      apply grounded_singleton.2
      rw [OpenCVMatMserAnalyzer.add_node_level]
      split <;> omega
    | cons d rest => exact grounded_cons_cons.2 (grounded_cons_cons.1 hbot)

theorem push_node_grounded {a : OpenCVMatMserAnalyzer} {cs : List Component} {c : Point2i}
    {level : Nat} {r2 : OpenCVMatMserAnalyzer × List Component} (hlevel : level ≤ 255)
    (hbot : Grounded 255 cs) (h : push_node a cs c level = .ok r2) : Grounded 255 r2.2 := by
  obtain ⟨r, hr, hg⟩ := push_node_spec a cs c level hlevel hbot
  rw [hr] at h
  simp only [Except.ok.injEq] at h
  rw [← h]; exact hg

theorem value_le (g : OpenCVMatAccessor) (n : Point2i) : g.value n ≤ 255 :=
  atUchar_le _ _

end ComponentTreeParser

namespace Base

/-- The nodes the bookkeeping lists are pixels, each once: there are no more of them than
the image has pixels. -/
theorem length_le {data : Mat} {hand : List Point2i} {st : ParseState} {f : Frontier}
    (h : Base data hand st f) :
    (hand ++ (f.entries.map Prod.fst ++ visited st.trace)).length ≤ data.rows * data.cols :=
  length_le_pixels data _ h.nodup (fun n hn => h.inb n ((h.reached n).2 hn))

/-- The bookkeeping after `raise_level`. -/
theorem raise {data : Mat} {hand : List Point2i} {g : OpenCVMatAccessor}
    {a a1 : OpenCVMatMserAnalyzer} {q : OpenCVMatPriorityQueue} {cs cs0 cs1 : List Component}
    {fd : Bool} {tr : List Event} {f : Frontier} {level : Nat}
    (h : Base data hand ⟨g, a, q, cs, fd, tr⟩ f) (hc : Grounded 255 cs1) :
    Base data hand ⟨g, a1, q, cs1, fd, Event.raise_level level cs0 cs1 :: tr⟩ f :=
  h.congr rfl rfl rfl rfl hc

end Base

namespace ComponentTreeParser

/-- A turn of the pop loop ends: `raise_level` and `push_node` find their components and the
neighbour loop has fuel enough. -/
theorem visit_exists (p : ComponentTreeParser) (hp : p.inverted_ = false) (data : Mat)
    (fuel : Nat) (hfuel : data.rows * data.cols < fuel) {g : OpenCVMatAccessor}
    {a : OpenCVMatMserAnalyzer} {q : OpenCVMatPriorityQueue} {cs : List Component} {fd : Bool}
    {tr : List Event} {f : Frontier} {n : Point2i}
    (h : Base data [n] ⟨g, a, q, cs, fd, tr⟩ f) :
    ∃ st1, visit p fuel ⟨g, a, q, cs, fd, tr⟩ n = .ok st1 := by
  obtain ⟨a1, top, rest, hr, hgr, _, _⟩ :=
    raise_level_spec p hp a cs (g.value n) (value_le g n) h.grounded
  have hB : Base data [n] ⟨g, a1, q, top :: rest, fd,
      Event.raise_level (g.value n) cs (top :: rest) :: tr⟩ f := h.raise hgr
  -- the neighbour loop ends
  have hex := explore_ok p
    (fun st c m => ∃ f, Base data [c] st f ∧
      m + ([c] ++ (f.entries.map Prod.fst ++ visited st.trace)).length = data.rows * data.cols)
    (by
      rintro g a q cs fd tr c v g1 m ⟨f, hb, hm⟩ hn _
      have hb1 := hb.neighbor true hn (Or.inl ⟨rfl, rfl⟩)
      have hlen := hb1.length_le
      simp only [Frontier.push, visited, List.map_cons, List.singleton_append, List.length_cons,
        List.cons_append, List.length_append, List.length_map] at hm hlen
      refine ⟨m - 1, by omega, _, hb1, ?_⟩
      simp only [Frontier.push, visited, List.map_cons, List.singleton_append, List.length_cons,
        List.cons_append, List.length_append, List.length_map]
      omega)
    (by
      rintro g a q cs fd tr c v g1 m ⟨f, hb, hm⟩ hn _
      have hb1 := hb.neighbor fd hn (Or.inr ⟨rfl, rfl⟩)
      have hlen := hb1.length_le
      simp only [Frontier.push, visited, List.map_cons, List.singleton_append, List.length_cons,
        List.cons_append, List.length_append, List.length_map] at hm hlen
      refine ⟨m - 1, by omega, _, hb1, ?_⟩
      simp only [Frontier.push, visited, List.map_cons, List.singleton_append, List.length_cons,
        List.cons_append, List.length_append, List.length_map]
      omega)
    fuel ⟨g, a1, q, top :: rest, fd, Event.raise_level (g.value n) cs (top :: rest) :: tr⟩ n
    (data.rows * data.cols - ([n] ++ (f.entries.map Prod.fst
      ++ visited (Event.raise_level (g.value n) cs (top :: rest) :: tr))).length)
    ⟨f, hB, by have := hB.length_le; simp only at this ⊢; omega⟩ (by omega)
  obtain ⟨⟨st2, c⟩, he⟩ := hex
  -- the stack still rests on the sentinel when the loop ends
  obtain ⟨g', a', q', cs', fd', tr', g1, hgr2, _, hst2⟩ :=
    explore_ind p (fun st _ => Grounded 255 st.components_)
      (by intro g a q cs fd tr c v g1 h _ _; exact h)
      (by intro g a q cs fd tr c v g1 h _ _; exact h)
      fuel _ _ _ _ (show Grounded 255 (top :: rest) from hgr) he
  simp only at hgr2
  simp only [visit, hr, he]
  by_cases hfd : st2.flowingdown_phase = true
  · rw [if_pos hfd]; exact ⟨_, rfl⟩
  · rw [if_neg hfd]
    have hg2 : Grounded 255 st2.components_ := by rw [hst2]; exact hgr2
    obtain ⟨r2, hr2, _⟩ := push_node_spec st2.analyzer st2.components_ (st2.graph.node c)
      (st2.graph.value c) (value_le _ _) hg2
    rw [hr2]; exact ⟨_, rfl⟩

/-- The pop loop on an image with a pixel ends within its fuel, with the queue empty, and
hands a property `I` of the state and its frontier (inside the neighbour loop: `J`) from
call to call; the bookkeeping is at hand in every obligation. -/
theorem main_loop_total (p : ComponentTreeParser) (hp : p.inverted_ = false) (data : Mat)
    (fuel : Nat) (hfuel : data.rows * data.cols < fuel)
    (I : ParseState → Frontier → Prop) (J : ParseState → Point2i → Frontier → Prop)
    (hpop : ∀ g a q cs fd tr f n q1 r, Base data [] ⟨g, a, q, cs, fd, tr⟩ f →
      I ⟨g, a, q, cs, fd, tr⟩ f → q.pop = (some n, q1) →
      raise_level p a cs (g.value n) = .ok r →
      J ⟨g, r.1, q1, r.2, fd, Event.raise_level (g.value n) cs r.2 :: Event.pop n :: tr⟩ n
        { entries := Frontier.removeNewestWith (Frontier.minValue f.entries) f.entries })
    (hdown : ∀ g a q cs fd tr f c v g1, Base data [c] ⟨g, a, q, cs, fd, tr⟩ f →
      J ⟨g, a, q, cs, fd, tr⟩ c f →
      g.get_next_neighbor c = (some v, g1) → p.less (g1.value v) (g1.value c) = true →
      J ⟨g1, a, q.push c (g1.value c), cs, true, Event.push c (g1.value c) :: tr⟩ v
        (f.push c (g1.value c)))
    (hstay : ∀ g a q cs fd tr f c v g1, Base data [c] ⟨g, a, q, cs, fd, tr⟩ f →
      J ⟨g, a, q, cs, fd, tr⟩ c f →
      g.get_next_neighbor c = (some v, g1) → ¬ p.less (g1.value v) (g1.value c) = true →
      J ⟨g1, a, q.push v (g1.value v), cs, fd, Event.push v (g1.value v) :: tr⟩ c
        (f.push v (g1.value v)))
    (hcomp : ∀ g a q cs tr f c g1, Base data [c] ⟨g, a, q, cs, true, tr⟩ f →
      J ⟨g, a, q, cs, true, tr⟩ c f → g.get_next_neighbor c = (none, g1) →
      I ⟨g1, a, q, (push_component a cs c (g1.value c)).2, false,
        Event.push_component c (g1.value c) (push_component a cs c (g1.value c)).2 :: tr⟩ f)
    (hnode : ∀ g a q cs tr f c g1 r2, Base data [c] ⟨g, a, q, cs, false, tr⟩ f →
      J ⟨g, a, q, cs, false, tr⟩ c f → g.get_next_neighbor c = (none, g1) →
      push_node a cs c (g1.value c) = .ok r2 →
      I ⟨g1, r2.1, q, r2.2, false, Event.push_node c (g1.value c) r2.2 :: tr⟩ f) :
    ∀ (k : Nat) (st : ParseState) (f : Frontier), Base data [] st f → I st f →
      data.rows * data.cols < k + (popped st.trace).length →
      ∃ st1 f1, main_loop p fuel k st = .ok st1 ∧ Base data [] st1 f1 ∧ f1.entries = [] ∧
        I st1 f1 := by
  intro k
  induction k with
  | zero =>
    intro st f hB _ hk
    have h1 := hB.length_le
    have h2 := hB.pops
    simp only [List.nil_append, List.length_append, List.length_nil] at h1 h2
    omega
  | succ k ih =>
    intro st f hB hI hk
    obtain ⟨g, a, q, cs, fd, tr⟩ := st
    simp only [main_loop]
    cases hq : q.pop with
    | mk o q1 =>
      cases o with
      | none =>
        have h1 : q.pop.1 = none := by rw [hq]
        have h2 : q1 = q := by
          have := OpenCVMatPriorityQueue.pop_none_snd h1
          rw [hq] at this; exact this
        subst h2
        exact ⟨_, f, rfl, hB, OpenCVMatPriorityQueue.pop_none hB.refines h1, hI⟩
      | some n =>
        simp only
        obtain ⟨hB1, _⟩ := hB.pop hq
        obtain ⟨st1, hv⟩ := visit_exists p hp data fuel hfuel hB1
        obtain ⟨r, _, _, hr, _, _⟩ := visit_ok hv
        have hgr : Grounded 255 r.2 := by
          obtain ⟨a1, top, rest, hr1, hgr, _, _⟩ :=
            raise_level_spec p hp a cs (g.value n) (value_le g n) hB.grounded
          rw [hr] at hr1
          simp only [Except.ok.injEq] at hr1
          rw [hr1]; exact hgr
        have hfin := visit_ind p fuel
          (fun s => ∃ f1, Base data [] s f1 ∧ I s f1 ∧ popped s.trace = n :: popped tr)
          (fun s c => ∃ f1, Base data [c] s f1 ∧ J s c f1 ∧ popped s.trace = n :: popped tr)
          (by
            rintro g a q cs fd tr c v g1 ⟨f1, hb, hj, hpp⟩ hn hl
            exact ⟨_, hb.neighbor true hn (Or.inl ⟨rfl, rfl⟩), hdown g a q cs fd tr f1 c v g1 hb hj hn hl,
              by simpa [popped] using hpp⟩)
          (by
            rintro g a q cs fd tr c v g1 ⟨f1, hb, hj, hpp⟩ hn hl
            exact ⟨_, hb.neighbor fd hn (Or.inr ⟨rfl, rfl⟩), hstay g a q cs fd tr f1 c v g1 hb hj hn hl,
              by simpa [popped] using hpp⟩)
          (by
            rintro g a q cs tr c g1 ⟨f1, hb, hj, hpp⟩ hn
            obtain ⟨hb1, h5⟩ := hb.exhausted hn
            refine ⟨f1, hb1.finish h5 rfl rfl rfl rfl ?_ rfl, hcomp g a q cs tr f1 c g1 hb hj hn,
              by simpa [popped] using hpp⟩
            exact grounded_cons hb.grounded)
          (by
            rintro g a q cs tr c g1 r2 ⟨f1, hb, hj, hpp⟩ hn hpn
            obtain ⟨hb1, h5⟩ := hb.exhausted hn
            refine ⟨f1, hb1.finish h5 rfl rfl rfl rfl ?_ rfl,
              hnode g a q cs tr f1 c g1 r2 hb hj hn hpn, by simpa [popped] using hpp⟩
            exact push_node_grounded (value_le _ _) hb.grounded hpn)
          hr
          ⟨_, (hB1.raise hgr), hpop g a q cs fd tr f n q1 r hB hI hq hr, by simp [popped]⟩
          hv
        obtain ⟨f1, hb1, hi1, hpp⟩ := hfin
        rw [hv]
        simp only
        exact ih st1 f1 hb1 hi1 (by rw [hpp]; simp only [List.length_cons] at hk ⊢; omega)

/-- A run of `parse_` on a fresh accessor of an image with a pixel, with the fuel of `run` or
more, ends with the queue empty; a property handed from call to call holds at the end. -/
theorem parse_total (p : ComponentTreeParser) (hp : p.inverted_ = false) (data : Mat)
    (hrows : 0 < data.rows) (hcols : 0 < data.cols) (fuel : Nat) (hfuel : fuelFor data ≤ fuel)
    (I : ParseState → Frontier → Prop) (J : ParseState → Point2i → Frontier → Prop)
    (hinit : I
      ⟨{ data_ := data, mask_ := Function.update (fun _ => 0) { x := 0, y := 0 } 1 }, {},
        OpenCVMatPriorityQueue.empty.push { x := 0, y := 0 } (data.atUchar { x := 0, y := 0 }),
        [{ level := 255 }], true,
        [Event.push { x := 0, y := 0 } (data.atUchar { x := 0, y := 0 }),
          Event.init [{ level := 255 }]]⟩
      ((Frontier.mk []).push { x := 0, y := 0 } (data.atUchar { x := 0, y := 0 })))
    (hpop : ∀ g a q cs fd tr f n q1 r, Base data [] ⟨g, a, q, cs, fd, tr⟩ f →
      I ⟨g, a, q, cs, fd, tr⟩ f → q.pop = (some n, q1) →
      raise_level p a cs (g.value n) = .ok r →
      J ⟨g, r.1, q1, r.2, fd, Event.raise_level (g.value n) cs r.2 :: Event.pop n :: tr⟩ n
        { entries := Frontier.removeNewestWith (Frontier.minValue f.entries) f.entries })
    (hdown : ∀ g a q cs fd tr f c v g1, Base data [c] ⟨g, a, q, cs, fd, tr⟩ f →
      J ⟨g, a, q, cs, fd, tr⟩ c f →
      g.get_next_neighbor c = (some v, g1) → p.less (g1.value v) (g1.value c) = true →
      J ⟨g1, a, q.push c (g1.value c), cs, true, Event.push c (g1.value c) :: tr⟩ v
        (f.push c (g1.value c)))
    (hstay : ∀ g a q cs fd tr f c v g1, Base data [c] ⟨g, a, q, cs, fd, tr⟩ f →
      J ⟨g, a, q, cs, fd, tr⟩ c f →
      g.get_next_neighbor c = (some v, g1) → ¬ p.less (g1.value v) (g1.value c) = true →
      J ⟨g1, a, q.push v (g1.value v), cs, fd, Event.push v (g1.value v) :: tr⟩ c
        (f.push v (g1.value v)))
    (hcomp : ∀ g a q cs tr f c g1, Base data [c] ⟨g, a, q, cs, true, tr⟩ f →
      J ⟨g, a, q, cs, true, tr⟩ c f → g.get_next_neighbor c = (none, g1) →
      I ⟨g1, a, q, (push_component a cs c (g1.value c)).2, false,
        Event.push_component c (g1.value c) (push_component a cs c (g1.value c)).2 :: tr⟩ f)
    (hnode : ∀ g a q cs tr f c g1 r2, Base data [c] ⟨g, a, q, cs, false, tr⟩ f →
      J ⟨g, a, q, cs, false, tr⟩ c f → g.get_next_neighbor c = (none, g1) →
      push_node a cs c (g1.value c) = .ok r2 →
      I ⟨g1, r2.1, q, r2.2, false, Event.push_node c (g1.value c) r2.2 :: tr⟩ f) :
    ∃ st f, parse_ p fuel (OpenCVMatAccessor.new data) {} OpenCVMatPriorityQueue.empty = .ok st ∧
      Base data [] st f ∧ f.entries = [] ∧ I st f := by
  have hsrc : data.inBounds { x := 0, y := 0 } := by
    simp only [Mat.inBounds]
    omega
  have hB := Base.init data hrows hcols {} { level := 255 } rfl true
  have hlt : data.rows * data.cols < fuel := by
    unfold fuelFor at hfuel; omega
  obtain ⟨st1, f1, hm, hb1, hf1, hi1⟩ :=
    main_loop_total p hp data fuel hlt I J hpop hdown hstay hcomp hnode fuel _ _ hB hinit
      (by omega)
  refine ⟨st1, f1, ?_, hb1, hf1, hi1⟩
  simp only [parse_, OpenCVMatAccessor.get_source, OpenCVMatAccessor.new, if_pos hsrc,
    ComponentStack, OpenCVMatMserAnalyzer.add_component, inf_eq p hp, OpenCVMatAccessor.value]
  exact hm

end ComponentTreeParser

end Stabilizer

namespace Stabilizer

/-! ## What the bookkeeping says when the queue is empty -/

theorem visited_perm (tr : List Event) :
    (visited tr).Perm (newComponentNodes tr ++ addedNodes tr) := by
  induction tr with
  | nil => exact List.Perm.refl _
  | cons e t ih =>
    cases e with
    | init s => simpa [visited, newComponentNodes, addedNodes] using ih
    | push n v => simpa [visited, newComponentNodes, addedNodes] using ih
    | pop n => simpa [visited, newComponentNodes, addedNodes] using ih
    | raise_level l b s => simpa [visited, newComponentNodes, addedNodes] using ih
    | push_component n l s =>
      simp only [visited, newComponentNodes, addedNodes, List.cons_append]
      exact List.Perm.cons n ih
    | push_node n l s =>
      simp only [visited, newComponentNodes, addedNodes]
      exact (List.Perm.cons n ih).trans List.perm_middle.symm

namespace Base

/-- With the queue empty every pixel is reached: the reached nodes are closed under the
neighbours to the right and below, and the source is reached. -/
theorem all_reached {data : Mat} {st : ParseState} {f : Frontier} (h : Base data [] st f)
    (hf : f.entries = []) : ∀ n, data.inBounds n → st.graph.mask_ n ≠ 0 := by
  have hdone : ∀ n, st.graph.mask_ n ≠ 0 → st.graph.mask_ n = 5 := by
    intro n hn
    have := (h.reached n).1 hn
    rw [hf] at this
    simp only [List.map_nil, List.nil_append] at this
    exact h.done n this
  have hde := h.data_eq
  have hsrc := h.inb _ h.source
  simp only [Mat.inBounds] at hsrc
  have hrow : ∀ a : Nat, a < data.cols → st.graph.mask_ { x := (a : Int), y := 0 } ≠ 0 := by
    intro a
    induction a with
    | zero => intro _; exact h.source
    | succ a ih =>
      intro ha
      have h0 := ih (by omega)
      have h5 := hdone _ h0
      have := h.checked { x := (a : Int), y := 0 } 1 le_rfl (by omega)
        (by
          rw [hde]
          simp only [OpenCVMatAccessor.next_node, Mat.inBounds]
          omega)
      simp only [OpenCVMatAccessor.next_node] at this
      have hcast : ((a + 1 : Nat) : Int) = (a : Int) + 1 := by push_cast; rfl
      rw [hcast]; exact this
  have hall : ∀ (b a : Nat), a < data.cols → b < data.rows →
      st.graph.mask_ { x := (a : Int), y := (b : Int) } ≠ 0 := by
    intro b
    induction b with
    | zero => intro a ha _; exact hrow a ha
    | succ b ih =>
      intro a ha hb
      have h0 := ih a ha (by omega)
      have h5 := hdone _ h0
      have := h.checked { x := (a : Int), y := (b : Int) } 2 (by omega) (by omega)
        (by
          rw [hde]
          simp only [OpenCVMatAccessor.next_node, Mat.inBounds]
          omega)
      simp only [OpenCVMatAccessor.next_node] at this
      have hcast : ((b + 1 : Nat) : Int) = (b : Int) + 1 := by push_cast; rfl
      rw [hcast]; exact this
  intro n hn
  obtain ⟨h1, h2, h3, h4⟩ := hn
  have := hall n.y.toNat n.x.toNat (by omega) (by omega)
  rw [Int.toNat_of_nonneg h1, Int.toNat_of_nonneg h3] at this
  exact this

/-- With the queue empty the node events are the pixels, each once, and there were as many
pops as pixels. -/
theorem complete {data : Mat} {st : ParseState} {f : Frontier} (h : Base data [] st f)
    (hf : f.entries = []) :
    (∀ n, n ∈ visited st.trace ↔ data.inBounds n) ∧ (visited st.trace).Nodup ∧
      (popped st.trace).length = data.rows * data.cols := by
  have hmem : ∀ n, n ∈ visited st.trace ↔ data.inBounds n := by
    intro n
    constructor
    · intro hn
      exact h.inb n ((h.reached n).2 (by simp [hn]))
    · intro hn
      have := (h.reached n).1 (h.all_reached hf n hn)
      rw [hf] at this
      simpa using this
  have hnd : (visited st.trace).Nodup := by
    have := h.nodup
    rw [hf] at this
    simpa using this
  refine ⟨hmem, hnd, ?_⟩
  have := h.pops
  simp only [List.length_nil, Nat.add_zero] at this
  rw [this]
  exact length_eq_pixels data _ hnd hmem

end Base

/-! ## More fuel does not change a run -/

namespace ComponentTreeParser

theorem explore_mono (p : ComponentTreeParser) :
    ∀ (k k1 : Nat) (st : ParseState) (c : Point2i) (r : ParseState × Point2i),
      explore p k st c = .ok r → k ≤ k1 → explore p k1 st c = .ok r := by
  intro k
  induction k with
  | zero => intro k1 st c r h; simp [explore] at h
  | succ k ih =>
    intro k1 st c r h hk
    obtain ⟨k2, rfl⟩ : ∃ k2, k1 = k2 + 1 := ⟨k1 - 1, by omega⟩
    simp only [explore] at h ⊢
    cases hn : st.graph.get_next_neighbor c with
    | mk o g1 =>
      rw [hn] at h
      cases o with
      | none => exact h
      | some v =>
        simp only at h ⊢
        split
        · rename_i hl
          rw [if_pos hl] at h
          exact ih _ _ _ _ h (by omega)
        · rename_i hl
          rw [if_neg hl] at h
          exact ih _ _ _ _ h (by omega)

theorem visit_mono (p : ComponentTreeParser) (fuel fuel1 : Nat) (st st1 : ParseState)
    (n : Point2i) (h : visit p fuel st n = .ok st1) (hf : fuel ≤ fuel1) :
    visit p fuel1 st n = .ok st1 := by
  simp only [visit] at h ⊢
  cases hr : raise_level p st.analyzer st.components_ (st.graph.value n) with
  | error e => rw [hr] at h; cases h
  | ok r =>
    rw [hr] at h
    simp only at h ⊢
    cases he : explore p fuel
        { st with analyzer := r.1, components_ := r.2,
                  trace := Event.raise_level (st.graph.value n) st.components_ r.2 :: st.trace }
        n with
    | error e => rw [he] at h; cases h
    | ok res =>
      rw [he] at h
      rw [explore_mono p fuel fuel1 _ _ _ he hf]
      exact h

theorem main_loop_mono (p : ComponentTreeParser) (fuel fuel1 : Nat) (hf : fuel ≤ fuel1) :
    ∀ (k k1 : Nat) (st st1 : ParseState), main_loop p fuel k st = .ok st1 → k ≤ k1 →
      main_loop p fuel1 k1 st = .ok st1 := by
  intro k
  induction k with
  | zero => intro k1 st st1 h; simp [main_loop] at h
  | succ k ih =>
    intro k1 st st1 h hk
    obtain ⟨k2, rfl⟩ : ∃ k2, k1 = k2 + 1 := ⟨k1 - 1, by omega⟩
    simp only [main_loop] at h ⊢
    cases hq : st.boundary_nodes.pop with
    | mk o q1 =>
      rw [hq] at h
      cases o with
      | none => exact h
      | some n =>
        simp only at h ⊢
        cases hv : visit p fuel
            { st with boundary_nodes := q1, trace := Event.pop n :: st.trace } n with
        | error e => rw [hv] at h; cases h
        | ok st2 =>
          rw [hv] at h
          rw [visit_mono p fuel fuel1 _ _ _ hv hf]
          simp only at h ⊢
          exact ih _ _ _ h (by omega)

theorem parse_mono (p : ComponentTreeParser) (fuel fuel1 : Nat) (hf : fuel ≤ fuel1)
    (graph : OpenCVMatAccessor) (analyzer : OpenCVMatMserAnalyzer)
    (boundary_nodes : OpenCVMatPriorityQueue) (st : ParseState)
    (h : parse_ p fuel graph analyzer boundary_nodes = .ok st) :
    parse_ p fuel1 graph analyzer boundary_nodes = .ok st := by
  simp only [parse_] at h ⊢
  cases hs : graph.get_source with
  | error e => rw [hs] at h; cases h
  | ok r =>
    obtain ⟨source_node, g⟩ := r
    rw [hs] at h
    simp only at h ⊢
    exact main_loop_mono p fuel fuel1 hf _ _ _ _ h hf

/-- A run on an image with a pixel ends with the queue empty and its bookkeeping kept. -/
theorem run_base (p : ComponentTreeParser) (hp : p.inverted_ = false) (data : Mat)
    (hrows : 0 < data.rows) (hcols : 0 < data.cols) :
    ∃ st f, run p data = .ok st ∧ Base data [] st f ∧ f.entries = [] := by
  obtain ⟨st, f, h1, h2, h3, _⟩ := parse_total p hp data hrows hcols (fuelFor data) le_rfl
    (fun _ _ => True) (fun _ _ _ => True) trivial
    (fun _ _ _ _ _ _ _ _ _ _ _ _ _ _ => trivial)
    (fun _ _ _ _ _ _ _ _ _ _ _ _ _ _ => trivial)
    (fun _ _ _ _ _ _ _ _ _ _ _ _ _ _ => trivial)
    (fun _ _ _ _ _ _ _ _ _ _ _ => trivial)
    (fun _ _ _ _ _ _ _ _ _ _ _ _ _ => trivial)
  exact ⟨st, f, h1, h2, h3⟩

end ComponentTreeParser

end Stabilizer

namespace Stabilizer

/-! ## What the analyzer emits -/

namespace FloatVal

theorem gt_irrefl (x : FloatVal) : x.gt x = false := by
  cases x <;> simp [gt]

end FloatVal

namespace OpenCVMatMserAnalyzer

/-- The records `check_mser_` leaves in the result: those it found, and at most the record
two from the end of the history, which then passes every test against its two neighbours. -/
theorem check_mser_mem {a : OpenCVMatMserAnalyzer} {comp : Component} {r : ComponentStats}
    (h : r ∈ (check_mser_ a comp).result_) :
    r ∈ a.result_ ∨ ∃ succ pred tail, comp.history = succ :: r :: pred :: tail ∧
      r.stability.gt pred.stability = true ∧ r.stability.gt succ.stability = true ∧
      min_N_ ≤ r.N ∧ r.N ≤ max_N_ ∧ r.stability.ge min_stability_ = true := by
  unfold check_mser_ at h
  split at h
  · rename_i succ examinee pred tail heq
    split at h
    · rename_i hc
      simp only [List.mem_append, List.mem_singleton] at h
      rcases h with h | rfl
      · exact Or.inl h
      · exact Or.inr ⟨succ, pred, tail, heq, hc.1, hc.2.1, hc.2.2.1, hc.2.2.2.1, hc.2.2.2.2⟩
    · exact Or.inl h
  · exact Or.inl h

theorem check_mser_finished (a : OpenCVMatMserAnalyzer) (comp : Component) :
    (check_mser_ a comp).finished_ = a.finished_ := by
  unfold check_mser_
  split
  · split <;> rfl
  · rfl

/-- With two copies or more of the same record put onto the history, the test of
`check_mser_` compares a record with itself and emits nothing. -/
theorem check_mser_replicate (a : OpenCVMatMserAnalyzer) (comp : Component) (k : Nat)
    (s : ComponentStats) (h : List ComponentStats) (hk : 2 ≤ k)
    (hh : comp.history = List.replicate k s ++ h) : check_mser_ a comp = a := by
  obtain ⟨k2, rfl⟩ : ∃ k2, k = k2 + 2 := ⟨k - 2, by omega⟩
  unfold check_mser_
  rw [hh]
  simp only [List.replicate_succ, List.cons_append]
  split
  · rename_i succ examinee pred tail heq
    simp only [List.cons.injEq] at heq
    obtain ⟨h1, h2, _⟩ := heq
    subst h1 h2
    simp [FloatVal.gt_irrefl]
  · rfl

theorem record_history_fst_of_gap (a : OpenCVMatMserAnalyzer) (comp : Component)
    (from_level : Nat) (stats : ComponentStats) (level : Nat)
    (h : level ≤ from_level ∨ from_level + 2 ≤ level) :
    (record_history a comp from_level stats level).1 = a := by
  unfold record_history
  split
  · rename_i hgt
    exact check_mser_replicate a _ (level - from_level) stats comp.history (by omega) rfl
  · rfl

end OpenCVMatMserAnalyzer

namespace ComponentTreeParser

/-! ## Images of the two values 0 and 255 -/

theorem two_level_gap {x y : Nat} (hx : x = 0 ∨ x = 255) (hy : y = 0 ∨ y = 255) :
    y ≤ x ∨ x + 2 ≤ y := by
  rcases hx with rfl | rfl <;> rcases hy with rfl | rfl <;> omega

theorem merge_component_into_fst_two_level (a : OpenCVMatMserAnalyzer) (comp1 comp2 : Component)
    (level : Nat) (h1 : comp1.level = 0 ∨ comp1.level = 255)
    (h2 : comp2.level = 0 ∨ comp2.level = 255) (hl : level = 0 ∨ level = 255) :
    (a.merge_component_into comp1 comp2 level).1 = a := by
  simp only [OpenCVMatMserAnalyzer.merge_component_into]
  apply OpenCVMatMserAnalyzer.record_history_fst_of_gap
  split
  · exact two_level_gap h1 hl
  · exact two_level_gap h2 hl

/-- On a stack of levels 0 and 255, `raise_level` to 0 or 255 emits nothing and leaves a
stack of levels 0 and 255. -/
theorem raise_level_two_level (p : ComponentTreeParser) (hp : p.inverted_ = false)
    (a : OpenCVMatMserAnalyzer) (cs : List Component) (level : Nat)
    (r : OpenCVMatMserAnalyzer × List Component) (hcs : TwoLevel cs)
    (hl : level = 0 ∨ level = 255) (h : raise_level p a cs level = .ok r) :
    r.1 = a ∧ TwoLevel r.2 := by
  rw [raise_level_eq p hp] at h
  cases cs with
  | nil => simp at h
  | cons top below =>
    have htop := hcs top (List.mem_cons_self _ _)
    simp only at h
    split at h
    · rename_i hlt
      cases below with
      | nil => simp at h
      | cons next rest =>
        have hnext := hcs next (List.mem_cons_of_mem _ (List.mem_cons_self _ _))
        simp only at h
        split at h
        · rename_i hlt2
          simp only [Except.ok.injEq] at h
          rw [← h]
          refine ⟨OpenCVMatMserAnalyzer.record_history_fst_of_gap a top top.level top.stats level
            (two_level_gap htop hl), ?_⟩
          intro c hc
          rcases List.mem_cons.1 hc with rfl | hc
          · rw [OpenCVMatMserAnalyzer.raise_level_level, if_pos hlt]; exact hl
          · exact hcs c (List.mem_cons_of_mem _ hc)
        · rename_i hlt2
          simp only [Except.ok.injEq] at h
          rw [← h]
          refine ⟨merge_component_into_fst_two_level a top next level htop hnext hl, ?_⟩
          intro c hc
          rcases List.mem_cons.1 hc with rfl | hc
          · rw [OpenCVMatMserAnalyzer.merge_component_into_level a top next level hlt
              (Nat.le_of_not_lt hlt2)]
            exact hl
          · exact hcs c (List.mem_cons_of_mem _ (List.mem_cons_of_mem _ hc))
    · simp only [Except.ok.injEq] at h
      rw [← h]; exact ⟨rfl, hcs⟩

theorem push_node_two_level (a : OpenCVMatMserAnalyzer) (cs : List Component) (c : Point2i)
    (level : Nat) (r2 : OpenCVMatMserAnalyzer × List Component) (hcs : TwoLevel cs)
    (hl : level = 0 ∨ level = 255) (h : push_node a cs c level = .ok r2) :
    r2.1 = a ∧ TwoLevel r2.2 := by
  cases cs with
  | nil => simp [push_node] at h
  | cons top rest =>
    have htop := hcs top (List.mem_cons_self _ _)
    rw [push_node_cons] at h
    simp only [Except.ok.injEq] at h
    rw [← h]
    refine ⟨OpenCVMatMserAnalyzer.record_history_fst_of_gap a top top.level top.stats level
      (two_level_gap htop hl), ?_⟩
    intro d hd
    rcases List.mem_cons.1 hd with rfl | hd
    · rw [OpenCVMatMserAnalyzer.add_node_level]
      split
      · exact hl
      · exact htop
    · exact hcs d (List.mem_cons_of_mem _ hd)

/-- The parse of an image of the two values 0 and 255 emits nothing: a level only ever rises
from 0 to 255, which puts 255 copies of one record onto a history, and the test compares the
last three of them. -/
theorem run_two_level (p : ComponentTreeParser) (hp : p.inverted_ = false) (data : Mat)
    (hrows : 0 < data.rows) (hcols : 0 < data.cols)
    (hbin : ∀ n, data.atUchar n = 0 ∨ data.atUchar n = 255) :
    ∃ st, run p data = .ok st ∧ st.analyzer.get_result = [] := by
  have hval : ∀ (g : OpenCVMatAccessor) (n : Point2i), g.data_ = data →
      (g.value n = 0 ∨ g.value n = 255) := by
    intro g n hg
    simp only [OpenCVMatAccessor.value, hg]
    exact hbin n
  obtain ⟨st, f, h1, _, _, h4⟩ := parse_total p hp data hrows hcols (fuelFor data) le_rfl
    (fun st _ => st.analyzer.result_ = [] ∧ TwoLevel st.components_)
    (fun st _ _ => st.analyzer.result_ = [] ∧ TwoLevel st.components_)
    (by
      refine ⟨rfl, ?_⟩
      intro c hc
      simp only [List.mem_singleton] at hc
      rw [hc]; exact Or.inr rfl)
    (by
      intro g a q cs fd tr f n q1 r hB hI _ hr
      obtain ⟨h1, h2⟩ := raise_level_two_level p hp a cs _ r hI.2 (hval g n hB.data_eq) hr
      simp only
      rw [h1]
      exact ⟨hI.1, h2⟩)
    (by intro g a q cs fd tr f c v g1 _ hJ _ _; exact hJ)
    (by intro g a q cs fd tr f c v g1 _ hJ _ _; exact hJ)
    (by
      intro g a q cs tr f c g1 hB hJ hn
      have hg1 : g1.data_ = data := ((hB.exhausted hn).1).data_eq
      refine ⟨hJ.1, ?_⟩
      intro d hd
      rw [push_component_snd] at hd
      rcases List.mem_cons.1 hd with rfl | hd
      · exact hval g1 c hg1
      · exact hJ.2 d hd)
    (by
      intro g a q cs tr f c g1 r2 hB hJ hn hpn
      have hg1 : g1.data_ = data := ((hB.exhausted hn).1).data_eq
      obtain ⟨h1, h2⟩ := push_node_two_level a cs c _ r2 hJ.2 (hval g1 c hg1) hpn
      simp only
      rw [h1]
      exact ⟨hJ.1, h2⟩)
  exact ⟨st, h1, h4.1⟩

/-- The call `operator()` on an image of the two values 0 and 255 returns the empty result. -/
theorem call_two_level (p : ComponentTreeParser) (hp : p.inverted_ = false) (data : Mat)
    (hrows : 0 < data.rows) (hcols : 0 < data.cols)
    (hbin : ∀ n, data.atUchar n = 0 ∨ data.atUchar n = 255) :
    call p data = Except.ok [] := by
  obtain ⟨st, hrun, hres⟩ := run_two_level p hp data hrows hcols hbin
  simp only [call, hrun]
  exact congrArg Except.ok hres

theorem scenarioS2_two_level (t : Int) (n : Point2i) :
    (scenarioS2 t).atUchar n = 0 ∨ (scenarioS2 t).atUchar n = 255 := by
  simp only [Mat.atUchar, scenarioS2]
  split
  · exact Or.inl rfl
  · exact Or.inr rfl

theorem scenarioS2_rows (t : Int) : 0 < (scenarioS2 t).rows := by
  show 0 < 120
  decide

theorem scenarioS2_cols (t : Int) : 0 < (scenarioS2 t).cols := by
  show 0 < 120
  decide

end ComponentTreeParser

end Stabilizer

namespace Stabilizer

/-! ## The order between the stack and the frontier is kept by every call of a run -/

namespace ComponentTreeParser

theorem raise_level_levels (p : ComponentTreeParser) (hp : p.inverted_ = false)
    (a : OpenCVMatMserAnalyzer) (cs : List Component) (level : Nat)
    (r : OpenCVMatMserAnalyzer × List Component) (h : raise_level p a cs level = .ok r) :
    levelsOf r.2 = raiseLevels level (levelsOf cs) := by
  rw [raise_level_eq p hp] at h
  cases cs with
  | nil => simp at h
  | cons top below =>
    simp only at h
    cases below with
    | nil =>
      split at h
      · simp at h
      · simp only [Except.ok.injEq] at h
        rw [← h]; rfl
    | cons next rest =>
      simp only [levelsOf, List.map_cons, raiseLevels]
      split at h
      · rename_i hlt
        rw [if_pos hlt]
        simp only at h
        split at h
        · rename_i hlt2
          rw [if_pos hlt2]
          simp only [Except.ok.injEq] at h
          rw [← h]
          simp only [List.map_cons, OpenCVMatMserAnalyzer.raise_level_level, if_pos hlt]
        · rename_i hlt2
          rw [if_neg hlt2]
          simp only [Except.ok.injEq] at h
          rw [← h]
          simp only [List.map_cons,
            OpenCVMatMserAnalyzer.merge_component_into_level a top next level hlt
              (Nat.le_of_not_lt hlt2)]
      · rename_i hlt
        rw [if_neg hlt]
        simp only [Except.ok.injEq] at h
        rw [← h]
        simp only [List.map_cons]

theorem push_node_levels {a : OpenCVMatMserAnalyzer} {cs : List Component} {c : Point2i}
    {level : Nat} {r2 : OpenCVMatMserAnalyzer × List Component}
    (h : push_node a cs c level = .ok r2) :
    ∃ t rest, levelsOf cs = t :: rest ∧
      levelsOf r2.2 = (if level > t then level else t) :: rest := by
  cases cs with
  | nil => simp [push_node] at h
  | cons top rest =>
    rw [push_node_cons] at h
    simp only [Except.ok.injEq] at h
    rw [← h]
    exact ⟨top.level, levelsOf rest, rfl, by
      simp only [levelsOf, List.map_cons, OpenCVMatMserAnalyzer.add_node_level]⟩

theorem push_component_levels (a : OpenCVMatMserAnalyzer) (cs : List Component) (c : Point2i)
    (level : Nat) : levelsOf (push_component a cs c level).2 = level :: levelsOf cs := rfl

end ComponentTreeParser

theorem grounded_iff_levels (cs : List Component) :
    Grounded 255 cs ↔ (levelsOf cs).getLast? = some 255 := by
  unfold Grounded levelsOf
  rw [List.getLast?_map]

/-! ### The steps, on lists of levels -/

theorem risingTo255_cons {a : Nat} {l : List Nat} :
    RisingTo255 (a :: l) ↔ (∀ b ∈ l, a < b ∨ b = 255) ∧ RisingTo255 l := by
  unfold RisingTo255
  exact List.pairwise_cons

namespace Ordered

/-- After a successful `pop` of a node of least value `v` and `raise_level(v)`. -/
theorem pop_raise {levels : List Nat} {fd : Bool} {entries : List (Point2i × Nat)}
    {n : Point2i} {v : Nat} (h : Ordered levels fd entries) (hmem : (n, v) ∈ entries)
    (hv : v = Frontier.minValue entries) (hv255 : v ≤ 255)
    (hbot : levels.getLast? = some 255) :
    Exploring (raiseLevels v levels) fd (Frontier.removeNewestWith v entries) v := by
  have hmin : ∀ e ∈ entries, v ≤ e.2 := by
    intro e he; rw [hv]; exact Frontier.minValue_le_of_mem he
  have hfloor : ∀ e ∈ Frontier.removeNewestWith v entries, v ≤ e.2 :=
    fun e he => hmin e (Frontier.mem_of_mem_removeNewestWith he)
  have hkeep : ∀ l, v < l → (∃ e ∈ entries, e.2 = l) →
      ∃ e ∈ Frontier.removeNewestWith v entries, e.2 = l := by
    rintro l hl ⟨e, he, rfl⟩
    exact ⟨e, Frontier.mem_removeNewestWith_of_ne he (by omega), rfl⟩
  cases levels with
  | nil => simp at hbot
  | cons top below =>
    cases below with
    | nil =>
      simp only [List.getLast?_singleton, Option.some.injEq] at hbot
      subst hbot
      simp only [raiseLevels]
      refine ⟨h.sorted, hfloor, ?_, ?_, ?_, ?_⟩
      · intro l hl
        simp only [List.head?_cons, Option.mem_def, Option.some.injEq] at hl
        omega
      · intro hfd l hl
        simp only [List.head?_cons, Option.mem_def, Option.some.injEq] at hl
        have := h.above hfd 255 (by simp) (n, v) hmem
        simp only at this
        omega
      · intro _ l hl
        simp only [List.head?_cons, Option.mem_def, Option.some.injEq] at hl
        subst hl
        exact ⟨Or.inr rfl, fun h => absurd h (by omega)⟩
      · intro l hl; simp at hl
    | cons next rest =>
      have hfd : fd = false := by
        cases fd with
        | false => rfl
        | true => have := h.first rfl; simp at this
      have htop : top ≤ v := by
        have := h.above hfd top (by simp) (n, v) hmem
        exact this
      obtain ⟨hs1, hs2⟩ := risingTo255_cons.1 h.sorted
      obtain ⟨hs3, hs4⟩ := risingTo255_cons.1 hs2
      have hnext : v ≤ next := by
        by_cases hn : next < 255
        · obtain ⟨e, he, hev⟩ := h.queued next (by simp) hn
          rw [← hev]; exact hmin e he
        · omega
      simp only [raiseLevels]
      by_cases hlt : top < v
      · rw [if_pos hlt]
        by_cases hlt2 : v < next
        · rw [if_pos hlt2]
          refine ⟨?_, hfloor, ?_, ?_, ?_, ?_⟩
          · apply risingTo255_cons.2
            refine ⟨?_, hs2⟩
            intro b hb
            rcases List.mem_cons.1 hb with rfl | hb
            · exact Or.inl hlt2
            · rcases hs3 b hb with h1 | h1
              · exact Or.inl (by omega)
              · exact Or.inr h1
          · intro l hl
            simp only [List.head?_cons, Option.mem_def, Option.some.injEq] at hl
            omega
          · intro _ l hl
            simp only [List.head?_cons, Option.mem_def, Option.some.injEq] at hl
            omega
          · intro hfd2; rw [hfd] at hfd2; cases hfd2
          · intro l hl hl255
            simp only [List.tail_cons] at hl
            apply hkeep l _ (h.queued l (by simpa using hl) hl255)
            rcases List.mem_cons.1 hl with rfl | hl
            · exact hlt2
            · rcases hs3 l hl with h1 | h1 <;> omega
        · rw [if_neg hlt2]
          have heq : v = next := by omega
          refine ⟨?_, hfloor, ?_, ?_, ?_, ?_⟩
          · rw [heq]; exact hs2
          · intro l hl
            simp only [List.head?_cons, Option.mem_def, Option.some.injEq] at hl
            omega
          · intro _ l hl
            simp only [List.head?_cons, Option.mem_def, Option.some.injEq] at hl
            omega
          · intro hfd2; rw [hfd] at hfd2; cases hfd2
          · intro l hl hl255
            simp only [List.tail_cons] at hl
            apply hkeep l _ (h.queued l (by simp [hl]) hl255)
            rcases hs3 l hl with h1 | h1 <;> omega
      · rw [if_neg hlt]
        have heq : top = v := by omega
        refine ⟨h.sorted, hfloor, ?_, ?_, ?_, ?_⟩
        · intro l hl
          simp only [List.head?_cons, Option.mem_def, Option.some.injEq] at hl
          omega
        · intro _ l hl
          simp only [List.head?_cons, Option.mem_def, Option.some.injEq] at hl
          omega
        · intro hfd2; rw [hfd] at hfd2; cases hfd2
        · intro l hl hl255
          apply hkeep l _ (h.queued l hl hl255)
          simp only [List.tail_cons] at hl
          rcases hs1 l hl with h1 | h1 <;> omega

end Ordered

namespace Exploring

/-- A descent: the current node, of value `v`, is pushed and a node of lower value `w`
becomes current. -/
theorem down {levels : List Nat} {fd : Bool} {entries : List (Point2i × Nat)} {v w : Nat}
    (h : Exploring levels fd entries v) (c : Point2i) (hw : w < v) :
    Exploring levels true ((c, v) :: entries) w := by
  refine ⟨h.sorted, ?_, ?_, ?_, ?_, ?_⟩
  · intro e he
    rcases List.mem_cons.1 he with rfl | he
    · simp only; omega
    · have := h.floor e he; omega
  · intro l hl
    have := h.below_top l hl; omega
  · intro hfd; cases hfd
  · intro _ l hl
    refine ⟨Or.inl (by have := h.below_top l hl; omega), ?_⟩
    intro hl255
    cases fd with
    | false =>
      have := h.at_top rfl l hl
      exact ⟨(c, v), List.mem_cons_self _ _, this.symm⟩
    | true =>
      obtain ⟨e, he, hev⟩ := (h.descended rfl l hl).2 hl255
      exact ⟨e, List.mem_cons_of_mem _ he, hev⟩
  · intro l hl hl255
    obtain ⟨e, he, hev⟩ := h.queued l hl hl255
    exact ⟨e, List.mem_cons_of_mem _ he, hev⟩

/-- A neighbour of value `w`, not below the value `v` of the current node, is pushed. -/
theorem stay {levels : List Nat} {fd : Bool} {entries : List (Point2i × Nat)} {v w : Nat}
    (h : Exploring levels fd entries v) (c : Point2i) (hw : v ≤ w) :
    Exploring levels fd ((c, w) :: entries) v := by
  refine ⟨h.sorted, ?_, h.below_top, h.at_top, ?_, ?_⟩
  · intro e he
    rcases List.mem_cons.1 he with rfl | he
    · exact hw
    · exact h.floor e he
  · intro hfd l hl
    obtain ⟨h1, h2⟩ := h.descended hfd l hl
    refine ⟨h1, fun hl255 => ?_⟩
    obtain ⟨e, he, hev⟩ := h2 hl255
    exact ⟨e, List.mem_cons_of_mem _ he, hev⟩
  · intro l hl hl255
    obtain ⟨e, he, hev⟩ := h.queued l hl hl255
    exact ⟨e, List.mem_cons_of_mem _ he, hev⟩

/-- The `push_component` that ends a turn with the flag set. -/
theorem component {levels : List Nat} {entries : List (Point2i × Nat)} {v : Nat}
    (h : Exploring levels true entries v) (hv : v ≤ 255) :
    Ordered (v :: levels) false entries := by
  refine ⟨?_, ?_, ?_, ?_⟩
  · apply risingTo255_cons.2
    refine ⟨?_, h.sorted⟩
    intro b hb
    cases levels with
    | nil => cases hb
    | cons top below =>
      obtain ⟨hs1, _⟩ := risingTo255_cons.1 h.sorted
      have ht := (h.descended rfl top (by simp)).1
      rcases List.mem_cons.1 hb with rfl | hb
      · exact ht
      · rcases hs1 b hb with h1 | h1
        · exact Or.inl (by omega)
        · exact Or.inr h1
  · intro _ l hl e he
    simp only [List.head?_cons, Option.mem_def, Option.some.injEq] at hl
    subst hl
    exact h.floor e he
  · intro l hl hl255
    simp only [List.tail_cons] at hl
    cases levels with
    | nil => cases hl
    | cons top below =>
      rcases List.mem_cons.1 hl with rfl | hl
      · exact (h.descended rfl l (by simp)).2 hl255
      · exact h.queued l (by simpa using hl) hl255
  · intro hfd; cases hfd

/-- The `push_node` that ends a turn with the flag clear. -/
theorem node {t : Nat} {rest : List Nat} {entries : List (Point2i × Nat)} {v : Nat}
    (h : Exploring (t :: rest) false entries v) :
    Ordered ((if v > t then v else t) :: rest) false entries := by
  have ht : t = v := h.at_top rfl t (by simp)
  subst ht
  simp only [gt_iff_lt, lt_irrefl, if_false]
  refine ⟨h.sorted, ?_, h.queued, ?_⟩
  · intro _ l hl e he
    simp only [List.head?_cons, Option.mem_def, Option.some.injEq] at hl
    subst hl
    exact h.floor e he
  · intro hfd; cases hfd

end Exploring

namespace ComponentTreeParser

/-- A run of `parse_` on an image with a pixel keeps the order between its stack and its
frontier; a further property is handed from call to call with the bookkeeping and the order
at hand in every obligation. -/
theorem parse_total_ordered (p : ComponentTreeParser) (hp : p.inverted_ = false) (data : Mat)
    (hrows : 0 < data.rows) (hcols : 0 < data.cols) (fuel : Nat) (hfuel : fuelFor data ≤ fuel)
    (I : ParseState → Frontier → Prop) (J : ParseState → Point2i → Frontier → Prop)
    (hinit : I
      ⟨{ data_ := data, mask_ := Function.update (fun _ => 0) { x := 0, y := 0 } 1 }, {},
        OpenCVMatPriorityQueue.empty.push { x := 0, y := 0 } (data.atUchar { x := 0, y := 0 }),
        [{ level := 255 }], true,
        [Event.push { x := 0, y := 0 } (data.atUchar { x := 0, y := 0 }),
          Event.init [{ level := 255 }]]⟩
      ((Frontier.mk []).push { x := 0, y := 0 } (data.atUchar { x := 0, y := 0 })))
    (hpop : ∀ g a q cs fd tr f n q1 r, Base data [] ⟨g, a, q, cs, fd, tr⟩ f →
      Ordered (levelsOf cs) fd f.entries →
      I ⟨g, a, q, cs, fd, tr⟩ f → q.pop = (some n, q1) →
      raise_level p a cs (g.value n) = .ok r →
      Exploring (levelsOf r.2) fd
        (Frontier.removeNewestWith (Frontier.minValue f.entries) f.entries) (data.atUchar n) →
      J ⟨g, r.1, q1, r.2, fd, Event.raise_level (g.value n) cs r.2 :: Event.pop n :: tr⟩ n
        { entries := Frontier.removeNewestWith (Frontier.minValue f.entries) f.entries })
    (hdown : ∀ g a q cs fd tr f c v g1, Base data [c] ⟨g, a, q, cs, fd, tr⟩ f →
      Exploring (levelsOf cs) fd f.entries (data.atUchar c) →
      J ⟨g, a, q, cs, fd, tr⟩ c f →
      g.get_next_neighbor c = (some v, g1) → p.less (g1.value v) (g1.value c) = true →
      J ⟨g1, a, q.push c (g1.value c), cs, true, Event.push c (g1.value c) :: tr⟩ v
        (f.push c (g1.value c)))
    (hstay : ∀ g a q cs fd tr f c v g1, Base data [c] ⟨g, a, q, cs, fd, tr⟩ f →
      Exploring (levelsOf cs) fd f.entries (data.atUchar c) →
      J ⟨g, a, q, cs, fd, tr⟩ c f →
      g.get_next_neighbor c = (some v, g1) → ¬ p.less (g1.value v) (g1.value c) = true →
      J ⟨g1, a, q.push v (g1.value v), cs, fd, Event.push v (g1.value v) :: tr⟩ c
        (f.push v (g1.value v)))
    (hcomp : ∀ g a q cs tr f c g1, Base data [c] ⟨g, a, q, cs, true, tr⟩ f →
      Exploring (levelsOf cs) true f.entries (data.atUchar c) →
      J ⟨g, a, q, cs, true, tr⟩ c f → g.get_next_neighbor c = (none, g1) →
      I ⟨g1, a, q, (push_component a cs c (g1.value c)).2, false,
        Event.push_component c (g1.value c) (push_component a cs c (g1.value c)).2 :: tr⟩ f)
    (hnode : ∀ g a q cs tr f c g1 r2, Base data [c] ⟨g, a, q, cs, false, tr⟩ f →
      Exploring (levelsOf cs) false f.entries (data.atUchar c) →
      J ⟨g, a, q, cs, false, tr⟩ c f → g.get_next_neighbor c = (none, g1) →
      push_node a cs c (g1.value c) = .ok r2 →
      I ⟨g1, r2.1, q, r2.2, false, Event.push_node c (g1.value c) r2.2 :: tr⟩ f) :
    ∃ st f, parse_ p fuel (OpenCVMatAccessor.new data) {} OpenCVMatPriorityQueue.empty = .ok st ∧
      Base data [] st f ∧ f.entries = [] ∧
      Ordered (levelsOf st.components_) st.flowingdown_phase f.entries ∧ I st f := by
  have hval : ∀ (g : OpenCVMatAccessor) (n : Point2i), g.data_ = data →
      g.value n = data.atUchar n := by
    intro g n hg
    simp only [OpenCVMatAccessor.value, hg]
  have hstepdata : ∀ (g g1 : OpenCVMatAccessor) (c : Point2i) (o : Option Point2i),
      g.data_ = data → g.get_next_neighbor c = (o, g1) → g1.data_ = data := by
    intro g g1 c o hg hn
    have := (OpenCVMatAccessor.get_next_neighbor_step g c).data_eq
    rw [hn] at this
    simp only at this
    rw [this]; exact hg
  obtain ⟨st, f, h1, h2, h3, h4, h5⟩ := parse_total p hp data hrows hcols fuel hfuel
    (fun st f => Ordered (levelsOf st.components_) st.flowingdown_phase f.entries ∧ I st f)
    (fun st c f => Exploring (levelsOf st.components_) st.flowingdown_phase f.entries
      (data.atUchar c) ∧ J st c f)
    (by
      refine ⟨⟨?_, ?_, ?_, ?_⟩, hinit⟩
      · simp [RisingTo255, levelsOf]
      · intro h; cases h
      · intro l hl; simp [levelsOf] at hl
      · intro _; rfl)
    (by
      intro g a q cs fd tr f n q1 r hB hI hq hr
      obtain ⟨hB1, hmem⟩ := hB.pop hq
      have hv : Frontier.minValue f.entries = data.atUchar n := hB.values _ hmem
      have hgv : g.value n = data.atUchar n := hval g n hB.data_eq
      have hex := hI.1.pop_raise (by rw [← hv]; exact hmem) hv.symm (atUchar_le data n)
        ((grounded_iff_levels cs).1 hB.grounded)
      have hlev : levelsOf r.2 = raiseLevels (data.atUchar n) (levelsOf cs) := by
        rw [← hgv]; exact raise_level_levels p hp a cs _ r hr
      rw [← hlev] at hex
      have hex2 : Exploring (levelsOf r.2) fd
          (Frontier.removeNewestWith (Frontier.minValue f.entries) f.entries)
          (data.atUchar n) := by
        rw [hv]; exact hex
      exact ⟨hex2, hpop g a q cs fd tr f n q1 r hB hI.1 hI.2 hq hr hex2⟩)
    (by
      intro g a q cs fd tr f c v g1 hB hJ hn hl
      have hg1 := hstepdata g g1 c _ hB.data_eq hn
      rw [less_eq p hp, decide_eq_true_eq, hval g1 v hg1, hval g1 c hg1] at hl
      refine ⟨?_, hdown g a q cs fd tr f c v g1 hB hJ.1 hJ.2 hn
        (by rw [less_eq p hp, decide_eq_true_eq, hval g1 v hg1, hval g1 c hg1]; exact hl)⟩
      simp only [Frontier.push, hval g1 c hg1, atUchar_mod]
      exact hJ.1.down c hl)
    (by
      intro g a q cs fd tr f c v g1 hB hJ hn hl
      have hg1 := hstepdata g g1 c _ hB.data_eq hn
      have hl2 := hl
      rw [less_eq p hp, decide_eq_true_eq, hval g1 v hg1, hval g1 c hg1] at hl2
      refine ⟨?_, hstay g a q cs fd tr f c v g1 hB hJ.1 hJ.2 hn hl⟩
      simp only [Frontier.push, hval g1 v hg1, atUchar_mod]
      exact hJ.1.stay v (Nat.le_of_not_lt hl2))
    (by
      intro g a q cs tr f c g1 hB hJ hn
      have hg1 := hstepdata g g1 c _ hB.data_eq hn
      refine ⟨?_, hcomp g a q cs tr f c g1 hB hJ.1 hJ.2 hn⟩
      simp only [push_component_levels, hval g1 c hg1]
      exact hJ.1.component (atUchar_le data c))
    (by
      intro g a q cs tr f c g1 r2 hB hJ hn hpn
      have hg1 := hstepdata g g1 c _ hB.data_eq hn
      refine ⟨?_, hnode g a q cs tr f c g1 r2 hB hJ.1 hJ.2 hn hpn⟩
      obtain ⟨t, rest, hcs, hr2⟩ := push_node_levels hpn
      simp only [hr2, hval g1 c hg1]
      have := hJ.1
      simp only [hcs] at this
      exact this.node)
  exact ⟨st, f, h1, h2, h3, h4, h5⟩

end ComponentTreeParser

/-! ### Images without the value 255 -/

theorem strictlyRising_of {l : List Nat} (hs : RisingTo255 l) (hbot : l.getLast? = some 255)
    (hb : Below255 l) : StrictlyRising 255 l := by
  refine ⟨?_, hbot⟩
  induction l with
  | nil => exact List.Pairwise.nil
  | cons a l ih =>
    cases l with
    | nil => exact List.pairwise_singleton _ _
    | cons b l =>
      obtain ⟨hs1, hs2⟩ := risingTo255_cons.1 hs
      have ha : a < 255 := hb a (by simp [List.dropLast])
      apply List.pairwise_cons.2
      refine ⟨?_, ih hs2 (by simpa [List.getLast?_cons_cons] using hbot) ?_⟩
      · intro x hx
        rcases hs1 x hx with h | h <;> omega
      · intro x hx
        exact hb x (by simp only [List.dropLast_cons₂]; exact List.mem_cons_of_mem _ hx)

theorem below255_cons {l : List Nat} {v : Nat} (hb : Below255 l) (hne : l ≠ []) (hv : v < 255) :
    Below255 (v :: l) := by
  cases l with
  | nil => exact absurd rfl hne
  | cons b l =>
    intro x hx
    simp only [List.dropLast_cons₂] at hx
    rcases List.mem_cons.1 hx with rfl | hx
    · exact hv
    · exact hb x hx

theorem below255_node {t : Nat} {rest : List Nat} {v : Nat} (hb : Below255 (t :: rest))
    (hv : v < 255) : Below255 ((if v > t then v else t) :: rest) := by
  cases rest with
  | nil => intro x hx; simp [List.dropLast] at hx
  | cons b l =>
    intro x hx
    simp only [List.dropLast_cons₂] at hx
    rcases List.mem_cons.1 hx with rfl | hx
    · split
      · exact hv
      · exact hb t (by simp [List.dropLast])
    · exact hb x (by simp only [List.dropLast_cons₂]; exact List.mem_cons_of_mem _ hx)

theorem below255_raise {l : List Nat} {v : Nat} (hb : Below255 l) (hv : v < 255) :
    Below255 (raiseLevels v l) := by
  cases l with
  | nil => exact hb
  | cons t below =>
    cases below with
    | nil => exact hb
    | cons n rest =>
      simp only [raiseLevels]
      have hrest : ∀ x ∈ (n :: rest).dropLast, x < 255 := by
        intro x hx
        exact hb x (by simp only [List.dropLast_cons₂]; exact List.mem_cons_of_mem _ hx)
      split
      · split
        · intro x hx
          simp only [List.dropLast_cons₂] at hx
          rcases List.mem_cons.1 hx with rfl | hx
          · exact hv
          · exact hrest x hx
        · cases rest with
          | nil => intro x hx; simp [List.dropLast] at hx
          | cons b l =>
            intro x hx
            simp only [List.dropLast_cons₂] at hx
            rcases List.mem_cons.1 hx with rfl | hx
            · exact hv
            · exact hrest x (by simp only [List.dropLast_cons₂]; exact List.mem_cons_of_mem _ hx)
      · exact hb

namespace ComponentTreeParser

/-- On an image without the value 255, every stack the trace of a run lists has levels that
rise strictly from the top to the sentinel at 255. -/
theorem run_strictly_rising (p : ComponentTreeParser) (hp : p.inverted_ = false) (data : Mat)
    (hrows : 0 < data.rows) (hcols : 0 < data.cols)
    (hlt : ∀ n, data.inBounds n → data.atUchar n < 255) :
    ∃ st, run p data = .ok st ∧
      ∀ s ∈ stackLog st.trace, StrictlyRising 255 (levelsOf s) := by
  have hval : ∀ (g : OpenCVMatAccessor) (n : Point2i), g.data_ = data →
      g.value n = data.atUchar n := by
    intro g n hg
    simp only [OpenCVMatAccessor.value, hg]
  have hstepdata : ∀ (g g1 : OpenCVMatAccessor) (c : Point2i) (o : Option Point2i),
      g.data_ = data → g.get_next_neighbor c = (o, g1) → g1.data_ = data := by
    intro g g1 c o hg hn
    have := (OpenCVMatAccessor.get_next_neighbor_step g c).data_eq
    rw [hn] at this
    simp only at this
    rw [this]; exact hg
  obtain ⟨st, f, h1, _, _, _, h5⟩ := parse_total_ordered p hp data hrows hcols (fuelFor data)
    le_rfl
    (fun st _ => Below255 (levelsOf st.components_) ∧
      ∀ s ∈ stackLog st.trace, StrictlyRising 255 (levelsOf s))
    (fun st _ _ => Below255 (levelsOf st.components_) ∧
      ∀ s ∈ stackLog st.trace, StrictlyRising 255 (levelsOf s))
    (by
      refine ⟨?_, ?_⟩
      · intro x hx; simp [levelsOf, List.dropLast] at hx
      · intro s hs
        simp only [stackLog, List.mem_singleton] at hs
        subst hs
        exact ⟨List.pairwise_singleton _ _, rfl⟩)
    (by
      intro g a q cs fd tr f n q1 r hB _ hI hq hr hex
      obtain ⟨a1, top, rest, hr1, hgr, _, _⟩ :=
        raise_level_spec p hp a cs (g.value n) (value_le g n) hB.grounded
      rw [hr] at hr1
      simp only [Except.ok.injEq] at hr1
      have hgr2 : Grounded 255 r.2 := by rw [hr1]; exact hgr
      have hb : Below255 (levelsOf r.2) := by
        rw [raise_level_levels p hp a cs _ r hr]
        exact below255_raise hI.1 (by
          rw [hval g n hB.data_eq]
          exact hlt n ((hB.pop hq).1.inb n (((hB.pop hq).1.reached n).2 (by simp))))
      refine ⟨hb, ?_⟩
      intro s hs
      simp only [stackLog, List.mem_cons] at hs
      rcases hs with rfl | hs
      · exact strictlyRising_of hex.sorted ((grounded_iff_levels _).1 hgr2) hb
      · exact hI.2 s hs)
    (by
      intro g a q cs fd tr f c v g1 _ _ hJ _ _
      exact ⟨hJ.1, fun s hs => hJ.2 s (by simpa [stackLog] using hs)⟩)
    (by
      intro g a q cs fd tr f c v g1 _ _ hJ _ _
      exact ⟨hJ.1, fun s hs => hJ.2 s (by simpa [stackLog] using hs)⟩)
    (by
      intro g a q cs tr f c g1 hB hex hJ hn
      have hg1 := hstepdata g g1 c _ hB.data_eq hn
      have hne : levelsOf cs ≠ [] := by
        intro h
        have := (grounded_iff_levels cs).1 hB.grounded
        rw [h] at this
        simp at this
      have hb : Below255 (levelsOf (push_component a cs c (g1.value c)).2) := by
        rw [push_component_levels]
        exact below255_cons hJ.1 hne (by
          rw [hval g1 c hg1]
          exact hlt c (hB.inb c ((hB.reached c).2 (by simp))))
      refine ⟨hb, ?_⟩
      intro s hs
      simp only [stackLog, List.mem_cons] at hs
      rcases hs with rfl | hs
      · have hord := hex.component (atUchar_le data c)
        rw [← hval g1 c hg1, ← push_component_levels a cs c (g1.value c)] at hord
        exact strictlyRising_of hord.sorted
          ((grounded_iff_levels _).1 (grounded_cons hB.grounded)) hb
      · exact hJ.2 s hs)
    (by
      intro g a q cs tr f c g1 r2 hB hex hJ hn hpn
      have hg1 := hstepdata g g1 c _ hB.data_eq hn
      obtain ⟨t, rest, hcs, hr2⟩ := push_node_levels hpn
      have hb : Below255 (levelsOf r2.2) := by
        rw [hr2]
        have := hJ.1
        simp only [hcs] at this
        exact below255_node this (by
          rw [hval g1 c hg1]
          exact hlt c (hB.inb c ((hB.reached c).2 (by simp))))
      refine ⟨hb, ?_⟩
      intro s hs
      simp only [stackLog, List.mem_cons] at hs
      rcases hs with rfl | hs
      · have hex2 := hex
        simp only [hcs] at hex2
        have hord := hex2.node
        rw [← hval g1 c hg1, ← hr2] at hord
        exact strictlyRising_of hord.sorted
          ((grounded_iff_levels _).1 (push_node_grounded (value_le _ _) hB.grounded hpn)) hb
      · exact hJ.2 s hs)
  exact ⟨st, h1, h5.2⟩

end ComponentTreeParser

end Stabilizer

namespace Stabilizer

/-! ## Statements: the bucket queue -/

/-- C4: after any sequence of pushes and pops on an initially empty queue, the buckets hold
exactly the nodes the specified frontier stores, and a pop on a queue that holds a node
returns the most recently pushed of the stored nodes of minimum value and removes that node
and nothing else. -/
theorem pop_returns_newest_of_minimum (ops : List FrontierOp)
    (hheld : ∃ v, v < 256 ∧ (OpenCVMatPriorityQueue.after ops).points_ v ≠ []) :
    (∀ v, (OpenCVMatPriorityQueue.after ops).points_ v = (Frontier.after ops).bucket v) ∧
    ∃ n, (OpenCVMatPriorityQueue.after ops).pop.1 = some n ∧
      (∃ e ∈ (Frontier.after ops).entries, e.2 = Frontier.minValue (Frontier.after ops).entries) ∧
      (∀ e ∈ (Frontier.after ops).entries, Frontier.minValue (Frontier.after ops).entries ≤ e.2) ∧
      Frontier.newestWith (Frontier.minValue (Frontier.after ops).entries)
        (Frontier.after ops).entries = some n ∧
      ∀ v, (OpenCVMatPriorityQueue.after ops).pop.2.points_ v
        = Frontier.bucket
            { entries := Frontier.removeNewestWith
                (Frontier.minValue (Frontier.after ops).entries) (Frontier.after ops).entries } v := by
  have href := OpenCVMatPriorityQueue.refines_after ops
  have hpop := OpenCVMatPriorityQueue.pop_eq href
  obtain ⟨hb, hm, hbd⟩ := href
  refine ⟨hb, ?_⟩
  obtain ⟨v, _, hv⟩ := hheld
  have hne : (Frontier.after ops).entries ≠ [] := by
    intro hnil
    apply hv
    rw [hb]
    unfold Frontier.bucket
    rw [hnil]; rfl
  obtain ⟨e, he, hev⟩ := Frontier.minValue_attained hne hbd
  have hmem : e.1 ∈ (Frontier.after ops).bucket (Frontier.minValue (Frontier.after ops).entries) := by
    rw [← hev]; exact Frontier.mem_bucket.2 he
  have hhead := Frontier.newestWith_eq_head
    (Frontier.minValue (Frontier.after ops).entries) (Frontier.after ops).entries
  cases hbk : (Frontier.after ops).bucket (Frontier.minValue (Frontier.after ops).entries) with
  | nil => rw [hbk] at hmem; cases hmem
  | cons n rest =>
    have hsome : Frontier.newestWith (Frontier.minValue (Frontier.after ops).entries)
        (Frontier.after ops).entries = some n := by
      rw [hhead]
      show ((Frontier.after ops).bucket _).head? = some n
      rw [hbk]; rfl
    have h1 := hpop.1
    have h2 := hpop.2.1
    simp only [Frontier.pop, hsome] at h1 h2
    exact ⟨n, h1, ⟨e, he, hev⟩, fun e he => Frontier.minValue_le_of_mem he, hsome, h2⟩

/-- A run of C4: two nodes pushed at value 3, one at 7, one at 3 popped in between. -/
theorem pop_returns_newest_of_minimum_witness :
    (∃ v, v < 256 ∧ (OpenCVMatPriorityQueue.after
        [FrontierOp.push ⟨0, 0⟩ 3, FrontierOp.push ⟨1, 0⟩ 7, FrontierOp.push ⟨2, 0⟩ 3,
          FrontierOp.pop]).points_ v ≠ []) ∧
    (OpenCVMatPriorityQueue.after
        [FrontierOp.push ⟨0, 0⟩ 3, FrontierOp.push ⟨1, 0⟩ 7, FrontierOp.push ⟨2, 0⟩ 3,
          FrontierOp.pop]).pop.1 = some ⟨0, 0⟩ := by
  have hheld : ∃ v, v < 256 ∧ (OpenCVMatPriorityQueue.after
        [FrontierOp.push ⟨0, 0⟩ 3, FrontierOp.push ⟨1, 0⟩ 7, FrontierOp.push ⟨2, 0⟩ 3,
          FrontierOp.pop]).points_ v ≠ [] := ⟨3, by decide, by decide⟩
  obtain ⟨_, n, hn, _, _, hnew, _⟩ := pop_returns_newest_of_minimum _ hheld
  refine ⟨hheld, ?_⟩
  rw [hn, ← hnew]
  decide

/-- C5: in every state reached from the empty queue by pushes and pops, `pop` returns none
exactly when each of the 256 buckets is empty. -/
theorem pop_none_iff_buckets_empty (ops : List FrontierOp) :
    (OpenCVMatPriorityQueue.after ops).pop.1 = none ↔
      ∀ v, v < 256 → (OpenCVMatPriorityQueue.after ops).points_ v = [] := by
  obtain ⟨hb, hm, hbd⟩ := OpenCVMatPriorityQueue.refines_after ops
  have hle : (OpenCVMatPriorityQueue.after ops).minimum_ ≤ 255 := by
    rw [hm]; exact Frontier.minValue_le_255 _
  constructor
  · intro hnone v _
    have hq : (OpenCVMatPriorityQueue.after ops).points_
        (OpenCVMatPriorityQueue.after ops).minimum_ = [] := by
      cases hq : (OpenCVMatPriorityQueue.after ops).points_
          (OpenCVMatPriorityQueue.after ops).minimum_ with
      | nil => rfl
      | cons n rest => simp [OpenCVMatPriorityQueue.pop, hq] at hnone
    have hnil : (Frontier.after ops).entries = [] := by
      by_contra hne
      obtain ⟨e, he, hev⟩ := Frontier.minValue_attained hne hbd
      have hmem : e.1 ∈ (Frontier.after ops).bucket e.2 := Frontier.mem_bucket.2 he
      rw [hev, ← hm, ← hb, hq] at hmem
      cases hmem
    rw [hb]
    unfold Frontier.bucket
    rw [hnil]; rfl
  · intro hall
    have hq := hall _ (Nat.lt_succ_of_le hle)
    simp [OpenCVMatPriorityQueue.pop, hq]

end Stabilizer

namespace Stabilizer

/-! ## Statements: the accessor -/

/-- C6: on an image with a pixel, after `get_source()` on a fresh accessor, whatever pixels
`get_next_neighbor` is then asked about, every node it returns is a pixel of the image, the
source (0,0) is not among them, and no node is returned by two calls. -/
theorem neighbors_returned_once (data : Mat) (hrows : 0 < data.rows) (hcols : 0 < data.cols)
    (nodes : List Point2i) (_hnodes : ∀ n ∈ nodes, data.inBounds n) :
    ∃ g, (OpenCVMatAccessor.new data).get_source = .ok (⟨0, 0⟩, g) ∧
      (∀ v ∈ g.returnedTo nodes, data.inBounds v) ∧
      (⟨0, 0⟩ : Point2i) ∉ g.returnedTo nodes ∧
      (g.returnedTo nodes).Nodup := by
  have hsrc : data.inBounds ⟨0, 0⟩ := by
    simp only [Mat.inBounds]
    omega
  refine ⟨{ OpenCVMatAccessor.new data with
      mask_ := Function.update (OpenCVMatAccessor.new data).mask_ ⟨0, 0⟩ 1 }, ?_, ?_, ?_, ?_⟩
  · simp only [OpenCVMatAccessor.get_source, OpenCVMatAccessor.new, if_pos hsrc]
  · intro v hv
    exact ((OpenCVMatAccessor.returnedTo_spec nodes _).2 v hv).2
  · intro hmem
    have := ((OpenCVMatAccessor.returnedTo_spec nodes _).2 _ hmem).1
    simp at this
  · exact (OpenCVMatAccessor.returnedTo_spec nodes _).1

/-- A run of C6: a 2×2 image, the source asked three times and its right neighbour once. -/
theorem neighbors_returned_once_witness :
    (0 < 2 ∧ 0 < 2 ∧
      ∀ n ∈ [(⟨0, 0⟩ : Point2i), ⟨0, 0⟩, ⟨1, 0⟩, ⟨0, 0⟩],
        Mat.inBounds { rows := 2, cols := 2, px := fun _ _ => 7 } n) ∧
    ∃ g, (OpenCVMatAccessor.new { rows := 2, cols := 2, px := fun _ _ => 7 }).get_source
        = .ok (⟨0, 0⟩, g) ∧
      (∀ v ∈ g.returnedTo [⟨0, 0⟩, ⟨0, 0⟩, ⟨1, 0⟩, ⟨0, 0⟩],
        Mat.inBounds { rows := 2, cols := 2, px := fun _ _ => 7 } v) ∧
      (⟨0, 0⟩ : Point2i) ∉ g.returnedTo [⟨0, 0⟩, ⟨0, 0⟩, ⟨1, 0⟩, ⟨0, 0⟩] ∧
      (g.returnedTo [⟨0, 0⟩, ⟨0, 0⟩, ⟨1, 0⟩, ⟨0, 0⟩]).Nodup :=
  ⟨⟨by decide, by decide, by decide⟩,
    neighbors_returned_once { rows := 2, cols := 2, px := fun _ _ => 7 } (by decide) (by decide)
      [⟨0, 0⟩, ⟨0, 0⟩, ⟨1, 0⟩, ⟨0, 0⟩] (by decide)⟩

end Stabilizer

namespace Stabilizer

/-! ## Statements: raise_level -/

/-- C7, as amended: in non-inverted mode, on a stack whose bottom is the sentinel at level
inf, `raise_level(L)` returns with the sentinel still at the bottom and a top level ≥ L, and
either the top level equals L, or the top level was above L already and the call left the
stack as it found it. -/
theorem raise_level_contract (p : ComponentTreeParser) (hp : p.inverted_ = false)
    (a : OpenCVMatMserAnalyzer) (components : List Component) (level : Nat)
    (hlevel : level ≤ 255) (hbot : Grounded p.inf components) :
    ∃ a1 top rest, ComponentTreeParser.raise_level p a components level = .ok (a1, top :: rest) ∧
      Grounded p.inf (top :: rest) ∧ level ≤ top.level ∧
      (top.level = level ∨ (level < top.level ∧ top :: rest = components ∧ a1 = a)) := by
  rw [ComponentTreeParser.inf_eq p hp] at hbot ⊢
  exact ComponentTreeParser.raise_level_spec p hp a components level hlevel hbot

/-- A run of C7 as amended: the stack 5 over the sentinel, raised to 9. -/
theorem raise_level_contract_witness :
    ((({ inverted_ := false } : ComponentTreeParser).inverted_ = false ∧ 9 ≤ 255) ∧
      Grounded ({ inverted_ := false } : ComponentTreeParser).inf
        [{ level := 5 }, { level := 255 }]) ∧
    ∃ a1 top rest,
      ComponentTreeParser.raise_level { inverted_ := false } {}
        [{ level := 5 }, { level := 255 }] 9 = .ok (a1, top :: rest) ∧
      Grounded ({ inverted_ := false } : ComponentTreeParser).inf (top :: rest) ∧
      9 ≤ top.level ∧
      (top.level = 9 ∨
        (9 < top.level ∧ top :: rest = [{ level := 5 }, { level := 255 }] ∧ a1 = {})) :=
  ⟨⟨⟨rfl, by decide⟩, by decide⟩,
    raise_level_contract { inverted_ := false } rfl {} [{ level := 5 }, { level := 255 }] 9
      (by decide) (by decide)⟩

/-- C7 fails as stated: on the stack 5 over the sentinel, `raise_level(3)` returns the stack
unchanged; its top level 5 is not 3 and the stack is not the sentinel alone. -/
theorem raise_level_contract_counterexample :
    Grounded ({ inverted_ := false } : ComponentTreeParser).inf
        [{ level := 5 }, { level := 255 }] ∧
    ∃ a1 top rest,
      ComponentTreeParser.raise_level { inverted_ := false } {}
        [{ level := 5 }, { level := 255 }] 3 = .ok (a1, top :: rest) ∧
      ¬ (top.level = 3 ∨ rest = []) := by
  refine ⟨by decide, {}, { level := 5 }, [{ level := 255 }], ?_, ?_⟩
  · rfl
  · decide

end Stabilizer

namespace Stabilizer

/-! ## Statements: pops, node events, termination -/

/-- C1: in non-inverted mode, the parse of an image with at least one row and one column
makes exactly rows × cols successful pops, and every pixel is reached from the source. -/
theorem pops_equal_pixels (p : ComponentTreeParser) (hp : p.inverted_ = false) (data : Mat)
    (hrows : 0 < data.rows) (hcols : 0 < data.cols) :
    ∃ st, ComponentTreeParser.run p data = .ok st ∧
      (popped st.trace).length = data.rows * data.cols ∧
      ∀ n, data.inBounds n → st.graph.mask_ n ≠ 0 := by
  obtain ⟨st, f, hrun, hb, hf⟩ := ComponentTreeParser.run_base p hp data hrows hcols
  exact ⟨st, hrun, (hb.complete hf).2.2, hb.all_reached hf⟩

/-- A run of C1: the 2×3 image with rows 7 3 7 and 5 5 5. -/
theorem pops_equal_pixels_witness :
    (({ inverted_ := false } : ComponentTreeParser).inverted_ = false ∧
      0 < (Mat.mk 2 3 (fun r c => if r = 0 then (if c = 1 then 3 else 7) else 5)).rows ∧
      0 < (Mat.mk 2 3 (fun r c => if r = 0 then (if c = 1 then 3 else 7) else 5)).cols) ∧
    ∃ st, ComponentTreeParser.run { inverted_ := false }
        (Mat.mk 2 3 (fun r c => if r = 0 then (if c = 1 then 3 else 7) else 5)) = .ok st ∧
      (popped st.trace).length
        = (Mat.mk 2 3 (fun r c => if r = 0 then (if c = 1 then 3 else 7) else 5)).rows
          * (Mat.mk 2 3 (fun r c => if r = 0 then (if c = 1 then 3 else 7) else 5)).cols ∧
      ∀ n, (Mat.mk 2 3 (fun r c => if r = 0 then (if c = 1 then 3 else 7) else 5)).inBounds n →
        st.graph.mask_ n ≠ 0 :=
  ⟨⟨rfl, by decide, by decide⟩,
    pops_equal_pixels { inverted_ := false }
      rfl (Mat.mk 2 3 (fun r c => if r = 0 then (if c = 1 then 3 else 7) else 5))
      (by decide) (by decide)⟩

/-- C2: in non-inverted mode, over the parse of an image with a pixel, the nodes of the
`push_component` calls and of the `push_node` calls, taken together, are the pixels of the
image, each exactly once. -/
theorem node_events_partition (p : ComponentTreeParser) (hp : p.inverted_ = false) (data : Mat)
    (hrows : 0 < data.rows) (hcols : 0 < data.cols) :
    ∃ st, ComponentTreeParser.run p data = .ok st ∧
      (newComponentNodes st.trace ++ addedNodes st.trace).Nodup ∧
      ∀ n, data.inBounds n ↔ (n ∈ newComponentNodes st.trace ∨ n ∈ addedNodes st.trace) := by
  obtain ⟨st, f, hrun, hb, hf⟩ := ComponentTreeParser.run_base p hp data hrows hcols
  obtain ⟨hmem, hnd, _⟩ := hb.complete hf
  have hperm := visited_perm st.trace
  refine ⟨st, hrun, (hperm.nodup_iff).1 hnd, ?_⟩
  intro n
  rw [← hmem n, hperm.mem_iff, List.mem_append]

/-- A run of C2: the 2×2 image with rows 4 1 and 9 9. -/
theorem node_events_partition_witness :
    (({ inverted_ := false } : ComponentTreeParser).inverted_ = false ∧
      0 < (Mat.mk 2 2 (fun r c => if r = 0 then (if c = 0 then 4 else 1) else 9)).rows ∧
      0 < (Mat.mk 2 2 (fun r c => if r = 0 then (if c = 0 then 4 else 1) else 9)).cols) ∧
    ∃ st, ComponentTreeParser.run { inverted_ := false }
        (Mat.mk 2 2 (fun r c => if r = 0 then (if c = 0 then 4 else 1) else 9)) = .ok st ∧
      (newComponentNodes st.trace ++ addedNodes st.trace).Nodup ∧
      ∀ n, (Mat.mk 2 2 (fun r c => if r = 0 then (if c = 0 then 4 else 1) else 9)).inBounds n ↔
        (n ∈ newComponentNodes st.trace ∨ n ∈ addedNodes st.trace) :=
  ⟨⟨rfl, by decide, by decide⟩,
    node_events_partition { inverted_ := false }
      rfl (Mat.mk 2 2 (fun r c => if r = 0 then (if c = 0 then 4 else 1) else 9))
      (by decide) (by decide)⟩

/-- C3: in non-inverted mode, the parse of an image with a pixel terminates: with one turn
of fuel per pixel and one more, and with any larger amount, the pop loop, every neighbour loop
and every `raise_level` loop end within their fuel and without an out-of-range access, and
the final state does not depend on the fuel. -/
theorem parse_terminates (p : ComponentTreeParser) (hp : p.inverted_ = false) (data : Mat)
    (hrows : 0 < data.rows) (hcols : 0 < data.cols) :
    ∃ st, ComponentTreeParser.run p data = .ok st ∧
      ∀ fuel, ComponentTreeParser.fuelFor data ≤ fuel →
        ComponentTreeParser.parse_ p fuel (OpenCVMatAccessor.new data) {}
          OpenCVMatPriorityQueue.empty = .ok st := by
  obtain ⟨st, f, hrun, _, _⟩ := ComponentTreeParser.run_base p hp data hrows hcols
  refine ⟨st, hrun, ?_⟩
  intro fuel hfuel
  exact ComponentTreeParser.parse_mono p _ fuel hfuel _ _ _ st hrun

/-- A run of C3: the 1×4 image 5 2 9 4. -/
theorem parse_terminates_witness :
    (({ inverted_ := false } : ComponentTreeParser).inverted_ = false ∧
      0 < (Mat.mk 1 4 (fun _ c => if c = 0 then 5 else if c = 1 then 2 else
        if c = 2 then 9 else 4)).rows ∧
      0 < (Mat.mk 1 4 (fun _ c => if c = 0 then 5 else if c = 1 then 2 else
        if c = 2 then 9 else 4)).cols) ∧
    ∃ st, ComponentTreeParser.run { inverted_ := false }
        (Mat.mk 1 4 (fun _ c => if c = 0 then 5 else if c = 1 then 2 else
          if c = 2 then 9 else 4)) = .ok st ∧
      ∀ fuel, ComponentTreeParser.fuelFor (Mat.mk 1 4 (fun _ c => if c = 0 then 5 else
          if c = 1 then 2 else if c = 2 then 9 else 4)) ≤ fuel →
        ComponentTreeParser.parse_ { inverted_ := false } fuel
          (OpenCVMatAccessor.new (Mat.mk 1 4 (fun _ c => if c = 0 then 5 else
            if c = 1 then 2 else if c = 2 then 9 else 4))) {}
          OpenCVMatPriorityQueue.empty = .ok st :=
  ⟨⟨rfl, by decide, by decide⟩,
    parse_terminates { inverted_ := false }
      rfl (Mat.mk 1 4 (fun _ c => if c = 0 then 5 else if c = 1 then 2 else
        if c = 2 then 9 else 4))
      (by decide) (by decide)⟩

end Stabilizer

namespace Stabilizer

/-! ## Statements: scenario S2 -/

/-- C10, as amended: on the image of scenario S2 (with either reading of its centre) the
parser with default parameters, non-inverted, returns a result with no region. -/
theorem scenario_S2_result (twiceCentre : Int) :
    ComponentTreeParser.call { inverted_ := false } (scenarioS2 twiceCentre) = Except.ok [] :=
  ComponentTreeParser.call_two_level { inverted_ := false } rfl (scenarioS2 twiceCentre)
    (ComponentTreeParser.scenarioS2_rows twiceCentre)
    (ComponentTreeParser.scenarioS2_cols twiceCentre)
    (ComponentTreeParser.scenarioS2_two_level twiceCentre)

/-- C10 fails as stated: on the image of scenario S2 with its centre at the pixel (60,60),
the result the parser returns does not hold exactly one region. -/
theorem scenario_S2_counterexample :
    ¬ ∃ res, ComponentTreeParser.call { inverted_ := false } (scenarioS2 120) = Except.ok res ∧
      res.length = 1 ∧
      ∀ r ∈ res, OpenCVMatMserAnalyzer.min_N_ ≤ r.N ∧ r.N ≤ OpenCVMatMserAnalyzer.max_N_ := by
  rintro ⟨res, hcall, hlen, _⟩
  have hnil := ComponentTreeParser.call_two_level { inverted_ := false } rfl (scenarioS2 120)
    (ComponentTreeParser.scenarioS2_rows 120) (ComponentTreeParser.scenarioS2_cols 120)
    (ComponentTreeParser.scenarioS2_two_level 120)
  have hres : res = [] := Except.ok.inj (hcall.symm.trans hnil)
  rw [hres] at hlen
  cases hlen

end Stabilizer

namespace Stabilizer

/-! ## Statements: the order of the stack -/

/-- C8: in non-inverted mode, on an image with a pixel and all pixel values below 255, every
stack the run lists (after the construction of the stack and after each `raise_level`,
`push_component` and `push_node`) has levels strictly increasing from the top to the bottom,
where the sentinel sits at level inf. -/
theorem stack_levels_strictly_rising (p : ComponentTreeParser) (hp : p.inverted_ = false)
    (data : Mat) (hrows : 0 < data.rows) (hcols : 0 < data.cols)
    (hlt : ∀ n, data.inBounds n → data.atUchar n < 255) :
    ∃ st, ComponentTreeParser.run p data = .ok st ∧
      ∀ s ∈ stackLog st.trace, StrictlyRising p.inf (levelsOf s) := by
  rw [ComponentTreeParser.inf_eq p hp]
  exact ComponentTreeParser.run_strictly_rising p hp data hrows hcols hlt

/-- A run of C8: the 2×2 image with rows 4 1 and 9 9. -/
theorem stack_levels_strictly_rising_witness :
    (({ inverted_ := false } : ComponentTreeParser).inverted_ = false ∧
      0 < (Mat.mk 2 2 (fun r c => if r = 0 then (if c = 0 then 4 else 1) else 9)).rows ∧
      0 < (Mat.mk 2 2 (fun r c => if r = 0 then (if c = 0 then 4 else 1) else 9)).cols ∧
      ∀ n, (Mat.mk 2 2 (fun r c => if r = 0 then (if c = 0 then 4 else 1) else 9)).inBounds n →
        (Mat.mk 2 2 (fun r c => if r = 0 then (if c = 0 then 4 else 1) else 9)).atUchar n
          < 255) ∧
    ∃ st, ComponentTreeParser.run { inverted_ := false }
        (Mat.mk 2 2 (fun r c => if r = 0 then (if c = 0 then 4 else 1) else 9)) = .ok st ∧
      ∀ s ∈ stackLog st.trace,
        StrictlyRising ({ inverted_ := false } : ComponentTreeParser).inf (levelsOf s) := by
  have hlt : ∀ n, (Mat.mk 2 2 (fun r c => if r = 0 then (if c = 0 then 4 else 1) else 9)).inBounds n →
      (Mat.mk 2 2 (fun r c => if r = 0 then (if c = 0 then 4 else 1) else 9)).atUchar n
        < 255 := by
    intro n _
    simp only [Mat.atUchar]
    split
    · split <;> decide
    · decide
  exact ⟨⟨rfl, by decide, by decide, hlt⟩,
    stack_levels_strictly_rising { inverted_ := false } rfl
      (Mat.mk 2 2 (fun r c => if r = 0 then (if c = 0 then 4 else 1) else 9))
      (by decide) (by decide) hlt⟩

end Stabilizer

namespace Stabilizer

/-! ## Images of one value -/

namespace OpenCVMatMserAnalyzer

theorem record_history_of_le (a : OpenCVMatMserAnalyzer) (comp : Component) (from_level : Nat)
    (stats : ComponentStats) (level : Nat) (h : level ≤ from_level) :
    record_history a comp from_level stats level = (a, comp) := by
  unfold record_history
  rw [if_neg (by omega)]

theorem add_node_of_le (a : OpenCVMatMserAnalyzer) (node : Point2i) (level : Nat)
    (component : Component) (h : level ≤ component.level) :
    (a.add_node node level component).1 = a ∧
      (a.add_node node level component).2.history = component.history ∧
      (a.add_node node level component).2.level = component.level := by
  simp only [add_node, record_history_of_le a component _ _ level h, calculate_stability_history,
    calculate_stability_level]
  exact ⟨trivial, trivial, trivial⟩

end OpenCVMatMserAnalyzer

namespace Base

/-- The current node is a pixel. -/
theorem hand_inBounds {data : Mat} {st : ParseState} {f : Frontier} {c : Point2i}
    (h : Base data [c] st f) : data.inBounds c :=
  h.inb c ((h.reached c).2 (by simp))

/-- The value the accessor reads is the value of the image. -/
theorem value_eq {data : Mat} {hand : List Point2i} {st : ParseState} {f : Frontier}
    (h : Base data hand st f) (n : Point2i) : st.graph.value n = data.atUchar n := by
  simp only [OpenCVMatAccessor.value, h.data_eq]

end Base

theorem get_next_neighbor_data {g g1 : OpenCVMatAccessor} {c : Point2i} {o : Option Point2i}
    (hn : g.get_next_neighbor c = (o, g1)) : g1.data_ = g.data_ := by
  have := (OpenCVMatAccessor.get_next_neighbor_step g c).data_eq
  rw [hn] at this
  exact this

namespace ComponentTreeParser

/-- A popped node is a pixel. -/
theorem popped_inBounds {data : Mat} {g : OpenCVMatAccessor} {a : OpenCVMatMserAnalyzer}
    {q q1 : OpenCVMatPriorityQueue} {cs : List Component} {fd : Bool} {tr : List Event}
    {f : Frontier} {n : Point2i} (h : Base data [] ⟨g, a, q, cs, fd, tr⟩ f)
    (hp : q.pop = (some n, q1)) : data.inBounds n :=
  (h.pop hp).1.hand_inBounds

/-- The parse of an image of one value emits nothing and records no snapshot: `raise_level`
finds the top at the value or above, and `push_node` adds at the level of the top. -/
theorem run_uniform (p : ComponentTreeParser) (hp : p.inverted_ = false) (data : Mat)
    (hrows : 0 < data.rows) (hcols : 0 < data.cols) (v : Nat)
    (hv : ∀ n, data.inBounds n → data.atUchar n = v) :
    ∃ st, run p data = .ok st ∧ st.analyzer.get_result = [] ∧
      ∀ s ∈ stackLog st.trace, ∀ c ∈ s, c.history = [] := by
  have hsrc : data.inBounds { x := 0, y := 0 } := by
    simp only [Mat.inBounds]; omega
  have hv255 : v ≤ 255 := by rw [← hv _ hsrc]; exact atUchar_le _ _
  obtain ⟨st, f, h1, _, _, h4⟩ := parse_total p hp data hrows hcols (fuelFor data) le_rfl
    (fun st _ => st.analyzer.result_ = [] ∧ (∀ c ∈ st.components_, c.history = []) ∧
      (∀ c ∈ st.components_.head?, v ≤ c.level) ∧
      ∀ s ∈ stackLog st.trace, ∀ c ∈ s, c.history = [])
    (fun st _ _ => st.analyzer.result_ = [] ∧ (∀ c ∈ st.components_, c.history = []) ∧
      (∀ c ∈ st.components_.head?, v ≤ c.level) ∧
      ∀ s ∈ stackLog st.trace, ∀ c ∈ s, c.history = [])
    (by
      refine ⟨rfl, ?_, ?_, ?_⟩
      · intro c hc
        simp only [List.mem_singleton] at hc
        rw [hc]
      · intro c hc
        simp only [List.head?_cons, Option.mem_def, Option.some.injEq] at hc
        rw [← hc]; exact hv255
      · intro s hs c hc
        simp only [stackLog, List.mem_singleton] at hs
        rw [hs] at hc
        simp only [List.mem_singleton] at hc
        rw [hc])
    (by
      intro g a q cs fd tr f n q1 r hB hI hq hr
      have hval : g.value n = v := by rw [hB.value_eq n]; exact hv n (popped_inBounds hB hq)
      rw [raise_level_eq p hp, hval] at hr
      cases cs with
      | nil => simp at hr
      | cons top below =>
        have htop : v ≤ top.level := hI.2.2.1 top (by simp)
        simp only [if_neg (Nat.not_lt.2 htop), Except.ok.injEq] at hr
        rw [← hr]
        refine ⟨hI.1, hI.2.1, hI.2.2.1, ?_⟩
        intro s hs
        simp only [stackLog, List.mem_cons] at hs
        rcases hs with rfl | hs
        · exact hI.2.1
        · exact hI.2.2.2 s hs)
    (by
      intro g a q cs fd tr f c v1 g1 _ hJ _ _
      exact ⟨hJ.1, hJ.2.1, hJ.2.2.1, fun s hs => hJ.2.2.2 s (by simpa [stackLog] using hs)⟩)
    (by
      intro g a q cs fd tr f c v1 g1 _ hJ _ _
      exact ⟨hJ.1, hJ.2.1, hJ.2.2.1, fun s hs => hJ.2.2.2 s (by simpa [stackLog] using hs)⟩)
    (by
      intro g a q cs tr f c g1 hB hJ hn
      have hval : g1.value c = v := by
        simp only [OpenCVMatAccessor.value, get_next_neighbor_data hn]
        have := hB.value_eq c
        simp only [OpenCVMatAccessor.value] at this
        rw [this]; exact hv c hB.hand_inBounds
      have hall : ∀ d ∈ (push_component a cs c (g1.value c)).2, d.history = [] := by
        intro d hd
        rw [push_component_snd] at hd
        rcases List.mem_cons.1 hd with rfl | hd
        · rfl
        · exact hJ.2.1 d hd
      refine ⟨hJ.1, hall, ?_, ?_⟩
      · intro d hd
        rw [push_component_snd] at hd
        simp only [List.head?_cons, Option.mem_def, Option.some.injEq] at hd
        rw [← hd, hval]
      · intro s hs
        simp only [stackLog, List.mem_cons] at hs
        rcases hs with rfl | hs
        · exact hall
        · exact hJ.2.2.2 s hs)
    (by
      intro g a q cs tr f c g1 r2 hB hJ hn hpn
      have hval : g1.value c = v := by
        simp only [OpenCVMatAccessor.value, get_next_neighbor_data hn]
        have := hB.value_eq c
        simp only [OpenCVMatAccessor.value] at this
        rw [this]; exact hv c hB.hand_inBounds
      cases cs with
      | nil => simp [push_node] at hpn
      | cons top rest =>
        have htop : v ≤ top.level := hJ.2.2.1 top (by simp)
        rw [push_node_cons, hval] at hpn
        simp only [Except.ok.injEq] at hpn
        obtain ⟨e1, e2, e3⟩ := OpenCVMatMserAnalyzer.add_node_of_le a c v top htop
        have hall : ∀ d ∈ r2.2, d.history = [] := by
          intro d hd
          rw [← hpn] at hd
          rcases List.mem_cons.1 hd with rfl | hd
          · rw [e2]; exact hJ.2.1 top (List.mem_cons_self _ _)
          · exact hJ.2.1 d (List.mem_cons_of_mem _ hd)
        refine ⟨?_, hall, ?_, ?_⟩
        · rw [← hpn]; simp only; rw [e1]; exact hJ.1
        · intro d hd
          rw [← hpn] at hd
          simp only [List.head?_cons, Option.mem_def, Option.some.injEq] at hd
          rw [← hd, e3]; exact htop
        · intro s hs
          simp only [stackLog, List.mem_cons] at hs
          rcases hs with rfl | hs
          · exact hall
          · exact hJ.2.2.2 s hs)
  exact ⟨st, h1, h4.1, h4.2.2.2⟩

/-! ## The end of a run -/

/-- A run ends on a node event: the last call `parse_` makes is the `push_component` or
`push_node` of its last turn, and the stack is the one that call left.  On an image without
the value 255 no turn merges into the sentinel, and the stack keeps a component above it. -/
theorem run_ends_on_node_event (p : ComponentTreeParser) (hp : p.inverted_ = false)
    (data : Mat) (hrows : 0 < data.rows) (hcols : 0 < data.cols) :
    ∃ st, run p data = .ok st ∧
      (∃ n l tr, st.trace = Event.push_component n l st.components_ :: tr ∨
        st.trace = Event.push_node n l st.components_ :: tr) ∧
      ((∀ n, data.inBounds n → data.atUchar n < 255) → 2 ≤ st.components_.length) := by
  have hsrc : data.inBounds { x := 0, y := 0 } := by
    simp only [Mat.inBounds]; omega
  obtain ⟨st, f, h1, hB, hf, h4⟩ := parse_total p hp data hrows hcols (fuelFor data) le_rfl
    (fun st _ => (st.flowingdown_phase = true → visited st.trace = []) ∧
      (st.flowingdown_phase = false →
        (∃ n l tr, st.trace = Event.push_component n l st.components_ :: tr ∨
          st.trace = Event.push_node n l st.components_ :: tr) ∧
        ((∀ n, data.inBounds n → data.atUchar n < 255) → 2 ≤ st.components_.length)))
    (fun st _ _ => (∀ n, data.inBounds n → data.atUchar n < 255) →
      st.flowingdown_phase = false → 2 ≤ st.components_.length)
    (by
      refine ⟨fun _ => rfl, ?_⟩
      intro h; cases h)
    (by
      intro g a q cs fd tr f n q1 r hB hI hq hr hK hfd
      simp only at hfd ⊢
      have hlen := (hI.2 hfd).2 hK
      simp only at hlen
      have hval : g.value n < 255 := by
        rw [hB.value_eq n]; exact hK n (popped_inBounds hB hq)
      rw [raise_level_eq p hp] at hr
      cases cs with
      | nil => simp at hr
      | cons top below =>
        cases below with
        | nil => simp at hlen
        | cons next rest =>
          simp only at hr
          split at hr
          · split at hr
            · simp only [Except.ok.injEq] at hr
              rw [← hr]; simp
            · rename_i hlt2
              simp only [Except.ok.injEq] at hr
              rw [← hr]
              cases rest with
              | nil =>
                have hg := hB.grounded
                simp only at hg
                have := grounded_singleton.1 (grounded_cons_cons.1 hg)
                omega
              | cons d rest => simp
          · simp only [Except.ok.injEq] at hr
            rw [← hr]; simp)
    (by intro g a q cs fd tr f c v g1 _ _ _ _ _ hfd; cases hfd)
    (by intro g a q cs fd tr f c v g1 _ hJ _ _ hK hfd; exact hJ hK hfd)
    (by
      intro g a q cs tr f c g1 hB _ _
      refine ⟨fun h => (by cases h), fun _ => ⟨⟨c, g1.value c, tr, Or.inl rfl⟩, fun _ => ?_⟩⟩
      rw [push_component_snd]
      cases cs with
      | nil => exact absurd hB.grounded not_grounded_nil
      | cons d rest => simp)
    (by
      intro g a q cs tr f c g1 r2 _ hJ _ hpn
      refine ⟨fun h => (by cases h), fun _ => ⟨⟨c, g1.value c, tr, Or.inr rfl⟩, fun hK => ?_⟩⟩
      have hlen := hJ hK rfl
      cases cs with
      | nil => simp at hlen
      | cons top rest =>
        rw [push_node_cons] at hpn
        simp only [Except.ok.injEq] at hpn
        rw [← hpn]
        simpa using hlen)
  have hvis : visited st.trace ≠ [] := by
    intro h
    have := ((hB.complete hf).1 { x := 0, y := 0 }).2 hsrc
    rw [h] at this
    cases this
  have hfd : st.flowingdown_phase = false := by
    cases hb : st.flowingdown_phase with
    | false => rfl
    | true => exact absurd (h4.1 hb) hvis
  exact ⟨st, h1, (h4.2 hfd).1, (h4.2 hfd).2⟩

end ComponentTreeParser

end Stabilizer

namespace Stabilizer

/-! ## Statements: uniform images and the end of a run -/

/-- C11: in non-inverted mode, on an image with a pixel whose pixels all have one value, the
parser returns the empty result, and no component of any stack of the run has a snapshot in
its history. -/
theorem uniform_image_empty_result (p : ComponentTreeParser) (hp : p.inverted_ = false)
    (data : Mat) (hrows : 0 < data.rows) (hcols : 0 < data.cols)
    (huni : ∀ n m, data.inBounds n → data.inBounds m → data.atUchar n = data.atUchar m) :
    ComponentTreeParser.call p data = Except.ok [] ∧
    ∃ st, ComponentTreeParser.run p data = .ok st ∧
      ∀ s ∈ stackLog st.trace, ∀ c ∈ s, c.history = [] := by
  have hsrc : data.inBounds { x := 0, y := 0 } := by
    simp only [Mat.inBounds]; omega
  obtain ⟨st, hrun, hres, hhist⟩ := ComponentTreeParser.run_uniform p hp data hrows hcols
    (data.atUchar { x := 0, y := 0 }) (fun n hn => huni n _ hn hsrc)
  refine ⟨?_, st, hrun, hhist⟩
  simp only [ComponentTreeParser.call, hrun]
  exact congrArg Except.ok hres

/-- A run of C11: scenario S1, the 10×10 image with all pixels 128. -/
theorem uniform_image_empty_result_witness :
    (({ inverted_ := false } : ComponentTreeParser).inverted_ = false ∧
      0 < scenarioS1.rows ∧ 0 < scenarioS1.cols ∧
      ∀ n m, scenarioS1.inBounds n → scenarioS1.inBounds m →
        scenarioS1.atUchar n = scenarioS1.atUchar m) ∧
    (ComponentTreeParser.call { inverted_ := false } scenarioS1 = Except.ok [] ∧
    ∃ st, ComponentTreeParser.run { inverted_ := false } scenarioS1 = .ok st ∧
      ∀ s ∈ stackLog st.trace, ∀ c ∈ s, c.history = []) :=
  ⟨⟨rfl, show 0 < 10 by decide, show 0 < 10 by decide, fun _ _ _ _ => rfl⟩,
    uniform_image_empty_result { inverted_ := false } rfl scenarioS1
      (show 0 < 10 by decide) (show 0 < 10 by decide) (fun _ _ _ _ => rfl)⟩

/-- C12, as amended: in non-inverted mode, on an image with a pixel, the parser does not
raise the stack when the frontier is empty: the last call of the run is the `push_component`
or `push_node` of the last turn and the stack at the moment `get_result()` is taken is the
one that call left; when every pixel value is below inf, it holds a component above the
sentinel. -/
theorem run_ends_without_flush (p : ComponentTreeParser) (hp : p.inverted_ = false)
    (data : Mat) (hrows : 0 < data.rows) (hcols : 0 < data.cols) :
    ∃ st, ComponentTreeParser.run p data = .ok st ∧
      (∃ n l tr, st.trace = Event.push_component n l st.components_ :: tr ∨
        st.trace = Event.push_node n l st.components_ :: tr) ∧
      ((∀ n, data.inBounds n → data.atUchar n < p.inf) → 2 ≤ st.components_.length) := by
  rw [ComponentTreeParser.inf_eq p hp]
  exact ComponentTreeParser.run_ends_on_node_event p hp data hrows hcols

/-- A run of C12 as amended: the image of one pixel of value 0. -/
theorem run_ends_without_flush_witness :
    (({ inverted_ := false } : ComponentTreeParser).inverted_ = false ∧
      0 < onePixel.rows ∧ 0 < onePixel.cols) ∧
    ∃ st, ComponentTreeParser.run { inverted_ := false } onePixel = .ok st ∧
      (∃ n l tr, st.trace = Event.push_component n l st.components_ :: tr ∨
        st.trace = Event.push_node n l st.components_ :: tr) ∧
      ((∀ n, onePixel.inBounds n →
          onePixel.atUchar n < ({ inverted_ := false } : ComponentTreeParser).inf) →
        2 ≤ st.components_.length) :=
  ⟨⟨rfl, show 0 < 1 by decide, show 0 < 1 by decide⟩,
    run_ends_without_flush { inverted_ := false } rfl onePixel
      (show 0 < 1 by decide) (show 0 < 1 by decide)⟩

/-- C12 fails as stated: on the image of one pixel of value 0 the run ends with a stack that
is not the sentinel alone; the component of the pixel is still on it, unmerged. -/
theorem run_ends_without_flush_counterexample :
    ∃ st, ComponentTreeParser.run { inverted_ := false } onePixel = .ok st ∧
      st.components_.length ≠ 1 := by
  obtain ⟨st, hrun, _, hlen⟩ := ComponentTreeParser.run_ends_on_node_event
    { inverted_ := false } rfl onePixel (show 0 < 1 by decide) (show 0 < 1 by decide)
  have h2 := hlen (fun n _ => by
    show 0 % 256 < 255
    decide)
  exact ⟨st, hrun, by omega⟩

end Stabilizer

namespace Stabilizer

/-! ## The stability a snapshot carries -/

theorem stamped_cons {x : ComponentStats} {rest : List ComponentStats} :
    Stamped (x :: rest) ↔
      (x.stability = stabilityOn x.N rest ∨ ∃ y t, rest = y :: t ∧ x = y) ∧ Stamped rest :=
  Iff.rfl

theorem stamped_tail {x : ComponentStats} {rest : List ComponentStats}
    (h : Stamped (x :: rest)) : Stamped rest := h.2

namespace OpenCVMatMserAnalyzer

theorem calculate_stability_stats (comp : Component) :
    (calculate_stability comp).stats.N = comp.stats.N ∧
      (calculate_stability comp).stats.stability = stabilityOn comp.stats.N comp.history := by
  unfold calculate_stability stabilityOn
  split <;> exact ⟨rfl, rfl⟩

theorem record_history_history (a : OpenCVMatMserAnalyzer) (comp : Component)
    (from_level : Nat) (stats : ComponentStats) (level : Nat) :
    (record_history a comp from_level stats level).2.history
      = List.replicate (level - from_level) stats ++ comp.history := by
  unfold record_history
  split
  · rfl
  · rename_i h
    have : level - from_level = 0 := by omega
    rw [this]; rfl

theorem record_history_stats (a : OpenCVMatMserAnalyzer) (comp : Component)
    (from_level : Nat) (stats : ComponentStats) (level : Nat) :
    (record_history a comp from_level stats level).2.stats = comp.stats := by
  unfold record_history
  split <;> rfl

theorem add_node_fst (a : OpenCVMatMserAnalyzer) (node : Point2i) (level : Nat)
    (component : Component) :
    (a.add_node node level component).1
      = (record_history a component component.level component.stats level).1 := rfl

theorem add_node_history (a : OpenCVMatMserAnalyzer) (node : Point2i) (level : Nat)
    (component : Component) :
    (a.add_node node level component).2.history
      = List.replicate (level - component.level) component.stats ++ component.history := by
  simp only [add_node, calculate_stability_history, record_history_history]

theorem merge_component_into_fst (a : OpenCVMatMserAnalyzer) (comp1 comp2 : Component)
    (level : Nat) :
    (a.merge_component_into comp1 comp2 level).1
      = if comp1.stats.N > comp2.stats.N then
          (record_history a { comp2 with history := comp1.history } comp1.level comp1.stats
            level).1
        else (record_history a comp2 comp2.level comp2.stats level).1 := by
  simp only [merge_component_into]
  split <;> rfl

/-- The history `merge_component_into` leaves: that of the larger component (of `comp2` when
they are equal), under the copies of the statistics of that component that lead up to
`level`. -/
theorem merge_component_into_history (a : OpenCVMatMserAnalyzer) (comp1 comp2 : Component)
    (level : Nat) :
    (a.merge_component_into comp1 comp2 level).2.history
      = if comp1.stats.N > comp2.stats.N then
          List.replicate (level - comp1.level) comp1.stats ++ comp1.history
        else List.replicate (level - comp2.level) comp2.stats ++ comp2.history := by
  simp only [merge_component_into, calculate_stability_history, record_history_history]
  split <;> rfl

theorem merge_component_into_N (a : OpenCVMatMserAnalyzer) (comp1 comp2 : Component)
    (level : Nat) :
    (a.merge_component_into comp1 comp2 level).2.stats.N
      = u32add comp1.stats.N comp2.stats.N := by
  simp only [merge_component_into, (calculate_stability_stats _).1, record_history_stats,
    merge_componentstats_into_]
  split <;> rfl

end OpenCVMatMserAnalyzer

namespace ComponentTreeParser

end ComponentTreeParser

end Stabilizer

namespace Stabilizer

/-! ## Sizes that grow along a history -/

theorem rising_tail {x : ComponentStats} {rest : List ComponentStats}
    (h : Rising (x :: rest)) : Rising rest := h.2

theorem u32add_eq {a b : Nat} (h : a + b < 2 ^ 32) : u32add a b = a + b :=
  Nat.mod_eq_of_lt h

namespace OpenCVMatMserAnalyzer

end OpenCVMatMserAnalyzer

theorem size_le_sum {cs : List Component} {c : Component} (h : c ∈ cs) :
    c.stats.N ≤ (sizesOf cs).sum :=
  List.single_le_sum (fun _ _ => Nat.zero_le _) _ (List.mem_map_of_mem _ h)

namespace ComponentTreeParser

end ComponentTreeParser

end Stabilizer

namespace Stabilizer

/-! ## Statements: the stability of an emitted record, and the history after a merge -/

/-- C14, as amended: for all components `comp1`, `comp2` and every level, after
`merge_component_into(comp1, comp2, level)` the history of `comp2` is the history of `comp1`
if `comp1.N > comp2.N` and its own otherwise, under `level - level of that owner` (0 when
negative) copies of the statistics of that owner; the size of `comp2` is the `unsigned int`
sum of the two sizes, which is their sum when that is below 2^32. -/
theorem merge_keeps_history_of_larger (a : OpenCVMatMserAnalyzer) (comp1 comp2 : Component)
    (level : Nat) :
    (a.merge_component_into comp1 comp2 level).2.history
        = (if comp1.stats.N > comp2.stats.N then
            List.replicate (level - comp1.level) comp1.stats ++ comp1.history
          else List.replicate (level - comp2.level) comp2.stats ++ comp2.history) ∧
      (a.merge_component_into comp1 comp2 level).2.stats.N
        = (comp1.stats.N + comp2.stats.N) % 2 ^ 32 ∧
      (comp1.stats.N + comp2.stats.N < 2 ^ 32 →
        (a.merge_component_into comp1 comp2 level).2.stats.N
          = comp1.stats.N + comp2.stats.N) := by
  refine ⟨OpenCVMatMserAnalyzer.merge_component_into_history a comp1 comp2 level,
    OpenCVMatMserAnalyzer.merge_component_into_N a comp1 comp2 level, ?_⟩
  intro h
  rw [OpenCVMatMserAnalyzer.merge_component_into_N, u32add_eq h]

/-- A merge of C14 as amended: a component of 3 pixels at level 2 into one of 3 pixels at
level 4, at level 7; the history is that of the second, under 3 copies of its statistics. -/
theorem merge_keeps_history_of_larger_witness :
    (({} : OpenCVMatMserAnalyzer).merge_component_into
        { level := 2, stats := { N := 3 }, history := [{ N := 1 }] }
        { level := 4, stats := { N := 3 }, history := [{ N := 2 }] } 7).2.history
      = [{ N := 3 }, { N := 3 }, { N := 3 }, { N := 2 }] ∧
    (({} : OpenCVMatMserAnalyzer).merge_component_into
        { level := 2, stats := { N := 3 }, history := [{ N := 1 }] }
        { level := 4, stats := { N := 3 }, history := [{ N := 2 }] } 7).2.stats.N = 6 := by
  obtain ⟨h1, _, h3⟩ := merge_keeps_history_of_larger {}
    { level := 2, stats := { N := 3 }, history := [{ N := 1 }] }
    { level := 4, stats := { N := 3 }, history := [{ N := 2 }] } 7
  refine ⟨?_, h3 (by decide)⟩
  rw [h1]
  decide

/-- C14 fails as stated: with sizes 4294967295 and 1 the `unsigned int` sum wraps and the
size after the merge is 0, not 4294967296. -/
theorem merge_keeps_history_of_larger_counterexample :
    (({} : OpenCVMatMserAnalyzer).merge_component_into
        { level := 0, stats := { N := 4294967295 } }
        { level := 0, stats := { N := 1 } } 0).2.stats.N = 0 ∧
    (({ level := 0, stats := { N := 4294967295 } } : Component).stats.N
      + ({ level := 0, stats := { N := 1 } } : Component).stats.N) = 4294967296 := by
  refine ⟨?_, by decide⟩
  rw [OpenCVMatMserAnalyzer.merge_component_into_N]
  decide

end Stabilizer

namespace Stabilizer

namespace ComponentTreeParser

/-! ## Pushes against pops, and the bottom of the stack -/

/-- Over a run the nodes handed to `push` are, with repetition, the nodes the pops returned,
and there are as many of them as pixels. -/
theorem run_pushes_match_pops (p : ComponentTreeParser) (hp : p.inverted_ = false)
    (data : Mat) (hrows : 0 < data.rows) (hcols : 0 < data.cols) :
    ∃ st, run p data = .ok st ∧ (pushed st.trace).Perm (popped st.trace) ∧
      (popped st.trace).length = data.rows * data.cols := by
  obtain ⟨st, f, h1, hb, hf, h4⟩ := parse_total p hp data hrows hcols (fuelFor data) le_rfl
    (fun st f => (pushed st.trace).Perm (f.entries.map Prod.fst ++ popped st.trace))
    (fun st _ f => (pushed st.trace).Perm (f.entries.map Prod.fst ++ popped st.trace))
    (by simp [pushed, popped, Frontier.push])
    (by
      intro g a q cs fd tr f n q1 r hB hI hq _
      have hnew := (OpenCVMatPriorityQueue.pop_some hB.refines hq).1
      have hperm := (Frontier.perm_removeNewestWith hnew).map Prod.fst
      simp only [List.map_cons] at hperm
      simp only [pushed, popped]
      refine hI.trans ?_
      refine (List.Perm.append_right _ hperm).trans ?_
      simp only [List.cons_append]
      exact List.perm_middle.symm)
    (by
      intro g a q cs fd tr f c v g1 _ hJ _ _
      simp only [pushed, popped, Frontier.push, List.map_cons, List.cons_append]
      exact List.Perm.cons _ hJ)
    (by
      intro g a q cs fd tr f c v g1 _ hJ _ _
      simp only [pushed, popped, Frontier.push, List.map_cons, List.cons_append]
      exact List.Perm.cons _ hJ)
    (by
      intro g a q cs tr f c g1 _ hJ _
      simpa only [pushed, popped] using hJ)
    (by
      intro g a q cs tr f c g1 r2 _ hJ _ _
      simpa only [pushed, popped] using hJ)
  refine ⟨st, h1, ?_, (hb.complete hf).2.2⟩
  rw [hf] at h4
  simpa using h4

/-- Every stack of a run rests on the sentinel, and every `raise_level` of the run finds a
stack on the sentinel that holds two components when its top is below the level asked. -/
theorem run_grounded (p : ComponentTreeParser) (hp : p.inverted_ = false)
    (data : Mat) (hrows : 0 < data.rows) (hcols : 0 < data.cols) :
    ∃ st, run p data = .ok st ∧ Grounded 255 st.components_ ∧
      (∀ s ∈ stackLog st.trace, Grounded 255 s) ∧
      ∀ L before after, Event.raise_level L before after ∈ st.trace →
        Grounded 255 before ∧ ∀ top ∈ before.head?, top.level < L → 2 ≤ before.length := by
  obtain ⟨st, f, h1, hb, _, h4⟩ := parse_total p hp data hrows hcols (fuelFor data) le_rfl
    (fun st _ => (∀ s ∈ stackLog st.trace, Grounded 255 s) ∧
      ∀ L before after, Event.raise_level L before after ∈ st.trace →
        Grounded 255 before ∧ ∀ top ∈ before.head?, top.level < L → 2 ≤ before.length)
    (fun st _ _ => (∀ s ∈ stackLog st.trace, Grounded 255 s) ∧
      ∀ L before after, Event.raise_level L before after ∈ st.trace →
        Grounded 255 before ∧ ∀ top ∈ before.head?, top.level < L → 2 ≤ before.length)
    (by
      refine ⟨?_, ?_⟩
      · intro s hs
        simp only [stackLog, List.mem_singleton] at hs
        subst hs
        exact grounded_singleton.2 rfl
      · intro L before after h
        simp at h)
    (by
      intro g a q cs fd tr f n q1 r hB hI _ hr
      obtain ⟨a1, top, rest, hr1, hgr, _, _⟩ :=
        raise_level_spec p hp a cs (g.value n) (value_le g n) hB.grounded
      rw [hr] at hr1
      simp only [Except.ok.injEq] at hr1
      refine ⟨?_, ?_⟩
      · intro s hs
        simp only [stackLog, List.mem_cons] at hs
        rcases hs with rfl | hs
        · rw [hr1]; exact hgr
        · exact hI.1 s hs
      · intro L before after h
        simp only [List.mem_cons, Event.raise_level.injEq, reduceCtorEq, false_or] at h
        rcases h with ⟨hL, hbefore, _⟩ | h
        · rw [hL, hbefore]
          have hgr0 : Grounded 255 cs := hB.grounded
          refine ⟨hgr0, ?_⟩
          intro top htop hlt
          have hle := value_le g n
          cases cs with
          | nil => simp at htop
          | cons c rest0 =>
            simp only [List.head?_cons, Option.mem_def, Option.some.injEq] at htop
            subst htop
            cases rest0 with
            | nil =>
              have := grounded_singleton.1 hgr0
              omega
            | cons d rest1 => simp
        · exact hI.2 L before after h)
    (by
      intro g a q cs fd tr f c v g1 _ hJ _ _
      refine ⟨fun s hs => hJ.1 s (by simpa [stackLog] using hs), ?_⟩
      intro L before after h
      simp only [List.mem_cons, reduceCtorEq, false_or] at h
      exact hJ.2 L before after h)
    (by
      intro g a q cs fd tr f c v g1 _ hJ _ _
      refine ⟨fun s hs => hJ.1 s (by simpa [stackLog] using hs), ?_⟩
      intro L before after h
      simp only [List.mem_cons, reduceCtorEq, false_or] at h
      exact hJ.2 L before after h)
    (by
      intro g a q cs tr f c g1 hB hJ _
      refine ⟨?_, ?_⟩
      · intro s hs
        simp only [stackLog, List.mem_cons] at hs
        rcases hs with rfl | hs
        · exact grounded_cons hB.grounded
        · exact hJ.1 s hs
      · intro L before after h
        simp only [List.mem_cons, reduceCtorEq, false_or] at h
        exact hJ.2 L before after h)
    (by
      intro g a q cs tr f c g1 r2 hB hJ _ hpn
      refine ⟨?_, ?_⟩
      · intro s hs
        simp only [stackLog, List.mem_cons] at hs
        rcases hs with rfl | hs
        · exact push_node_grounded (value_le g1 c) hB.grounded hpn
        · exact hJ.1 s hs
      · intro L before after h
        simp only [List.mem_cons, reduceCtorEq, false_or] at h
        exact hJ.2 L before after h)
  exact ⟨st, h1, hb.grounded, h4.1, h4.2⟩

end ComponentTreeParser

end Stabilizer

namespace Stabilizer

/-! ## The nodes that open a component -/

theorem mem_neighbours4 {n m : Point2i} :
    m ∈ neighbours4 n ↔ ∃ d, 1 ≤ d ∧ d < 5 ∧ m = OpenCVMatAccessor.next_node n d := by
  constructor
  · intro h
    simp only [neighbours4, List.mem_cons, List.mem_singleton, List.not_mem_nil, or_false] at h
    rcases h with h | h | h | h
    · exact ⟨1, by decide, by decide, h⟩
    · exact ⟨2, by decide, by decide, h⟩
    · exact ⟨3, by decide, by decide, h⟩
    · exact ⟨4, by decide, by decide, h⟩
  · rintro ⟨d, h1, h5, rfl⟩
    have : d = 1 ∨ d = 2 ∨ d = 3 ∨ d = 4 := by omega
    rcases this with rfl | rfl | rfl | rfl <;> simp [neighbours4, OpenCVMatAccessor.next_node]

theorem neighbours4_symm {n m : Point2i} (h : m ∈ neighbours4 n) : n ∈ neighbours4 m := by
  simp only [neighbours4, List.mem_cons, List.mem_singleton, List.not_mem_nil, or_false] at h ⊢
  rcases h with h | h | h | h <;> subst h <;> simp

namespace ComponentTreeParser

/-- Every node a run opens a component for is a local minimum of the image. -/
theorem run_local_minimum (p : ComponentTreeParser) (hp : p.inverted_ = false)
    (data : Mat) (hrows : 0 < data.rows) (hcols : 0 < data.cols) :
    ∃ st, run p data = .ok st ∧
      ∀ n ∈ newComponentNodes st.trace, ∀ m ∈ neighbours4 n, data.inBounds m →
        data.atUchar n ≤ data.atUchar m := by
  obtain ⟨st, f, h1, _, _, _, h5⟩ := parse_total_ordered p hp data hrows hcols (fuelFor data)
    le_rfl
    (fun st _ => (st.flowingdown_phase = true → visited st.trace = []) ∧
      ∀ n ∈ newComponentNodes st.trace, ∀ m ∈ neighbours4 n, data.inBounds m →
        data.atUchar n ≤ data.atUchar m)
    (fun st c _ => (st.flowingdown_phase = true → ∀ x ∈ visited st.trace, c ∉ neighbours4 x) ∧
      ∀ n ∈ newComponentNodes st.trace, ∀ m ∈ neighbours4 n, data.inBounds m →
        data.atUchar n ≤ data.atUchar m)
    (by
      refine ⟨fun _ => rfl, ?_⟩
      intro n hn
      simp [newComponentNodes] at hn)
    (by
      intro g a q cs fd tr f n q1 r _ _ hI _ _ _
      refine ⟨?_, ?_⟩
      · intro hfd x hx
        have := hI.1 hfd
        simp only [visited] at hx this
        rw [this] at hx
        cases hx
      · intro x hx
        exact hI.2 x (by simpa [newComponentNodes] using hx))
    (by
      intro g a q cs fd tr f c v g1 hB _ hJ hn _
      refine ⟨?_, ?_⟩
      · intro _ x hx hmem
        simp only [visited] at hx
        have hstep := OpenCVMatAccessor.get_next_neighbor_step g c
        rw [hn] at hstep
        obtain ⟨_, hv0, hvin, _, _, _⟩ := hstep.ret v rfl
        obtain ⟨d, hd1, hd5, hvd⟩ := mem_neighbours4.1 hmem
        have hx5 : g.mask_ x = 5 := hB.done x hx
        have := hB.checked x d hd1 (by simp only at hx5 ⊢; omega) (by rw [← hvd]; exact hvin)
        rw [← hvd] at this
        exact this hv0
      · intro x hx
        exact hJ.2 x (by simpa [newComponentNodes] using hx))
    (by
      intro g a q cs fd tr f c v g1 _ _ hJ _ _
      refine ⟨?_, ?_⟩
      · intro hfd x hx
        exact hJ.1 hfd x (by simpa [visited] using hx)
      · intro x hx
        exact hJ.2 x (by simpa [newComponentNodes] using hx))
    (by
      intro g a q cs tr f c g1 hB hex hJ hn
      obtain ⟨hB1, hc5⟩ := hB.exhausted hn
      refine ⟨(by intro h; cases h), ?_⟩
      intro n hn2
      simp only [newComponentNodes, List.mem_cons] at hn2
      rcases hn2 with rfl | hn2
      · intro m hm hmin
        obtain ⟨d, hd1, hd5, hmd⟩ := mem_neighbours4.1 hm
        have hdat : g1.data_ = data := hB1.data_eq
        have hm0 : g1.mask_ m ≠ 0 := by
          rw [hmd]
          exact hB1.checked n d hd1 (by rw [hc5]; exact hd5) (by rw [hdat, ← hmd]; exact hmin)
        have hreach := (hB1.reached m).1 hm0
        simp only [List.mem_append, List.mem_singleton, List.mem_map] at hreach
        rcases hreach with hmc | ⟨e, he, hem⟩ | hvis
        · exfalso
          rw [hmc] at hmd
          have hne := OpenCVMatAccessor.next_node_ne n d
          exact hne hmd.symm
        · have hval := hB.values e he
          have hfl := hex.floor e he
          rw [hval, hem] at hfl
          exact hfl
        · exact absurd (neighbours4_symm hm) (hJ.1 rfl m hvis)
      · exact hJ.2 n hn2)
    (by
      intro g a q cs tr f c g1 r2 _ _ hJ _ _
      refine ⟨(by intro h; cases h), ?_⟩
      intro x hx
      exact hJ.2 x (by simpa [newComponentNodes] using hx))
  exact ⟨st, h1, h5.2⟩

end ComponentTreeParser

end Stabilizer

namespace Stabilizer

/-! ## Images without a pixel, the sentinel against the values, the merge of `raise_level` -/

theorem not_inBounds_source {data : Mat} (h : data.rows = 0 ∨ data.cols = 0) :
    ¬ data.inBounds { x := 0, y := 0 } := by
  simp only [Mat.inBounds]
  omega

theorem OpenCVMatAccessor.get_source_no_pixel {data : Mat} (h : data.rows = 0 ∨ data.cols = 0) :
    (OpenCVMatAccessor.new data).get_source = .error Err.outOfRange := by
  have hnb := not_inBounds_source h
  simp only [OpenCVMatAccessor.get_source, OpenCVMatAccessor.new]
  rw [if_neg hnb]

namespace ComponentTreeParser

/-- On an image without a pixel `parse_` stops at the write of `get_source`. -/
theorem parse_no_pixel (p : ComponentTreeParser) {data : Mat}
    (h : data.rows = 0 ∨ data.cols = 0) (fuel : Nat) :
    parse_ p fuel (OpenCVMatAccessor.new data) {} OpenCVMatPriorityQueue.empty
      = .error Err.outOfRange := by
  simp only [parse_, OpenCVMatAccessor.get_source_no_pixel h]

theorem call_no_pixel (p : ComponentTreeParser) {data : Mat}
    (h : data.rows = 0 ∨ data.cols = 0) : call p data = .error Err.outOfRange := by
  simp only [call, run, parse_no_pixel p h]

/-- With the top below `level` and the second level not above it, `raise_level(level)` is
one merge of the top into the second, with `level` as its level argument. -/
theorem raise_level_merge (p : ComponentTreeParser) (hp : p.inverted_ = false)
    (a : OpenCVMatMserAnalyzer) (top next : Component) (rest : List Component) (level : Nat)
    (h1 : top.level < level) (h2 : next.level ≤ level) :
    raise_level p a (top :: next :: rest) level
      = .ok ((a.merge_component_into top next level).1,
          (a.merge_component_into top next level).2 :: rest) := by
  rw [raise_level_eq p hp]
  simp only [h1, if_true, Nat.not_lt.2 h2, if_false]

end ComponentTreeParser

end Stabilizer

namespace Stabilizer

/-! ## Statements: images without a pixel, the sentinel, pushes and pops, merges, minima -/

/-- C15, as amended: on an image of zero width or zero height `operator()(data)` validates
nothing: `get_source` writes the mask at (0,0), which is no pixel, so the call leaves the
defined behaviour there, at an access out of range, in both modes and whatever the fuel; it
returns no result. -/
theorem no_pixel_out_of_range (p : ComponentTreeParser) (data : Mat)
    (h : data.rows = 0 ∨ data.cols = 0) :
    ¬ data.inBounds { x := 0, y := 0 } ∧
      (OpenCVMatAccessor.new data).get_source = .error Err.outOfRange ∧
      (∀ fuel, ComponentTreeParser.parse_ p fuel (OpenCVMatAccessor.new data) {}
        OpenCVMatPriorityQueue.empty = .error Err.outOfRange) ∧
      ComponentTreeParser.call p data = .error Err.outOfRange :=
  ⟨not_inBounds_source h, OpenCVMatAccessor.get_source_no_pixel h,
    fun fuel => ComponentTreeParser.parse_no_pixel p h fuel,
    ComponentTreeParser.call_no_pixel p h⟩

/-- A call of C15 as amended: the image of 0 rows and 3 columns. -/
theorem no_pixel_out_of_range_witness :
    (noRows.rows = 0 ∨ noRows.cols = 0) ∧
    (¬ noRows.inBounds { x := 0, y := 0 } ∧
      (OpenCVMatAccessor.new noRows).get_source = .error Err.outOfRange ∧
      (∀ fuel, ComponentTreeParser.parse_ { inverted_ := false } fuel
        (OpenCVMatAccessor.new noRows) {} OpenCVMatPriorityQueue.empty
          = .error Err.outOfRange) ∧
      ComponentTreeParser.call { inverted_ := false } noRows = .error Err.outOfRange) :=
  ⟨Or.inl rfl, no_pixel_out_of_range { inverted_ := false } noRows (Or.inl rfl)⟩

/-- C15 fails as stated: on the image of 0 rows and 0 columns the call is not turned away
as invalid input; it runs into `get_source`, whose write at (0,0) is out of range, and that
is how it ends. -/
theorem no_pixel_out_of_range_counterexample :
    (OpenCVMatAccessor.new emptyImage).get_source = .error Err.outOfRange ∧
      ComponentTreeParser.call { inverted_ := false } emptyImage = .error Err.outOfRange :=
  ⟨OpenCVMatAccessor.get_source_no_pixel (Or.inl rfl),
    ComponentTreeParser.call_no_pixel { inverted_ := false } (Or.inl rfl)⟩

/-- C16, as amended: in non-inverted mode the sentinel component is at level `inf` = 255,
no node of any image has a value above `inf`, and the value of a node is strictly below
`inf` exactly when it is not 255. -/
theorem sentinel_bounds_values (p : ComponentTreeParser) (hp : p.inverted_ = false)
    (a : OpenCVMatMserAnalyzer) (g : OpenCVMatAccessor) (node : Point2i) :
    (∀ c ∈ (ComponentTreeParser.ComponentStack p a).2, c.level = OpenCVMatAccessor.inf) ∧
      g.value node ≤ OpenCVMatAccessor.inf ∧
      (g.value node < OpenCVMatAccessor.inf ↔ g.value node ≠ 255) := by
  refine ⟨?_, ComponentTreeParser.value_le g node, ?_⟩
  · intro c hc
    simp only [ComponentTreeParser.ComponentStack, OpenCVMatMserAnalyzer.add_component,
      List.mem_singleton] at hc
    rw [hc]
    exact ComponentTreeParser.inf_eq p hp
  · have := ComponentTreeParser.value_le g node
    simp only [OpenCVMatAccessor.inf]
    omega

/-- An instance of C16 as amended: the pixel of value 0 of the one-pixel image. -/
theorem sentinel_bounds_values_witness :
    ({ inverted_ := false } : ComponentTreeParser).inverted_ = false ∧
    ((∀ c ∈ (ComponentTreeParser.ComponentStack { inverted_ := false } {}).2,
        c.level = OpenCVMatAccessor.inf) ∧
      (OpenCVMatAccessor.new onePixel).value { x := 0, y := 0 } ≤ OpenCVMatAccessor.inf ∧
      ((OpenCVMatAccessor.new onePixel).value { x := 0, y := 0 } < OpenCVMatAccessor.inf ↔
        (OpenCVMatAccessor.new onePixel).value { x := 0, y := 0 } ≠ 255)) :=
  ⟨rfl, sentinel_bounds_values { inverted_ := false } rfl {} (OpenCVMatAccessor.new onePixel)
    { x := 0, y := 0 }⟩

/-- C16 fails as stated: the accessor is constructed on the image of one pixel of value 255,
and the value of that node is `inf` itself, not below it. -/
theorem sentinel_bounds_values_counterexample :
    whitePixel.inBounds { x := 0, y := 0 } ∧
      (OpenCVMatAccessor.new whitePixel).value { x := 0, y := 0 } = OpenCVMatAccessor.inf ∧
      ¬ ((OpenCVMatAccessor.new whitePixel).value { x := 0, y := 0 }
          < OpenCVMatAccessor.inf) := by
  decide

/-- C17, as amended: in non-inverted mode, over the parse of an image with a pixel, the
nodes handed to `push` are, with their repetitions, the nodes the pops return, and there are
rows × cols of each: every push is popped once, but a pixel is pushed once more each time
the walk leaves it for a smaller neighbour and is not pushed when it is entered that way. -/
theorem pushes_match_pops (p : ComponentTreeParser) (hp : p.inverted_ = false) (data : Mat)
    (hrows : 0 < data.rows) (hcols : 0 < data.cols) :
    ∃ st, ComponentTreeParser.run p data = .ok st ∧
      (pushed st.trace).Perm (popped st.trace) ∧
      (pushed st.trace).length = data.rows * data.cols ∧
      (popped st.trace).length = data.rows * data.cols := by
  obtain ⟨st, hrun, hperm, hlen⟩ :=
    ComponentTreeParser.run_pushes_match_pops p hp data hrows hcols
  exact ⟨st, hrun, hperm, by rw [hperm.length_eq, hlen], hlen⟩

/-- A run of C17 as amended: the image of the two pixels 5 and 3. -/
theorem pushes_match_pops_witness :
    (({ inverted_ := false } : ComponentTreeParser).inverted_ = false ∧
      0 < twoPixels.rows ∧ 0 < twoPixels.cols) ∧
    ∃ st, ComponentTreeParser.run { inverted_ := false } twoPixels = .ok st ∧
      (pushed st.trace).Perm (popped st.trace) ∧
      (pushed st.trace).length = twoPixels.rows * twoPixels.cols ∧
      (popped st.trace).length = twoPixels.rows * twoPixels.cols :=
  ⟨⟨rfl, show 0 < 1 by decide, show 0 < 2 by decide⟩,
    pushes_match_pops { inverted_ := false } rfl twoPixels
      (show 0 < 1 by decide) (show 0 < 2 by decide)⟩

set_option maxRecDepth 100000 in
/-- C17 fails as stated: on the image of the two pixels 5 and 3 the pixel (0,0) is pushed
twice and popped twice, and the pixel (1,0), entered from (0,0) as the smaller neighbour, is
never pushed and never popped. -/
theorem pushes_match_pops_counterexample :
    twoPixels.inBounds { x := 1, y := 0 } ∧
    ∃ st, ComponentTreeParser.run { inverted_ := false } twoPixels = .ok st ∧
      pushed st.trace = [{ x := 0, y := 0 }, { x := 0, y := 0 }] ∧
      popped st.trace = [{ x := 0, y := 0 }, { x := 0, y := 0 }] := by
  have h : (match ComponentTreeParser.run { inverted_ := false } twoPixels with
      | .ok st => decide (pushed st.trace = [{ x := 0, y := 0 }, { x := 0, y := 0 }] ∧
          popped st.trace = [{ x := 0, y := 0 }, { x := 0, y := 0 }])
      | .error _ => false) = true := by
    decide
  refine ⟨by decide, ?_⟩
  generalize ComponentTreeParser.run { inverted_ := false } twoPixels = res at h
  cases res with
  | error e => simp at h
  | ok st =>
    simp only [decide_eq_true_eq] at h
    exact ⟨st, rfl, h.1, h.2⟩

/-- C18: in non-inverted mode, on an image with a pixel (the value 255 included), the run
returns, so no access to the stack is out of range; every stack of the run, the one found
by each `raise_level` and the one left at the end included, is not empty and has a component
at level inf at its bottom; and a `raise_level(L)` that finds the top below `L`, the only
case in which it reads the second component, finds at least two components. -/
theorem stack_rests_on_sentinel (p : ComponentTreeParser) (hp : p.inverted_ = false)
    (data : Mat) (hrows : 0 < data.rows) (hcols : 0 < data.cols) :
    ∃ st, ComponentTreeParser.run p data = .ok st ∧
      Grounded p.inf st.components_ ∧
      (∀ s ∈ stackLog st.trace, s ≠ [] ∧ Grounded p.inf s) ∧
      ∀ L before after, Event.raise_level L before after ∈ st.trace →
        before ≠ [] ∧ Grounded p.inf before ∧
          ∀ top ∈ before.head?, top.level < L → 2 ≤ before.length := by
  obtain ⟨st, hrun, hend, hlog, hraise⟩ :=
    ComponentTreeParser.run_grounded p hp data hrows hcols
  rw [ComponentTreeParser.inf_eq p hp]
  refine ⟨st, hrun, hend, ?_, ?_⟩
  · intro s hs
    refine ⟨?_, hlog s hs⟩
    intro h
    have := hlog s hs
    rw [h] at this
    exact not_grounded_nil this
  · intro L before after h
    obtain ⟨h1, h2⟩ := hraise L before after h
    refine ⟨?_, h1, h2⟩
    intro h0
    rw [h0] at h1
    exact not_grounded_nil h1

/-- A run of C18: the image of one pixel of value 255. -/
theorem stack_rests_on_sentinel_witness :
    (({ inverted_ := false } : ComponentTreeParser).inverted_ = false ∧
      0 < whitePixel.rows ∧ 0 < whitePixel.cols) ∧
    ∃ st, ComponentTreeParser.run { inverted_ := false } whitePixel = .ok st ∧
      Grounded ({ inverted_ := false } : ComponentTreeParser).inf st.components_ ∧
      (∀ s ∈ stackLog st.trace,
        s ≠ [] ∧ Grounded ({ inverted_ := false } : ComponentTreeParser).inf s) ∧
      ∀ L before after, Event.raise_level L before after ∈ st.trace →
        before ≠ [] ∧ Grounded ({ inverted_ := false } : ComponentTreeParser).inf before ∧
          ∀ top ∈ before.head?, top.level < L → 2 ≤ before.length :=
  ⟨⟨rfl, show 0 < 1 by decide, show 0 < 1 by decide⟩,
    stack_rests_on_sentinel { inverted_ := false } rfl whitePixel
      (show 0 < 1 by decide) (show 0 < 1 by decide)⟩

/-- C19, as amended: in non-inverted mode, for every stack of at least two components and
every level `L` with level(top) < `L` and `L` ≥ level(second), `raise_level(L)` merges the
top into the second with `L` itself as the level argument of the merge and pops the top;
the merged component is at level `L`, which is the level of the second only when `L` equals
it. -/
theorem raise_level_merges_at_level (p : ComponentTreeParser) (hp : p.inverted_ = false)
    (a : OpenCVMatMserAnalyzer) (top next : Component) (rest : List Component) (L : Nat)
    (h1 : top.level < L) (h2 : next.level ≤ L) :
    ComponentTreeParser.raise_level p a (top :: next :: rest) L
        = .ok ((a.merge_component_into top next L).1,
            (a.merge_component_into top next L).2 :: rest) ∧
      (a.merge_component_into top next L).2.level = L :=
  ⟨ComponentTreeParser.raise_level_merge p hp a top next rest L h1 h2,
    OpenCVMatMserAnalyzer.merge_component_into_level a top next L h1 h2⟩

/-- A call of C19 as amended: the stack of levels 2, 5 and 255 raised to 7. -/
theorem raise_level_merges_at_level_witness :
    (({ inverted_ := false } : ComponentTreeParser).inverted_ = false ∧
      ({ level := 2, stats := { N := 1 } } : Component).level < 7 ∧
      ({ level := 5, stats := { N := 1 } } : Component).level ≤ 7) ∧
    (ComponentTreeParser.raise_level { inverted_ := false } {}
        [{ level := 2, stats := { N := 1 } }, { level := 5, stats := { N := 1 } },
          { level := 255 }] 7
        = .ok ((({} : OpenCVMatMserAnalyzer).merge_component_into
              { level := 2, stats := { N := 1 } } { level := 5, stats := { N := 1 } } 7).1,
            [(({} : OpenCVMatMserAnalyzer).merge_component_into
              { level := 2, stats := { N := 1 } } { level := 5, stats := { N := 1 } } 7).2,
              { level := 255 }]) ∧
      (({} : OpenCVMatMserAnalyzer).merge_component_into
        { level := 2, stats := { N := 1 } } { level := 5, stats := { N := 1 } } 7).2.level
        = 7) :=
  ⟨⟨rfl, by decide, by decide⟩,
    raise_level_merges_at_level { inverted_ := false } rfl {}
      { level := 2, stats := { N := 1 } } { level := 5, stats := { N := 1 } }
      [{ level := 255 }] 7 (by decide) (by decide)⟩

/-- C19 fails as stated: on the stack of levels 2, 5 and 255, `raise_level(7)` merges with
the level argument 7, not with the level 5 of the second component: the merged component is
at level 7 and has 2 snapshots in its history, where a merge at 5 would leave it at level 5
without a snapshot. -/
theorem raise_level_merges_at_level_counterexample :
    ComponentTreeParser.raise_level { inverted_ := false } {}
        [{ level := 2, stats := { N := 1 } }, { level := 5, stats := { N := 1 } },
          { level := 255 }] 7
      = .ok ((({} : OpenCVMatMserAnalyzer).merge_component_into
              { level := 2, stats := { N := 1 } } { level := 5, stats := { N := 1 } } 7).1,
            [(({} : OpenCVMatMserAnalyzer).merge_component_into
              { level := 2, stats := { N := 1 } } { level := 5, stats := { N := 1 } } 7).2,
              { level := 255 }]) ∧
      (({} : OpenCVMatMserAnalyzer).merge_component_into
        { level := 2, stats := { N := 1 } } { level := 5, stats := { N := 1 } } 7).2.level
        = 7 ∧
      (({} : OpenCVMatMserAnalyzer).merge_component_into
        { level := 2, stats := { N := 1 } } { level := 5, stats := { N := 1 } } 5).2.level
        = 5 ∧
      (({} : OpenCVMatMserAnalyzer).merge_component_into
        { level := 2, stats := { N := 1 } } { level := 5, stats := { N := 1 } }
          7).2.history.length = 2 ∧
      (({} : OpenCVMatMserAnalyzer).merge_component_into
        { level := 2, stats := { N := 1 } } { level := 5, stats := { N := 1 } }
          5).2.history.length = 0 := by
  refine ⟨ComponentTreeParser.raise_level_merge { inverted_ := false } rfl {} _ _ _ 7
      (by decide) (by decide),
    OpenCVMatMserAnalyzer.merge_component_into_level {} _ _ 7 (by decide) (by decide),
    OpenCVMatMserAnalyzer.merge_component_into_level {} _ _ 5 (by decide) (by decide), ?_, ?_⟩
  · rw [OpenCVMatMserAnalyzer.merge_component_into_history]
    decide
  · rw [OpenCVMatMserAnalyzer.merge_component_into_history]
    decide

/-- C20: in non-inverted mode, over the parse of an image with a pixel, every node for which
`parse_` calls `push_component` is a local minimum of the image: none of its 4-neighbours
that is a pixel has a strictly smaller value. -/
theorem new_component_at_local_minimum (p : ComponentTreeParser) (hp : p.inverted_ = false)
    (data : Mat) (hrows : 0 < data.rows) (hcols : 0 < data.cols) :
    ∃ st, ComponentTreeParser.run p data = .ok st ∧
      ∀ n ∈ newComponentNodes st.trace, ∀ m ∈ neighbours4 n, data.inBounds m →
        ¬ data.atUchar m < data.atUchar n := by
  obtain ⟨st, hrun, hmin⟩ := ComponentTreeParser.run_local_minimum p hp data hrows hcols
  exact ⟨st, hrun, fun n hn m hm hin => Nat.not_lt.2 (hmin n hn m hm hin)⟩

/-- A run of C20: the image of the two pixels 5 and 3. -/
theorem new_component_at_local_minimum_witness :
    (({ inverted_ := false } : ComponentTreeParser).inverted_ = false ∧
      0 < twoPixels.rows ∧ 0 < twoPixels.cols) ∧
    ∃ st, ComponentTreeParser.run { inverted_ := false } twoPixels = .ok st ∧
      ∀ n ∈ newComponentNodes st.trace, ∀ m ∈ neighbours4 n, twoPixels.inBounds m →
        ¬ twoPixels.atUchar m < twoPixels.atUchar n :=
  ⟨⟨rfl, show 0 < 1 by decide, show 0 < 2 by decide⟩,
    new_component_at_local_minimum { inverted_ := false } rfl twoPixels
      (show 0 < 1 by decide) (show 0 < 2 by decide)⟩

end Stabilizer

namespace Stabilizer

namespace ComponentTreeParser

/-! ## The merges of a run -/

/-- A call of `raise_level` pops at most one component. -/
theorem raise_level_length (p : ComponentTreeParser) (hp : p.inverted_ = false)
    (a : OpenCVMatMserAnalyzer) (cs : List Component) (level : Nat)
    (r : OpenCVMatMserAnalyzer × List Component) (h : raise_level p a cs level = .ok r) :
    cs.length ≤ r.2.length + 1 := by
  rw [raise_level_eq p hp] at h
  cases cs with
  | nil => simp at h
  | cons top below =>
    simp only at h
    split at h
    · cases below with
      | nil => simp at h
      | cons next rest =>
        simp only at h
        split at h
        · simp only [Except.ok.injEq] at h
          rw [← h]; simp
        · simp only [Except.ok.injEq] at h
          rw [← h]; simp
    · simp only [Except.ok.injEq] at h
      rw [← h]; simp

/-- The value a pop returns is not above the level of the second component of the stack, as
soon as the order between stack and frontier holds. -/
theorem popped_le_second {data : Mat} {g : OpenCVMatAccessor} {a : OpenCVMatMserAnalyzer}
    {q q1 : OpenCVMatPriorityQueue} {fd : Bool} {tr : List Event} {f : Frontier}
    {n : Point2i} {top next : Component} {rest : List Component}
    (hB : Base data [] ⟨g, a, q, top :: next :: rest, fd, tr⟩ f)
    (hord : Ordered (levelsOf (top :: next :: rest)) fd f.entries)
    (hq : q.pop = (some n, q1)) : g.value n ≤ next.level := by
  have hmem := (hB.pop hq).2
  have hval := hB.values _ hmem
  simp only at hval
  have hgv : g.value n = Frontier.minValue f.entries := by
    have hd : g.data_ = data := hB.data_eq
    simp only [OpenCVMatAccessor.value, hd]
    exact hval.symm
  by_cases h255 : next.level < 255
  · obtain ⟨e, he, hev⟩ := hord.queued next.level (by simp [levelsOf]) h255
    rw [hgv, ← hev]
    exact Frontier.minValue_le_of_mem he
  · have := value_le g n
    omega

/-- Every `raise_level` of a run is a call that returned the stack the trace lists after it;
it found the level asked not above the second level, so on its merge branch the level asked
is the second level; and it popped at most one component. -/
theorem run_merges_at_second_level (p : ComponentTreeParser) (hp : p.inverted_ = false)
    (data : Mat) (hrows : 0 < data.rows) (hcols : 0 < data.cols) :
    ∃ st, run p data = .ok st ∧
      ∀ L before after, Event.raise_level L before after ∈ st.trace →
        ∃ a r, raise_level p a before L = .ok r ∧ r.2 = after ∧
          before.length ≤ after.length + 1 ∧
          ∀ top next rest, before = top :: next :: rest →
            L ≤ next.level ∧
            (top.level < L → ¬ L < next.level → L = next.level ∧
              r = ((a.merge_component_into top next next.level).1,
                (a.merge_component_into top next next.level).2 :: rest)) := by
  obtain ⟨st, f, h1, _, _, _, h5⟩ := parse_total_ordered p hp data hrows hcols (fuelFor data)
    le_rfl
    (fun st _ => ∀ L before after, Event.raise_level L before after ∈ st.trace →
        ∃ a r, raise_level p a before L = .ok r ∧ r.2 = after ∧
          before.length ≤ after.length + 1 ∧
          ∀ top next rest, before = top :: next :: rest →
            L ≤ next.level ∧
            (top.level < L → ¬ L < next.level → L = next.level ∧
              r = ((a.merge_component_into top next next.level).1,
                (a.merge_component_into top next next.level).2 :: rest)))
    (fun st _ _ => ∀ L before after, Event.raise_level L before after ∈ st.trace →
        ∃ a r, raise_level p a before L = .ok r ∧ r.2 = after ∧
          before.length ≤ after.length + 1 ∧
          ∀ top next rest, before = top :: next :: rest →
            L ≤ next.level ∧
            (top.level < L → ¬ L < next.level → L = next.level ∧
              r = ((a.merge_component_into top next next.level).1,
                (a.merge_component_into top next next.level).2 :: rest)))
    (by
      intro L before after h
      simp at h)
    (by
      intro g a q cs fd tr f n q1 r hB hord hI hq hr _
      intro L before after h
      simp only [List.mem_cons, Event.raise_level.injEq, reduceCtorEq, false_or] at h
      rcases h with ⟨hL, hbefore, hafter⟩ | h
      · rw [hL, hbefore, hafter]
        refine ⟨a, r, hr, rfl, raise_level_length p hp a cs _ r hr, ?_⟩
        intro top next rest hcs
        subst hcs
        have hle := popped_le_second hB hord hq
        refine ⟨hle, ?_⟩
        intro hlt hnlt
        have heq : g.value n = next.level := by omega
        refine ⟨heq, ?_⟩
        have hm := raise_level_merge p hp a top next rest (g.value n) hlt (by omega)
        rw [hr] at hm
        simp only [Except.ok.injEq] at hm
        rw [hm, heq]
      · exact hI L before after h)
    (by
      intro g a q cs fd tr f c v g1 _ _ hJ _ _ L before after h
      simp only [List.mem_cons, reduceCtorEq, false_or] at h
      exact hJ L before after h)
    (by
      intro g a q cs fd tr f c v g1 _ _ hJ _ _ L before after h
      simp only [List.mem_cons, reduceCtorEq, false_or] at h
      exact hJ L before after h)
    (by
      intro g a q cs tr f c g1 _ _ hJ _ L before after h
      simp only [List.mem_cons, reduceCtorEq, false_or] at h
      exact hJ L before after h)
    (by
      intro g a q cs tr f c g1 r2 _ _ hJ _ _ L before after h
      simp only [List.mem_cons, reduceCtorEq, false_or] at h
      exact hJ L before after h)
  exact ⟨st, h1, h5⟩

end ComponentTreeParser

end Stabilizer

namespace Stabilizer

/-! ## Statements: the level of the merges of a run -/

set_option maxRecDepth 100000 in
/-- The run on the image 3, 5, 3 has a `raise_level` that takes the merge branch: the
top is below the level asked and the level asked is not below the second level. -/
theorem valley_takes_merge_branch :
    ∃ st, ComponentTreeParser.run { inverted_ := false } valley = .ok st ∧
      ∃ L top next rest after, Event.raise_level L (top :: next :: rest) after ∈ st.trace ∧
        top.level < L ∧ ¬ L < next.level := by
  have h : (match ComponentTreeParser.run { inverted_ := false } valley with
      | .ok st => st.trace.any (fun e =>
          match e with
          | Event.raise_level L (top :: next :: _) _ =>
            decide (top.level < L ∧ ¬ L < next.level)
          | _ => false)
      | .error _ => false) = true := by
    decide
  generalize ComponentTreeParser.run { inverted_ := false } valley = res at h
  cases res with
  | error e => simp at h
  | ok st =>
    simp only [List.any_eq_true] at h
    obtain ⟨e, he, hcond⟩ := h
    refine ⟨st, rfl, ?_⟩
    cases e with
    | raise_level L before after =>
      match before, he, hcond with
      | top :: next :: rest, he, hcond =>
        simp only [decide_eq_true_eq] at hcond
        exact ⟨L, top, next, rest, after, he, hcond.1, hcond.2⟩
      | [], _, hcond => simp at hcond
      | [_], _, hcond => simp at hcond
    | init s => simp at hcond
    | push n v => simp at hcond
    | pop n => simp at hcond
    | push_component n l s => simp at hcond
    | push_node n l s => simp at hcond

/-- C21: in non-inverted mode, over the parse of an image with a pixel, every `raise_level(L)`
the parser makes is a call that returns the stack the trace lists after it and pops at most
one component; `L`, the value of the popped node, is not above the level of the second
component of the stack it finds; and when it takes the merge branch, `L` is that level, so
the merge it makes is the merge with the level of the second component as its level
argument. -/
theorem merge_level_is_second_level (p : ComponentTreeParser) (hp : p.inverted_ = false)
    (data : Mat) (hrows : 0 < data.rows) (hcols : 0 < data.cols) :
    ∃ st, ComponentTreeParser.run p data = .ok st ∧
      ∀ L before after, Event.raise_level L before after ∈ st.trace →
        ∃ a r, ComponentTreeParser.raise_level p a before L = .ok r ∧ r.2 = after ∧
          before.length ≤ after.length + 1 ∧
          ∀ top next rest, before = top :: next :: rest →
            L ≤ OpenCVMatMserAnalyzer.get_level next ∧
            (p.less (OpenCVMatMserAnalyzer.get_level top) L = true →
              ¬ p.less L (OpenCVMatMserAnalyzer.get_level next) = true →
              L = OpenCVMatMserAnalyzer.get_level next ∧
              r = ((a.merge_component_into top next
                    (OpenCVMatMserAnalyzer.get_level next)).1,
                (a.merge_component_into top next
                    (OpenCVMatMserAnalyzer.get_level next)).2 :: rest)) := by
  obtain ⟨st, hrun, hev⟩ :=
    ComponentTreeParser.run_merges_at_second_level p hp data hrows hcols
  refine ⟨st, hrun, ?_⟩
  intro L before after h
  obtain ⟨a, r, hr, hafter, hlen, hmerge⟩ := hev L before after h
  refine ⟨a, r, hr, hafter, hlen, ?_⟩
  intro top next rest hb
  simp only [ComponentTreeParser.less_eq p hp, decide_eq_true_eq,
    OpenCVMatMserAnalyzer.get_level]
  exact hmerge top next rest hb

/-- A run of C21: the image of one row with the values 3, 5, 3, whose run merges the
component of the right minimum into that of the left one at level 5. -/
theorem merge_level_is_second_level_witness :
    (({ inverted_ := false } : ComponentTreeParser).inverted_ = false ∧
      0 < valley.rows ∧ 0 < valley.cols) ∧
    ∃ st, ComponentTreeParser.run { inverted_ := false } valley = .ok st ∧
      ∀ L before after, Event.raise_level L before after ∈ st.trace →
        ∃ a r, ComponentTreeParser.raise_level { inverted_ := false } a before L = .ok r ∧
          r.2 = after ∧ before.length ≤ after.length + 1 ∧
          ∀ top next rest, before = top :: next :: rest →
            L ≤ OpenCVMatMserAnalyzer.get_level next ∧
            (({ inverted_ := false } : ComponentTreeParser).less
                (OpenCVMatMserAnalyzer.get_level top) L = true →
              ¬ ({ inverted_ := false } : ComponentTreeParser).less L
                (OpenCVMatMserAnalyzer.get_level next) = true →
              L = OpenCVMatMserAnalyzer.get_level next ∧
              r = ((a.merge_component_into top next
                    (OpenCVMatMserAnalyzer.get_level next)).1,
                (a.merge_component_into top next
                    (OpenCVMatMserAnalyzer.get_level next)).2 :: rest)) :=
  ⟨⟨rfl, show 0 < 1 by decide, show 0 < 3 by decide⟩,
    merge_level_is_second_level { inverted_ := false } rfl valley
      (show 0 < 1 by decide) (show 0 < 3 by decide)⟩

end Stabilizer

namespace Stabilizer

/-! ## The run on an image of one row whose values do not fall -/

theorem rowCalls_succ (p : ComponentTreeParser) (data : Mat) (k : Nat) :
    rowCalls p data (k + 1) = rowTurn p data (rowCalls p data k) k := by
  simp only [rowCalls, List.range_succ, List.foldl_append, List.foldl_cons, List.foldl_nil]

theorem rowNode_inj {i j : Nat} (h : rowNode i = rowNode j) : i = j := by
  have := congrArg Point2i.x h
  simp only [rowNode] at this
  exact_mod_cast this

namespace OpenCVMatAccessor

theorem next_node_mem_neighbours4 (node : Point2i) (m : Nat) :
    next_node node m ∈ neighbours4 node := by
  unfold next_node neighbours4
  split <;> simp

/-- A node `get_next_neighbor` returns is one of the four neighbours of the node asked. -/
theorem get_next_neighbor_loop_mem (k : Nat) :
    ∀ (g : OpenCVMatAccessor) (node v : Point2i),
      (get_next_neighbor_loop k g node).1 = some v → v ∈ neighbours4 node := by
  induction k with
  | zero =>
    intro g node v h
    simp [get_next_neighbor_loop] at h
  | succ k ih =>
    intro g node v h
    simp only [get_next_neighbor_loop] at h
    split at h
    · split at h
      · split at h
        · simp only [Option.some.injEq] at h
          rw [← h]
          exact next_node_mem_neighbours4 node _
        · exact ih _ node v h
      · exact ih _ node v h
    · simp at h

theorem get_next_neighbor_mem {g g1 : OpenCVMatAccessor} {node v : Point2i}
    (h : g.get_next_neighbor node = (some v, g1)) : v ∈ neighbours4 node := by
  apply get_next_neighbor_loop_mem (5 - g.mask_ node) g node v
  show (g.get_next_neighbor node).1 = some v
  rw [h]

end OpenCVMatAccessor

/-- In an image of one row, a neighbour of `rowNode k` that is a pixel is the node before it
or the node after it. -/
theorem row_neighbour {data : Mat} (hrows : data.rows = 1) {k : Nat} {v : Point2i}
    (hv : v ∈ neighbours4 (rowNode k)) (hin : data.inBounds v) :
    (v = rowNode (k + 1) ∧ k + 1 < data.cols) ∨ (∃ i, i < k ∧ v = rowNode i) := by
  simp only [Mat.inBounds, hrows] at hin
  simp only [neighbours4, rowNode, List.mem_cons, List.mem_singleton, List.not_mem_nil,
    or_false] at hv
  rcases hv with h | h | h | h
  · left
    subst h
    simp only at hin
    refine ⟨by simp [rowNode], by omega⟩
  · subst h; simp only at hin; omega
  · right
    subst h
    simp only at hin
    refine ⟨k - 1, by omega, ?_⟩
    simp only [rowNode, Point2i.mk.injEq, and_true]
    omega
  · subst h; simp only at hin; omega

namespace ComponentTreeParser

/-- The neighbour `get_next_neighbor` returns for `rowNode k`, when the nodes before it have
had their node event, is the node after it. -/
theorem row_next {data : Mat} (hrows : data.rows = 1) {g g1 : OpenCVMatAccessor}
    {a : OpenCVMatMserAnalyzer} {q : OpenCVMatPriorityQueue} {cs : List Component} {fd : Bool}
    {tr : List Event} {f : Frontier} {k : Nat} {v : Point2i}
    (hB : Base data [rowNode k] ⟨g, a, q, cs, fd, tr⟩ f)
    (hvis : ∀ n, n ∈ visited tr ↔ ∃ i, i < k ∧ n = rowNode i)
    (hn : g.get_next_neighbor (rowNode k) = (some v, g1)) :
    v = rowNode (k + 1) ∧ k + 1 < data.cols ∧ v ∉ f.entries.map Prod.fst := by
  have hstep := OpenCVMatAccessor.get_next_neighbor_step g (rowNode k)
  rw [hn] at hstep
  obtain ⟨_, hv0, hvin, _, _, _⟩ := hstep.ret v rfl
  have hd : g.data_ = data := hB.data_eq
  rw [hd] at hvin
  have hreach : ∀ n, n ∈ [rowNode k] ++ (f.entries.map Prod.fst ++ visited tr) →
      g.mask_ n ≠ 0 := fun n hn => (hB.reached n).2 hn
  rcases row_neighbour hrows (OpenCVMatAccessor.get_next_neighbor_mem hn) hvin with
    ⟨h1, h2⟩ | ⟨i, hi, h1⟩
  · refine ⟨h1, h2, ?_⟩
    intro hmem
    exact hreach v (by simp [hmem]) hv0
  · exfalso
    have : v ∈ visited tr := (hvis v).2 ⟨i, hi, h1⟩
    exact hreach v (by simp [this]) hv0

/-- On an image of one row whose values do not fall from left to right, the run pops the
nodes from left to right and never descends: the analyzer and the stack it ends with are
those of `rowCalls` over all the columns. -/
theorem run_row (p : ComponentTreeParser) (hp : p.inverted_ = false) (data : Mat)
    (hrows : data.rows = 1) (hcols : 0 < data.cols)
    (hmono : ∀ k, k + 1 < data.cols →
      data.atUchar (rowNode k) ≤ data.atUchar (rowNode (k + 1))) :
    ∃ st, run p data = .ok st ∧
      rowCalls p data data.cols = .ok (st.analyzer, st.components_) := by
  obtain ⟨st, f, h1, hb, hf, h4⟩ := parse_total p hp data (by omega) hcols (fuelFor data)
    le_rfl
    (fun st f =>
      (∀ n, n ∈ visited st.trace ↔ ∃ i, i < (visited st.trace).length ∧ n = rowNode i) ∧
      ((visited st.trace).length < data.cols →
        f.entries = [(rowNode (visited st.trace).length,
          data.atUchar (rowNode (visited st.trace).length))]) ∧
      (data.cols ≤ (visited st.trace).length → f.entries = []) ∧
      (st.flowingdown_phase = true ↔ (visited st.trace).length = 0) ∧
      rowCalls p data (visited st.trace).length = .ok (st.analyzer, st.components_))
    (fun st c f =>
      (∀ n, n ∈ visited st.trace ↔ ∃ i, i < (visited st.trace).length ∧ n = rowNode i) ∧
      (visited st.trace).length < data.cols ∧ c = rowNode (visited st.trace).length ∧
      (f.entries = [] ∨ f.entries = [(rowNode ((visited st.trace).length + 1),
          data.atUchar (rowNode ((visited st.trace).length + 1)))]) ∧
      (st.flowingdown_phase = true ↔ (visited st.trace).length = 0) ∧
      ∃ s, rowCalls p data (visited st.trace).length = .ok s ∧
        raise_level p s.1 s.2 (data.atUchar (rowNode (visited st.trace).length))
          = .ok (st.analyzer, st.components_))
    (by
      refine ⟨?_, ?_, ?_, ?_, ?_⟩
      · intro n
        simp [visited]
      · intro _
        simp only [visited, List.length_nil, Frontier.push, atUchar_mod]
        rfl
      · intro h
        simp only [visited, List.length_nil] at h
        omega
      · simp [visited]
      · simp only [visited, List.length_nil]
        simp only [rowCalls, List.range_zero, List.foldl_nil, ComponentStack,
          OpenCVMatMserAnalyzer.add_component, inf_eq p hp])
    (by
      intro g a q cs fd tr f n q1 r hB hI hq hr
      obtain ⟨hvis, hlt, hge, hfd, hcalls⟩ := hI
      simp only [visited] at hvis hlt hge hfd hcalls ⊢
      have hnew := (OpenCVMatPriorityQueue.pop_some hB.refines hq).1
      by_cases hk : (visited tr).length < data.cols
      · have he := hlt hk
        have hle := atUchar_le data (rowNode (visited tr).length)
        rw [he] at hnew ⊢
        have hmin : Frontier.minValue [(rowNode (visited tr).length,
            data.atUchar (rowNode (visited tr).length))]
            = data.atUchar (rowNode (visited tr).length) := by
          simp only [Frontier.minValue]
          omega
        rw [hmin] at hnew ⊢
        simp only [Frontier.newestWith, if_true, Option.some.injEq] at hnew
        subst hnew
        refine ⟨hvis, hk, rfl, Or.inl ?_, hfd, (a, cs), hcalls, ?_⟩
        · simp [Frontier.removeNewestWith]
        · have hv : g.value (rowNode (visited tr).length)
              = data.atUchar (rowNode (visited tr).length) := hB.value_eq _
          rw [← hv]
          exact hr
      · rw [hge (by omega)] at hnew
        simp [Frontier.newestWith] at hnew)
    (by
      intro g a q cs fd tr f c v g1 hB hJ hn hl
      exfalso
      obtain ⟨hvis, hk, hc, _, _, _⟩ := hJ
      simp only [visited] at hvis hk hc
      subst hc
      obtain ⟨hv, hk1, _⟩ := row_next hrows hB hvis hn
      have hd1 : g1.data_ = data := (get_next_neighbor_data hn).trans hB.data_eq
      simp only [less_eq p hp, decide_eq_true_eq, OpenCVMatAccessor.value, hd1, hv] at hl
      have := hmono _ hk1
      omega)
    (by
      intro g a q cs fd tr f c v g1 hB hJ hn _
      obtain ⟨hvis, hk, hc, hent, hfd, hs⟩ := hJ
      simp only [visited] at hvis hk hc hent hfd hs ⊢
      subst hc
      obtain ⟨hv, hk1, hnot⟩ := row_next hrows hB hvis hn
      have hd1 : g1.data_ = data := (get_next_neighbor_data hn).trans hB.data_eq
      refine ⟨hvis, hk, rfl, Or.inr ?_, hfd, hs⟩
      rcases hent with he | he
      · simp only [Frontier.push, he, OpenCVMatAccessor.value, hd1, atUchar_mod, hv]
      · exfalso
        apply hnot
        rw [he, hv]
        simp)
    (by
      intro g a q cs tr f c g1 hB hJ hn
      obtain ⟨hvis, hk, hc, hent, hfd, s, hs, hraise⟩ := hJ
      have hk0 : (visited tr).length = 0 := hfd.1 rfl
      simp only [visited] at hvis hk hc hent hs hraise
      subst hc
      obtain ⟨hB1, hc5⟩ := hB.exhausted hn
      have hd1 : g1.data_ = data := hB1.data_eq
      simp only [visited, List.length_cons]
      refine ⟨?_, ?_, ?_, ?_, ?_⟩
      · intro n
        simp only [List.mem_cons, hvis n]
        constructor
        · rintro (h | ⟨i, hi, h⟩)
          · exact ⟨_, Nat.lt_succ_self _, h⟩
          · exact ⟨i, Nat.lt_succ_of_lt hi, h⟩
        · rintro ⟨i, hi, h⟩
          rcases Nat.lt_succ_iff_lt_or_eq.1 hi with h2 | h2
          · exact Or.inr ⟨i, h2, h⟩
          · left; rw [h, h2]
      · intro hk1
        rcases hent with he | he
        · exfalso
          have hin : g1.data_.inBounds (OpenCVMatAccessor.next_node
              (rowNode (visited tr).length) 1) := by
            rw [hd1]
            simp only [OpenCVMatAccessor.next_node, rowNode, Mat.inBounds, hrows]
            omega
          have hm := hB1.checked (rowNode (visited tr).length) 1 le_rfl
            (by rw [hc5]; decide) hin
          have hreach := (hB1.reached _).1 hm
          simp only [he, List.map_nil, List.nil_append, List.mem_append, List.mem_singleton,
            hvis] at hreach
          rcases hreach with h | ⟨i, hi, h⟩
          · exact OpenCVMatAccessor.next_node_ne _ _ h
          · have hx := congrArg Point2i.x h
            simp only [OpenCVMatAccessor.next_node, rowNode] at hx
            omega
        · exact he
      · intro hk1
        rcases hent with he | he
        · exact he
        · exfalso
          have hin := hB.inb (rowNode ((visited tr).length + 1))
            ((hB.reached _).2 (by simp [he]))
          simp only [Mat.inBounds, rowNode] at hin
          omega
      · simp
      · rw [rowCalls_succ, hs]
        simp only [rowTurn, hraise]
        rw [if_pos hk0]
        simp only [OpenCVMatAccessor.value, hd1])
    (by
      intro g a q cs tr f c g1 r2 hB hJ hn hpn
      obtain ⟨hvis, hk, hc, hent, hfd, s, hs, hraise⟩ := hJ
      have hk0 : (visited tr).length ≠ 0 := fun h => by
        have := hfd.2 h
        cases this
      simp only [visited] at hvis hk hc hent hs hraise
      subst hc
      obtain ⟨hB1, hc5⟩ := hB.exhausted hn
      have hd1 : g1.data_ = data := hB1.data_eq
      simp only [visited, List.length_cons]
      refine ⟨?_, ?_, ?_, ?_, ?_⟩
      · intro n
        simp only [List.mem_cons, hvis n]
        constructor
        · rintro (h | ⟨i, hi, h⟩)
          · exact ⟨_, Nat.lt_succ_self _, h⟩
          · exact ⟨i, Nat.lt_succ_of_lt hi, h⟩
        · rintro ⟨i, hi, h⟩
          rcases Nat.lt_succ_iff_lt_or_eq.1 hi with h2 | h2
          · exact Or.inr ⟨i, h2, h⟩
          · left; rw [h, h2]
      · intro hk1
        rcases hent with he | he
        · exfalso
          have hin : g1.data_.inBounds (OpenCVMatAccessor.next_node
              (rowNode (visited tr).length) 1) := by
            rw [hd1]
            simp only [OpenCVMatAccessor.next_node, rowNode, Mat.inBounds, hrows]
            omega
          have hm := hB1.checked (rowNode (visited tr).length) 1 le_rfl
            (by rw [hc5]; decide) hin
          have hreach := (hB1.reached _).1 hm
          simp only [he, List.map_nil, List.nil_append, List.mem_append, List.mem_singleton,
            hvis] at hreach
          rcases hreach with h | ⟨i, hi, h⟩
          · exact OpenCVMatAccessor.next_node_ne _ _ h
          · have hx := congrArg Point2i.x h
            simp only [OpenCVMatAccessor.next_node, rowNode] at hx
            omega
        · exact he
      · intro hk1
        rcases hent with he | he
        · exact he
        · exfalso
          have hin := hB.inb (rowNode ((visited tr).length + 1))
            ((hB.reached _).2 (by simp [he]))
          simp only [Mat.inBounds, rowNode] at hin
          omega
      · simp
      · rw [rowCalls_succ, hs]
        simp only [rowTurn, hraise]
        rw [if_neg hk0]
        simp only [OpenCVMatAccessor.value, hd1] at hpn
        exact hpn)
  refine ⟨st, h1, ?_⟩
  obtain ⟨_, hlt, _, _, hcalls⟩ := h4
  have hlen : (visited st.trace).length = data.cols := by
    have hc := hb.complete hf
    have hp2 := hb.pops
    simp only [List.length_nil, Nat.add_zero] at hp2
    rw [← hp2, hc.2.2, hrows, Nat.one_mul]
  rw [hlen] at hcalls
  exact hcalls

end ComponentTreeParser

/-! ## The run on the ramp -/

theorem ramp_mono (k : Nat) (_h : k + 1 < ramp.cols) :
    ramp.atUchar (rowNode k) ≤ ramp.atUchar (rowNode (k + 1)) := by
  simp only [Mat.atUchar, ramp, rowNode]
  split_ifs <;> omega

set_option maxRecDepth 100000 in
/-- The stack calls of the run on the ramp emit one record: of size 200 and stability 995,
which is 5 · 199 / (200 - 199). -/
theorem rowCalls_ramp :
    (match rowCalls { inverted_ := false } ramp 202 with
      | .ok s => decide (s.1.result_.map (fun r => (r.N, r.stability))
          = [(200, FloatVal.finite 995)])
      | .error _ => false) = true := by
  decide!

/-- The run on the ramp returns a result of one record, of size 200 and stability 995. -/
theorem ramp_emits :
    ∃ st, ComponentTreeParser.run { inverted_ := false } ramp = .ok st ∧
      st.analyzer.get_result.map (fun r => (r.N, r.stability))
        = [(200, FloatVal.finite 995)] := by
  obtain ⟨st, hrun, hcalls⟩ := ComponentTreeParser.run_row { inverted_ := false } rfl ramp rfl
    (show 0 < 202 by decide) ramp_mono
  refine ⟨st, hrun, ?_⟩
  have h := rowCalls_ramp
  have hc : rowCalls { inverted_ := false } ramp 202 = .ok (st.analyzer, st.components_) :=
    hcalls
  rw [hc] at h
  simpa [OpenCVMatMserAnalyzer.get_result] using h

end Stabilizer

namespace Stabilizer

/-! ## The history a record is emitted from -/

namespace OpenCVMatMserAnalyzer

/-- What the history block of `add_node`, `raise_level` and `merge_component_into` adds to
the result is the examinee of the history it leaves. -/
theorem record_history_examinee {a : OpenCVMatMserAnalyzer} {comp : Component}
    {from_level : Nat} {stats : ComponentStats} {level : Nat} {r : ComponentStats}
    (h : r ∈ (record_history a comp from_level stats level).1.result_) :
    r ∈ a.result_ ∨ ExamineeOf (record_history a comp from_level stats level).2.history r := by
  unfold record_history at h ⊢
  split
  · rename_i hgt
    rw [if_pos hgt] at h
    exact check_mser_mem h
  · rename_i hgt
    rw [if_neg hgt] at h
    exact Or.inl h

theorem add_node_examinee {a : OpenCVMatMserAnalyzer} {node : Point2i} {level : Nat}
    {component : Component} {r : ComponentStats}
    (h : r ∈ (a.add_node node level component).1.result_) :
    r ∈ a.result_ ∨ ExamineeOf (a.add_node node level component).2.history r := by
  rw [add_node_fst] at h
  rw [add_node_history, ← record_history_history a]
  exact record_history_examinee h

theorem raise_level_examinee {a : OpenCVMatMserAnalyzer} {level : Nat} {component : Component}
    {r : ComponentStats} (h : r ∈ (a.raise_level component level).1.result_) :
    r ∈ a.result_ ∨ ExamineeOf (a.raise_level component level).2.history r :=
  record_history_examinee h

theorem merge_component_into_examinee {a : OpenCVMatMserAnalyzer} {comp1 comp2 : Component}
    {level : Nat} {r : ComponentStats}
    (h : r ∈ (a.merge_component_into comp1 comp2 level).1.result_) :
    r ∈ a.result_ ∨ ExamineeOf (a.merge_component_into comp1 comp2 level).2.history r := by
  rw [merge_component_into_fst] at h
  rw [merge_component_into_history]
  by_cases hw : comp1.stats.N > comp2.stats.N
  · rw [if_pos hw] at h ⊢
    have := record_history_examinee h
    rw [record_history_history] at this
    exact this
  · rw [if_neg hw] at h ⊢
    have := record_history_examinee h
    rw [record_history_history] at this
    exact this

end OpenCVMatMserAnalyzer

namespace ComponentTreeParser

/-- What a call of `raise_level` adds to the result is the examinee of the history of the
top of the stack it leaves. -/
theorem stack_raise_level_examinee (p : ComponentTreeParser) (hp : p.inverted_ = false)
    (a : OpenCVMatMserAnalyzer) (cs : List Component) (level : Nat)
    (r : OpenCVMatMserAnalyzer × List Component) (h : raise_level p a cs level = .ok r) :
    ∀ x ∈ r.1.result_, x ∈ a.result_ ∨ ∃ c rest, r.2 = c :: rest ∧
      OpenCVMatMserAnalyzer.ExamineeOf c.history x := by
  rw [raise_level_eq p hp] at h
  cases cs with
  | nil => simp at h
  | cons top below =>
    simp only at h
    split at h
    · cases below with
      | nil => simp at h
      | cons next rest =>
        simp only at h
        split at h
        · simp only [Except.ok.injEq] at h
          rw [← h]
          intro x hx
          rcases OpenCVMatMserAnalyzer.raise_level_examinee hx with hx | hx
          · exact Or.inl hx
          · exact Or.inr ⟨_, _, rfl, hx⟩
        · simp only [Except.ok.injEq] at h
          rw [← h]
          intro x hx
          rcases OpenCVMatMserAnalyzer.merge_component_into_examinee hx with hx | hx
          · exact Or.inl hx
          · exact Or.inr ⟨_, _, rfl, hx⟩
    · simp only [Except.ok.injEq] at h
      rw [← h]
      exact fun x hx => Or.inl hx

theorem push_node_examinee {a : OpenCVMatMserAnalyzer} {cs : List Component} {c : Point2i}
    {level : Nat} {r2 : OpenCVMatMserAnalyzer × List Component}
    (h : push_node a cs c level = .ok r2) :
    ∀ x ∈ r2.1.result_, x ∈ a.result_ ∨ ∃ c rest, r2.2 = c :: rest ∧
      OpenCVMatMserAnalyzer.ExamineeOf c.history x := by
  cases cs with
  | nil => simp [push_node] at h
  | cons top rest =>
    rw [push_node_cons] at h
    simp only [Except.ok.injEq] at h
    rw [← h]
    intro x hx
    rcases OpenCVMatMserAnalyzer.add_node_examinee hx with hx | hx
    · exact Or.inl hx
    · exact Or.inr ⟨_, _, rfl, hx⟩

/-- Every record of the result of a run is the examinee of the history of the top of a stack
of the run: the stack the call that emitted it left. -/
theorem run_examinee (p : ComponentTreeParser) (hp : p.inverted_ = false) (data : Mat)
    (hrows : 0 < data.rows) (hcols : 0 < data.cols) :
    ∃ st, run p data = .ok st ∧
      ∀ r ∈ st.analyzer.get_result, ∃ s ∈ stackLog st.trace, ∃ c rest, s = c :: rest ∧
        OpenCVMatMserAnalyzer.ExamineeOf c.history r := by
  obtain ⟨st, f, h1, _, _, h4⟩ := parse_total p hp data hrows hcols (fuelFor data) le_rfl
    (fun st _ => ∀ r ∈ st.analyzer.result_, ∃ s ∈ stackLog st.trace, ∃ c rest,
      s = c :: rest ∧ OpenCVMatMserAnalyzer.ExamineeOf c.history r)
    (fun st _ _ => ∀ r ∈ st.analyzer.result_, ∃ s ∈ stackLog st.trace, ∃ c rest,
      s = c :: rest ∧ OpenCVMatMserAnalyzer.ExamineeOf c.history r)
    (by intro r hr; cases hr)
    (by
      intro g a q cs fd tr f n q1 r _ hI _ hr x hx
      rcases stack_raise_level_examinee p hp a cs _ r hr x hx with hx | hx
      · obtain ⟨s, hs, hx⟩ := hI x hx
        exact ⟨s, by simp only [stackLog, List.mem_cons]; exact Or.inr hs, hx⟩
      · exact ⟨r.2, by simp [stackLog], hx⟩)
    (by
      intro g a q cs fd tr f c v g1 _ hJ _ _ x hx
      obtain ⟨s, hs, hx⟩ := hJ x hx
      exact ⟨s, by simpa [stackLog] using hs, hx⟩)
    (by
      intro g a q cs fd tr f c v g1 _ hJ _ _ x hx
      obtain ⟨s, hs, hx⟩ := hJ x hx
      exact ⟨s, by simpa [stackLog] using hs, hx⟩)
    (by
      intro g a q cs tr f c g1 _ hJ _ x hx
      obtain ⟨s, hs, hx⟩ := hJ x hx
      exact ⟨s, by simp only [stackLog, List.mem_cons]; exact Or.inr hs, hx⟩)
    (by
      intro g a q cs tr f c g1 r2 _ hJ _ hpn x hx
      rcases push_node_examinee hpn x hx with hx | hx
      · obtain ⟨s, hs, hx⟩ := hJ x hx
        exact ⟨s, by simp only [stackLog, List.mem_cons]; exact Or.inr hs, hx⟩
      · exact ⟨r2.2, by simp [stackLog], hx⟩)
  exact ⟨st, h1, h4⟩

end ComponentTreeParser

end Stabilizer

namespace Stabilizer

/-! ## Statements: the records of a result, on a run that emits -/

/-- C9: in non-inverted mode, for every image, a run on an image with a pixel returns, and
every record `r` in the result a run returns has `min_N_ ≤ N ≤ max_N_` (200 and 14400) and a
stability of at least `min_stability_` (20), and is the second snapshot of the history of
the top component of a stack of the run (the stack the emitting call left), where its
stability is strictly above that of the snapshot before it (`pred`, the third) and of the
snapshot after it (`succ`, the first) in that history. -/
theorem emitted_records_pass_test (p : ComponentTreeParser) (hp : p.inverted_ = false)
    (data : Mat) :
    (0 < data.rows → 0 < data.cols → ∃ st, ComponentTreeParser.run p data = .ok st) ∧
    ∀ st, ComponentTreeParser.run p data = .ok st →
      ∀ r ∈ st.analyzer.get_result,
        OpenCVMatMserAnalyzer.min_N_ ≤ r.N ∧ r.N ≤ OpenCVMatMserAnalyzer.max_N_ ∧
        r.stability.ge OpenCVMatMserAnalyzer.min_stability_ = true ∧
        ∃ s ∈ stackLog st.trace, ∃ c rest succ pred tail, s = c :: rest ∧
          c.history = succ :: r :: pred :: tail ∧
          r.stability.gt pred.stability = true ∧ r.stability.gt succ.stability = true := by
  refine ⟨?_, ?_⟩
  · intro hrows hcols
    obtain ⟨st, hrun, _⟩ := ComponentTreeParser.run_examinee p hp data hrows hcols
    exact ⟨st, hrun⟩
  · intro st hst r hr
    by_cases hsize : data.rows = 0 ∨ data.cols = 0
    · have herr := ComponentTreeParser.parse_no_pixel p hsize (ComponentTreeParser.fuelFor data)
      have hst2 : ComponentTreeParser.parse_ p (ComponentTreeParser.fuelFor data)
          (OpenCVMatAccessor.new data) {} OpenCVMatPriorityQueue.empty = .ok st := hst
      rw [herr] at hst2
      cases hst2
    · obtain ⟨st2, hrun, hall⟩ := ComponentTreeParser.run_examinee p hp data
        (by omega) (by omega)
      rw [hst] at hrun
      simp only [Except.ok.injEq] at hrun
      subst hrun
      obtain ⟨s, hs, c, rest, hsc, succ, pred, tail, hhist, h1, h2, h3, h4, h5⟩ := hall r hr
      exact ⟨h3, h4, h5, s, hs, c, rest, succ, pred, tail, hsc, hhist, h1, h2⟩

/-- A run of C9: the ramp, the one-row image of 199 pixels of value 0 followed by 5, 6, 7.
Its result holds one record, of size 200 and stability 995. -/
theorem emitted_records_pass_test_witness :
    ({ inverted_ := false } : ComponentTreeParser).inverted_ = false ∧
    ∃ st, ComponentTreeParser.run { inverted_ := false } ramp = .ok st ∧
      st.analyzer.get_result.map (fun r => (r.N, r.stability))
        = [(200, FloatVal.finite 995)] ∧
      ∀ r ∈ st.analyzer.get_result,
        OpenCVMatMserAnalyzer.min_N_ ≤ r.N ∧ r.N ≤ OpenCVMatMserAnalyzer.max_N_ ∧
        r.stability.ge OpenCVMatMserAnalyzer.min_stability_ = true ∧
        ∃ s ∈ stackLog st.trace, ∃ c rest succ pred tail, s = c :: rest ∧
          c.history = succ :: r :: pred :: tail ∧
          r.stability.gt pred.stability = true ∧ r.stability.gt succ.stability = true := by
  obtain ⟨st, hrun, hres⟩ := ramp_emits
  exact ⟨rfl, st, hrun, hres,
    (emitted_records_pass_test { inverted_ := false } rfl ramp).2 st hrun⟩

end Stabilizer
